import Mathlib

/-! Shallow embedding of aria2 `SelectEventPoll`.

The development follows `src/SelectEventPoll.cc` (the `select(2)` backend of
aria2's event poll), built without `__MINGW32__` and with `ENABLE_ASYNC_DNS`.

* Commands and name resolvers are external objects, referenced by identity
  (a `Nat`); the calls the reactor makes on them are recorded in a trace.
* `sock_t` is `int`; sockets are `Int`.  Event masks are non-negative `int`
  values and are `Nat`, with the bitwise operators of `Nat`.
* `fd_set` is a finite set of descriptors (`Finset Int`); `FD_ISSET` is
  membership for a descriptor in `[0, FD_SETSIZE)`, and for any other descriptor
  the value found outside the `fd_set` is supplied by the external world.
* `std::deque<SharedHandle<T>>` is a `List T`; iterators are indices, with
  `length` standing for `end()`.
* `FD_SETSIZE` is a platform constant and a parameter of the development.
-/

namespace aria2

/-! ## Event masks (`EventPoll::EventType`) -/

namespace EventPoll

/-- Modelled from the spec: `EventPoll.h` is not part of the sources; "event
mask values are a fixed four-bit enumeration: READ, WRITE, ERROR, HUP,
combinable by bitwise OR".  READ is the lowest bit. -/
def EVENT_READ : Nat := 1

/-- Modelled from the spec: the WRITE bit of the four-bit enumeration. -/
def EVENT_WRITE : Nat := 2

/-- Modelled from the spec: the ERROR bit of the four-bit enumeration. -/
def EVENT_ERROR : Nat := 4

/-- Modelled from the spec: the HUP bit of the four-bit enumeration. -/
def EVENT_HUP : Nat := 8

end EventPoll

open EventPoll

/-! ## Calls on the external collaborators -/

/-- One call made by the reactor on a command (`Command*`, by identity) or on
a name resolver. -/
inductive Call where
  | setStatusActive (command : Nat)
  | readEventReceived (command : Nat)
  | writeEventReceived (command : Nat)
  | errorEventReceived (command : Nat)
  | hupEventReceived (command : Nat)
  | getFds (nameResolver : Nat)
  | process (nameResolver : Nat)
  deriving DecidableEq, Repr

/-! ## `SelectEventPoll::CommandEvent` -/

/-- The pair `(_command, _events)` of `SelectEventPoll::CommandEvent`. -/
structure CommandEvent where
  command : Nat
  events : Nat
  deriving DecidableEq, Repr

namespace CommandEvent

/-- Modelled from the spec: `CommandEvent::operator==` is declared in
`SelectEventPoll.h`, which is not part of the sources; "two instances are equal
iff their command identities match (mask is irrelevant to identity)". -/
instance : BEq CommandEvent := ⟨fun a b => decide (a.command = b.command)⟩

/-- Modelled from the spec: `CommandEvent::addEvents` is declared in the
missing header; "`add(mask)`: bitwise-OR mask into the stored mask". -/
def addEvents (ce : CommandEvent) (events : Nat) : CommandEvent :=
  { ce with events := ce.events ||| events }

/-- Modelled from the spec: `CommandEvent::removeEvents` is declared in the
missing header; "`remove(mask)`: bitwise-AND-NOT mask out of the stored mask".
On non-negative masks `m & ~e` is `m` without the bits it shares with `e`,
written here as `m xor (m and e)` so that it evaluates; `removeEvents_eq_ldiff`
shows it is the library's and-not `Nat.ldiff`. -/
def removeEvents (ce : CommandEvent) (events : Nat) : CommandEvent :=
  { ce with events := ce.events ^^^ (ce.events &&& events) }

/-- Modelled from the spec: `CommandEvent::eventsEmpty` is declared in the
missing header; "`is_empty()`: true iff stored mask is zero". -/
def eventsEmpty (ce : CommandEvent) : Bool := decide (ce.events = 0)

/-- Modelled from the spec: `CommandEvent::getEvents`, the stored mask. -/
def getEvents (ce : CommandEvent) : Nat := ce.events

/-- Source `CommandEvent::processEvents(int events)`: the calls made on the command,
in program order.  A C `int` used as a condition is true when non-zero. -/
def processEvents (ce : CommandEvent) (events : Nat) : List Call :=
  (if (ce.events &&& events) ≠ 0 ∨ ((EVENT_ERROR ||| EVENT_HUP) &&& events) ≠ 0
    then [Call.setStatusActive ce.command] else []) ++
  (if (EVENT_READ &&& events) ≠ 0 then [Call.readEventReceived ce.command] else []) ++
  (if (EVENT_WRITE &&& events) ≠ 0 then [Call.writeEventReceived ce.command] else []) ++
  (if (EVENT_ERROR &&& events) ≠ 0 then [Call.errorEventReceived ce.command] else []) ++
  (if (EVENT_HUP &&& events) ≠ 0 then [Call.hupEventReceived ce.command] else [])

end CommandEvent

/-! ## `SelectEventPoll::SocketEntry` -/

/-- The pair `(_socket, _commandEvents)` of `SelectEventPoll::SocketEntry`. -/
structure SocketEntry where
  socket : Int
  commandEvents : List CommandEvent
  deriving DecidableEq, Repr

/-- Source `accumulateEvent`: `events|event.getEvents()`. -/
def accumulateEvent (events : Nat) (event : CommandEvent) : Nat :=
  events ||| event.getEvents

namespace SocketEntry

/-- Source `SocketEntry::SocketEntry(sock_t socket)`: no command events yet. -/
def new (socket : Int) : SocketEntry := ⟨socket, []⟩

/-- Modelled from the spec: `SocketEntry::operator==` is declared in the
missing header; "ordering key for the owning sequence is `fd`", an entry "for
fd exists" when the sockets are equal. -/
instance : BEq SocketEntry := ⟨fun a b => decide (a.socket = b.socket)⟩

/-- Modelled from the spec: `SocketEntry::operator<` is declared in the missing
header; "ordering key for the owning sequence is `fd` (total order, used for
binary search)". -/
def lt (a b : SocketEntry) : Bool := decide (a.socket < b.socket)

/-- Modelled from the spec: `SocketEntry::eventEmpty` is declared in the
missing header; the registration's "interest collection" is empty. -/
def eventEmpty (e : SocketEntry) : Bool := e.commandEvents.isEmpty

/-- Source `SocketEntry::addCommandEvent`: `std::find` the command event equal to
`cev` (first match, `length` for `end()`); push back when absent, else merge
the events into the one found. -/
def addCommandEvent (e : SocketEntry) (command : Nat) (events : Nat) : SocketEntry :=
  let cev : CommandEvent := ⟨command, events⟩
  let i := e.commandEvents.findIdx (fun x => x == cev)
  match e.commandEvents[i]? with
  | none => { e with commandEvents := e.commandEvents ++ [cev] }
  | some x => { e with commandEvents := e.commandEvents.set i (x.addEvents events) }

/-- Source `SocketEntry::removeCommandEvent`: `std::find` the command event equal to
`cev`; nothing when absent, else remove the events from the one found and
erase it when its events are empty. -/
def removeCommandEvent (e : SocketEntry) (command : Nat) (events : Nat) : SocketEntry :=
  let cev : CommandEvent := ⟨command, events⟩
  let i := e.commandEvents.findIdx (fun x => x == cev)
  match e.commandEvents[i]? with
  | none => e
  | some x =>
    let y := x.removeEvents events
    if y.eventsEmpty then { e with commandEvents := e.commandEvents.eraseIdx i }
    else { e with commandEvents := e.commandEvents.set i y }

/-- Source `SocketEntry::processEvents`: `CommandEvent::processEvents(events)` for
each command event, front to back. -/
def processEvents (e : SocketEntry) (events : Nat) : List Call :=
  e.commandEvents.flatMap (fun ce => ce.processEvents events)

/-- Source `SocketEntry::getEvents`: `std::accumulate` with `accumulateEvent` from 0. -/
def getEvents (e : SocketEntry) : Nat :=
  e.commandEvents.foldl accumulateEvent 0

end SocketEntry

/-! ## `SelectEventPoll::AsyncNameResolverEntry` -/

/-- The pair `(_nameResolver, _command)`, both by identity. -/
structure AsyncNameResolverEntry where
  nameResolver : Nat
  command : Nat
  deriving DecidableEq, Repr

/-- Modelled from the spec: `AsyncNameResolverEntry::operator==` is declared in
the missing header; "equality by identity of the pair". -/
instance : BEq AsyncNameResolverEntry :=
  ⟨fun a b => decide (a.nameResolver = b.nameResolver) && decide (a.command = b.command)⟩

/-- The equality of resolver entries is equality of the two identities. -/
instance : LawfulBEq AsyncNameResolverEntry where
  eq_of_beq := by
    intro a b h
    obtain ⟨a1, a2⟩ := a
    obtain ⟨b1, b2⟩ := b
    simp only [BEq.beq, Bool.and_eq_true, decide_eq_true_eq] at h
    simp [h.1, h.2]
  rfl := by
    intro a
    simp [BEq.beq]

/-- Modelled from the spec: the statuses of `AsyncNameResolver`, whose header
is not part of the sources; "`status() -> {pending, succeeded, errored}`".
The source names `STATUS_SUCCESS` and `STATUS_ERROR`. -/
inductive Status where
  | STATUS_PENDING
  | STATUS_SUCCESS
  | STATUS_ERROR
  deriving DecidableEq, Repr

/-! ## The reactor state -/

/-- The data members of `SelectEventPoll`: `_socketEntries`,
`_nameResolverEntries`, `_rfdset`, `_wfdset`, `_fdmax`. -/
structure SelectEventPoll where
  socketEntries : List SocketEntry
  nameResolverEntries : List AsyncNameResolverEntry
  rfdset : Finset Int
  wfdset : Finset Int
  fdmax : Int
  deriving DecidableEq

/-- One iteration of the loop of `updateFdSet`. -/
def updateFdSetStep (FD_SETSIZE : Int) (s : SelectEventPoll) (e : SocketEntry) :
    SelectEventPoll :=
  let fd := e.socket
  if fd < 0 ∨ FD_SETSIZE ≤ fd then s
  else
    let events := e.getEvents
    let s1 := if (events &&& EVENT_READ) ≠ 0 then { s with rfdset := insert fd s.rfdset } else s
    let s2 := if (events &&& EVENT_WRITE) ≠ 0 then { s1 with wfdset := insert fd s1.wfdset } else s1
    if s2.fdmax < fd then { s2 with fdmax := fd } else s2

/-- Source `SelectEventPoll::updateFdSet`: reset `_fdmax` and both sets, then walk
`_socketEntries` front to back. -/
def updateFdSet (FD_SETSIZE : Int) (s : SelectEventPoll) : SelectEventPoll :=
  s.socketEntries.foldl (updateFdSetStep FD_SETSIZE)
    { s with fdmax := 0, rfdset := ∅, wfdset := ∅ }

/-- Source `SelectEventPoll::SelectEventPoll()`: empty containers, then `updateFdSet`. -/
def SelectEventPoll.new (FD_SETSIZE : Int) : SelectEventPoll :=
  updateFdSet FD_SETSIZE ⟨[], [], ∅, ∅, 0⟩

/-- The loop of `std::lower_bound` over `[first, first + len)`: halve the
range, going right when the middle element is less than the value.  The first
argument bounds the number of iterations. -/
def lower_boundLoop (xs : List SocketEntry) (socket : Int) : Nat → Nat → Nat → Nat
  | 0, first, _ => first
  | fuel + 1, first, len =>
    if len = 0 then first
    else
      let half := len / 2
      let middle := first + half
      match xs[middle]? with
      | none => first
      | some e =>
        if e.lt (SocketEntry.new socket) then
          lower_boundLoop xs socket fuel (middle + 1) (len - half - 1)
        else lower_boundLoop xs socket fuel first half

/-- Source `std::lower_bound(_socketEntries.begin(), _socketEntries.end(), socketEntry)`
for `socketEntry = SocketEntry(socket)`; the range shrinks at every iteration,
so `length` iterations are enough. -/
def lower_bound (xs : List SocketEntry) (socket : Int) : Nat :=
  lower_boundLoop xs socket xs.length 0 xs.length

/-- Source `SelectEventPoll::addEvents`: the returned flag and the new state. -/
def addEvents (FD_SETSIZE : Int) (s : SelectEventPoll) (socket : Int) (command : Nat)
    (events : Nat) : Bool × SelectEventPoll :=
  let socketEntry := SocketEntry.new socket
  let i := lower_bound s.socketEntries socket
  let r : Int := 0
  let entries :=
    match s.socketEntries[i]? with
    | some e =>
      if e == socketEntry then s.socketEntries.set i (e.addCommandEvent command events)
      else s.socketEntries.take i ++
        socketEntry.addCommandEvent command events :: s.socketEntries.drop i
    | none => s.socketEntries.take i ++
        socketEntry.addCommandEvent command events :: s.socketEntries.drop i
  let s1 := updateFdSet FD_SETSIZE { s with socketEntries := entries }
  if r = -1 then (false, s1) else (true, s1)

/-- Source `SelectEventPoll::deleteEvents`: the returned flag and the new state. -/
def deleteEvents (FD_SETSIZE : Int) (s : SelectEventPoll) (socket : Int) (command : Nat)
    (events : Nat) : Bool × SelectEventPoll :=
  let socketEntry := SocketEntry.new socket
  let i := lower_bound s.socketEntries socket
  match s.socketEntries[i]? with
  | some e =>
    if e == socketEntry then
      let e1 := e.removeCommandEvent command events
      let r : Int := 0
      let entries :=
        if e1.eventEmpty then s.socketEntries.eraseIdx i else s.socketEntries.set i e1
      let s1 := updateFdSet FD_SETSIZE { s with socketEntries := entries }
      if r = -1 then (false, s1) else (true, s1)
    else (false, s)
  | none => (false, s)

/-- Source `SelectEventPoll::addNameResolver`. -/
def addNameResolver (s : SelectEventPoll) (resolver : Nat) (command : Nat) :
    Bool × SelectEventPoll :=
  let entry : AsyncNameResolverEntry := ⟨resolver, command⟩
  let itr := s.nameResolverEntries.findIdx (fun x => x == entry)
  if itr = s.nameResolverEntries.length then
    (true, { s with nameResolverEntries := s.nameResolverEntries ++ [entry] })
  else (false, s)

/-- Source `SelectEventPoll::deleteNameResolver`. -/
def deleteNameResolver (s : SelectEventPoll) (resolver : Nat) (command : Nat) :
    Bool × SelectEventPoll :=
  let entry : AsyncNameResolverEntry := ⟨resolver, command⟩
  let itr := s.nameResolverEntries.findIdx (fun x => x == entry)
  if itr = s.nameResolverEntries.length then (false, s)
  else (true, { s with nameResolverEntries := s.nameResolverEntries.eraseIdx itr })

/-! ## The wait cycle -/

/-- What one call of `select(2)` leaves behind: its return value, `errno`, and
the two descriptor sets it has overwritten. -/
structure SelectResult where
  retval : Int
  errno : Int
  rfds : Finset Int
  wfds : Finset Int

/-- The external collaborators of a wait cycle, as functions of an explicit
world `W`: the name resolvers (`AsyncNameResolver::getFds`, `process`,
`getStatus`, each addressed by the resolver's identity), the `select` system
call and the platform's `EINTR`.  `getFds` and `process` receive pointers to
the working sets and may write them.  `readOutside` and `writeOutside` are
what `FD_ISSET` yields on the working read and write set for a descriptor
outside `[0, FD_SETSIZE)`: the C code then reads memory outside the `fd_set`,
and what it finds there is left to the world. -/
structure Env (W : Type) where
  EINTR : Int
  getFds : W → Nat → Finset Int → Finset Int → W × Int × Finset Int × Finset Int
  select : W → Int → Finset Int → Finset Int → W × SelectResult
  process : W → Nat → Finset Int → Finset Int → W × Finset Int × Finset Int
  getStatus : W → Nat → Status
  readOutside : W → Int → Bool
  writeOutside : W → Int → Bool

/-- The local variables of `poll` (`rfds`, `wfds`), the member `_fdmax`, the
world, and the calls made so far (oldest first). -/
structure Cycle (W : Type) where
  world : W
  rfds : Finset Int
  wfds : Finset Int
  fdmax : Int
  calls : List Call

/-- One iteration of the first loop of `poll`: `AsyncNameResolverEntry::getFds`
and the update of `_fdmax`. -/
def getFdsStep {W : Type} (env : Env W) (c : Cycle W) (entry : AsyncNameResolverEntry) :
    Cycle W :=
  let out := env.getFds c.world entry.nameResolver c.rfds c.wfds
  let fd := out.2.1
  { world := out.1, rfds := out.2.2.1, wfds := out.2.2.2,
    fdmax := if c.fdmax < fd then fd else c.fdmax,
    calls := c.calls ++ [Call.getFds entry.nameResolver] }

/-- The `do ... while(retval == -1 && errno == EINTR)` loop around `select`;
the first argument bounds the number of calls, `none` when it is used up. -/
def selectLoop {W : Type} (env : Env W) (nfds : Int) :
    Nat → W → Finset Int → Finset Int → Option (W × SelectResult)
  | 0, _, _, _ => none
  | fuel + 1, w, rfds, wfds =>
    let out := env.select w nfds rfds wfds
    if out.2.retval = -1 ∧ out.2.errno = env.EINTR then
      selectLoop env nfds fuel out.1 out.2.rfds out.2.wfds
    else some out

/-- Source `FD_ISSET(fd, &set)`: for a descriptor in `[0, FD_SETSIZE)` whether
it is in the set; for any other descriptor the C code reads outside the
`fd_set`, and the value `outside fd` it finds is supplied by the world. -/
def FD_ISSET (FD_SETSIZE : Int) (outside : Int → Bool) (fd : Int) (set : Finset Int) : Bool :=
  if 0 ≤ fd ∧ fd < FD_SETSIZE then decide (fd ∈ set) else outside fd

/-- The body of the loop over `_socketEntries` in `poll`: the delivered events
from `FD_ISSET` on both working sets, then `SocketEntry::processEvents`.
The loop has no range test, so `FD_ISSET` is applied to every registered
socket, also to one outside `[0, FD_SETSIZE)`. -/
def pollSocketEntry (FD_SETSIZE : Int) (routside woutside : Int → Bool)
    (rfds wfds : Finset Int) (e : SocketEntry) : List Call :=
  let events0 : Nat := 0
  let events1 :=
    if FD_ISSET FD_SETSIZE routside e.socket rfds then events0 ||| EVENT_READ else events0
  let events2 :=
    if FD_ISSET FD_SETSIZE woutside e.socket wfds then events1 ||| EVENT_WRITE else events1
  e.processEvents events2

/-- Source `AsyncNameResolverEntry::process`: advance the resolver, then activate the
command when the status is `STATUS_SUCCESS` or `STATUS_ERROR`. -/
def processStep {W : Type} (env : Env W) (c : Cycle W) (entry : AsyncNameResolverEntry) :
    Cycle W :=
  let out := env.process c.world entry.nameResolver c.rfds c.wfds
  let active :=
    match env.getStatus out.1 entry.nameResolver with
    | Status.STATUS_SUCCESS => [Call.setStatusActive entry.command]
    | Status.STATUS_ERROR => [Call.setStatusActive entry.command]
    | _ => []
  { world := out.1, rfds := out.2.1, wfds := out.2.2, fdmax := c.fdmax,
    calls := c.calls ++ Call.process entry.nameResolver :: active }

/-- Source `SelectEventPoll::poll`: the new state (only `_fdmax` can change), the
world afterwards and the calls made, oldest first; `none` when `select` is
still being interrupted after `fuel` calls. -/
def poll {W : Type} (FD_SETSIZE : Int) (env : Env W) (fuel : Nat) (w : W)
    (s : SelectEventPoll) : Option (SelectEventPoll × W × List Call) :=
  let c0 : Cycle W := ⟨w, s.rfdset, s.wfdset, s.fdmax, []⟩
  let c1 := s.nameResolverEntries.foldl (getFdsStep env) c0
  match selectLoop env (c1.fdmax + 1) fuel c1.world c1.rfds c1.wfds with
  | none => none
  | some out =>
    let retval := out.2.retval
    let calls2 :=
      if retval > 0 then
        c1.calls ++ s.socketEntries.flatMap
          (pollSocketEntry FD_SETSIZE (env.readOutside out.1) (env.writeOutside out.1)
            out.2.rfds out.2.wfds)
      else c1.calls
    let c2 : Cycle W := ⟨out.1, out.2.rfds, out.2.wfds, c1.fdmax, calls2⟩
    let c3 := s.nameResolverEntries.foldl (processStep env) c2
    some ({ s with fdmax := c3.fdmax }, c3.world, c3.calls)

/-! ## Reachable states -/

/-- The states of a reactor after its constructor and any sequence of
`addEvents`, `deleteEvents`, `addNameResolver`, `deleteNameResolver` and
completed `poll` calls, against any external world. -/
inductive Reachable (FD_SETSIZE : Int) : SelectEventPoll → Prop
  | new : Reachable FD_SETSIZE (SelectEventPoll.new FD_SETSIZE)
  | addEvents (s : SelectEventPoll) (socket : Int) (command events : Nat) :
      Reachable FD_SETSIZE s →
      Reachable FD_SETSIZE (addEvents FD_SETSIZE s socket command events).2
  | deleteEvents (s : SelectEventPoll) (socket : Int) (command events : Nat) :
      Reachable FD_SETSIZE s →
      Reachable FD_SETSIZE (deleteEvents FD_SETSIZE s socket command events).2
  | addNameResolver (s : SelectEventPoll) (resolver command : Nat) :
      Reachable FD_SETSIZE s → Reachable FD_SETSIZE (addNameResolver s resolver command).2
  | deleteNameResolver (s : SelectEventPoll) (resolver command : Nat) :
      Reachable FD_SETSIZE s → Reachable FD_SETSIZE (deleteNameResolver s resolver command).2
  | poll {W : Type} (env : Env W) (fuel : Nat) (w : W) (s : SelectEventPoll)
      (out : SelectEventPoll × W × List Call) :
      Reachable FD_SETSIZE s → poll FD_SETSIZE env fuel w s = some out →
      Reachable FD_SETSIZE out.1

/-! ## Observations used to state the properties -/

/-- The registration for `socket`, if any: the first entry with that socket. -/
def findEntry (s : SelectEventPoll) (socket : Int) : Option SocketEntry :=
  s.socketEntries.find? (fun e => decide (e.socket = socket))

/-- The mask stored for `command` in a registration: that of the first command
event of that command, `none` when the command has no command event. -/
def SocketEntry.storedEvents (e : SocketEntry) (command : Nat) : Option Nat :=
  (e.commandEvents.find? (fun x => decide (x.command = command))).map (fun x => x.events)

/-- The mask stored for `(socket, command)`: `none` when there is no
registration for the socket or the command has no command event in it. -/
def storedEvents (s : SelectEventPoll) (socket : Int) (command : Nat) : Option Nat :=
  (findEntry s socket).bind (fun e => e.storedEvents command)

/-! ## Auxiliary definitions for the proofs -/

/-- The command events after `SocketEntry::addCommandEvent`, by recursion on
the collection (proved equal to the source's find-then-update form). -/
def addCE : List CommandEvent → Nat → Nat → List CommandEvent
  | [], command, events => [⟨command, events⟩]
  | x :: xs, command, events =>
    if x.command = command then x.addEvents events :: xs
    else x :: addCE xs command events

/-- The command events after `SocketEntry::removeCommandEvent`, by recursion on
the collection (proved equal to the source's find-then-update form). -/
def removeCE : List CommandEvent → Nat → Nat → List CommandEvent
  | [], _, _ => []
  | x :: xs, command, events =>
    if x.command = command then
      (if (x.removeEvents events).eventsEmpty then xs else x.removeEvents events :: xs)
    else x :: removeCE xs command events

/-- The registration sequence is strictly increasing by socket. -/
def SortedEntries (xs : List SocketEntry) : Prop :=
  xs.Pairwise (fun a b => a.socket < b.socket)

/-- The invariant of the reachable states: the registrations are strictly
increasing by socket, none has an empty collection, no collection holds two
command events of one command, both descriptor sets are what `updateFdSet`
computes, and `_fdmax` is at least what it computes. -/
structure Inv (FD_SETSIZE : Int) (s : SelectEventPoll) : Prop where
  sorted : SortedEntries s.socketEntries
  nonempty : ∀ e ∈ s.socketEntries, e.commandEvents ≠ []
  nodup : ∀ e ∈ s.socketEntries, (e.commandEvents.map (fun x => x.command)).Nodup
  rfdset : (updateFdSet FD_SETSIZE s).rfdset = s.rfdset
  wfdset : (updateFdSet FD_SETSIZE s).wfdset = s.wfdset
  fdmax : (updateFdSet FD_SETSIZE s).fdmax ≤ s.fdmax

/-- The outcome of the `select` loop of a wait cycle with `fuel`, started in
world `w` on state `s`: the world and what the last, uninterrupted call of
`select` left behind. -/
def pollSelect {W : Type} (env : Env W) (fuel : Nat) (w : W) (s : SelectEventPoll) :
    Option (W × SelectResult) :=
  let c0 : Cycle W := ⟨w, s.rfdset, s.wfdset, s.fdmax, []⟩
  let c1 := s.nameResolverEntries.foldl (getFdsStep env) c0
  selectLoop env (c1.fdmax + 1) fuel c1.world c1.rfds c1.wfds

/-- The local variables of a wait cycle when it first calls `select`: after
the `getFds` of every resolver watch. -/
def pollStart {W : Type} (env : Env W) (w : W) (s : SelectEventPoll) : Cycle W :=
  s.nameResolverEntries.foldl (getFdsStep env) ⟨w, s.rfdset, s.wfdset, s.fdmax, []⟩

/-- The world and the two working sets after `k` successive calls of `select`,
each call receiving what the one before left behind. -/
def selectAfter {W : Type} (env : Env W) (nfds : Int) :
    Nat → W × Finset Int × Finset Int → W × Finset Int × Finset Int
  | 0, st => st
  | k + 1, st =>
    selectAfter env nfds k
      ((env.select st.1 nfds st.2.1 st.2.2).1, (env.select st.1 nfds st.2.1 st.2.2).2.rfds,
        (env.select st.1 nfds st.2.1 st.2.2).2.wfds)

/-- Whether a call of `select` was interrupted by a signal: it returned -1
with `errno` equal to `EINTR`. -/
def interrupted {W : Type} (env : Env W) (res : SelectResult) : Bool :=
  decide (res.retval = -1 ∧ res.errno = env.EINTR)

/-- What the primitive does in the wait cycle started in world `w` on state
`s`: `select` is interrupted `k` times in a row, and its next call is not
interrupted, leaves the world `w2` and returns `res`. -/
def SelectReturns {W : Type} (env : Env W) (w : W) (s : SelectEventPoll) (k : Nat) (w2 : W)
    (res : SelectResult) : Prop :=
  (∀ j, j < k →
    interrupted env
      (env.select
        (selectAfter env ((pollStart env w s).fdmax + 1) j
          ((pollStart env w s).world, (pollStart env w s).rfds, (pollStart env w s).wfds)).1
        ((pollStart env w s).fdmax + 1)
        (selectAfter env ((pollStart env w s).fdmax + 1) j
          ((pollStart env w s).world, (pollStart env w s).rfds,
            (pollStart env w s).wfds)).2.1
        (selectAfter env ((pollStart env w s).fdmax + 1) j
          ((pollStart env w s).world, (pollStart env w s).rfds,
            (pollStart env w s).wfds)).2.2).2 = true) ∧
  env.select
      (selectAfter env ((pollStart env w s).fdmax + 1) k
        ((pollStart env w s).world, (pollStart env w s).rfds, (pollStart env w s).wfds)).1
      ((pollStart env w s).fdmax + 1)
      (selectAfter env ((pollStart env w s).fdmax + 1) k
        ((pollStart env w s).world, (pollStart env w s).rfds, (pollStart env w s).wfds)).2.1
      (selectAfter env ((pollStart env w s).fdmax + 1) k
        ((pollStart env w s).world, (pollStart env w s).rfds,
          (pollStart env w s).wfds)).2.2 = (w2, res) ∧
  interrupted env res = false

/-- A world without state for concrete wait cycles: `select` returns `retval`
at once and leaves the two given sets; resolvers contribute no descriptor and
stay pending. -/
def readyEnv (retval : Int) (rfds wfds : Finset Int) : Env Unit where
  EINTR := 4
  getFds := fun w _ r wf => (w, 0, r, wf)
  select := fun w _ _ _ => (w, ⟨retval, 0, rfds, wfds⟩)
  process := fun w _ r wf => (w, r, wf)
  getStatus := fun _ _ => Status.STATUS_PENDING
  readOutside := fun _ _ => false
  writeOutside := fun _ _ => false

/-- A world for concrete wait cycles in which `select` is interrupted before
it returns: the world counts the calls of `select` still to be interrupted;
such a call returns -1 with `errno` `EINTR`, the call after them returns
`retval` and leaves the two given sets. -/
def interruptedEnv (retval : Int) (rfds wfds : Finset Int) : Env Nat where
  EINTR := 4
  getFds := fun w _ r wf => (w, 0, r, wf)
  select := fun w _ r wf =>
    match w with
    | 0 => (0, ⟨retval, 0, rfds, wfds⟩)
    | n + 1 => (n, ⟨-1, 4, r, wf⟩)
  process := fun w _ r wf => (w, r, wf)
  getStatus := fun _ _ => Status.STATUS_PENDING
  readOutside := fun _ _ => false
  writeOutside := fun _ _ => false

/-- A world without state for concrete wait cycles in which the read outside
the working sets finds the bit of descriptor `twin`: `FD_ISSET` on a
descriptor outside the range yields whether `twin` is in the set that `select`
left.  `select` returns `retval` at once and leaves the two given sets. -/
def aliasEnv (retval : Int) (rfds wfds : Finset Int) (twin : Int) : Env Unit where
  EINTR := 4
  getFds := fun w _ r wf => (w, 0, r, wf)
  select := fun w _ _ _ => (w, ⟨retval, 0, rfds, wfds⟩)
  process := fun w _ r wf => (w, r, wf)
  getStatus := fun _ _ => Status.STATUS_PENDING
  readOutside := fun _ _ => decide (twin ∈ rfds)
  writeOutside := fun _ _ => decide (twin ∈ wfds)

/-- The states of a reactor after its constructor and any sequence of
`addEvents` and `deleteEvents` calls, the masks given to `addEvents` being
taken among the `allowed` ones. -/
inductive ReachableByEvents (FD_SETSIZE : Int) (allowed : Nat → Prop) :
    SelectEventPoll → Prop
  | new : ReachableByEvents FD_SETSIZE allowed (SelectEventPoll.new FD_SETSIZE)
  | addEvents (s : SelectEventPoll) (socket : Int) (command events : Nat) :
      allowed events → ReachableByEvents FD_SETSIZE allowed s →
      ReachableByEvents FD_SETSIZE allowed (addEvents FD_SETSIZE s socket command events).2
  | deleteEvents (s : SelectEventPoll) (socket : Int) (command events : Nat) :
      ReachableByEvents FD_SETSIZE allowed s →
      ReachableByEvents FD_SETSIZE allowed (deleteEvents FD_SETSIZE s socket command events).2

/-- The delivered events computed for a registration in `poll`: READ when
`FD_ISSET` holds of the socket on the working read set, WRITE when it holds on
the working write set. -/
def deliveredEvents (FD_SETSIZE : Int) (routside woutside : Int → Bool)
    (rfds wfds : Finset Int) (e : SocketEntry) : Nat :=
  (if FD_ISSET FD_SETSIZE routside e.socket rfds then EVENT_READ else 0) |||
    (if FD_ISSET FD_SETSIZE woutside e.socket wfds then EVENT_WRITE else 0)

/-- The calls of the socket dispatch pass of a wait cycle whose `select` left
`res`: nothing unless the return value is positive. -/
def socketPassCalls (FD_SETSIZE : Int) (routside woutside : Int → Bool)
    (s : SelectEventPoll) (res : SelectResult) : List Call :=
  if 0 < res.retval then
    s.socketEntries.flatMap
      (pollSocketEntry FD_SETSIZE routside woutside res.rfds res.wfds)
  else []

/-- The directional callbacks for a delivered mask, after the spec: for each
of READ, WRITE, ERROR and HUP present in the mask, in that order, the
corresponding callback on the command. -/
def directionalCalls (command delivered : Nat) : List Call :=
  (if delivered &&& EVENT_READ ≠ 0 then [Call.readEventReceived command] else []) ++
  (if delivered &&& EVENT_WRITE ≠ 0 then [Call.writeEventReceived command] else []) ++
  (if delivered &&& EVENT_ERROR ≠ 0 then [Call.errorEventReceived command] else []) ++
  (if delivered &&& EVENT_HUP ≠ 0 then [Call.hupEventReceived command] else [])

/-- Whether a call is one of the four directional callbacks. -/
def Call.isDirectional : Call → Bool
  | Call.readEventReceived _ => true
  | Call.writeEventReceived _ => true
  | Call.errorEventReceived _ => true
  | Call.hupEventReceived _ => true
  | _ => false

/-- Whether a call advances a resolver (`AsyncNameResolver::process`). -/
def Call.isProcess : Call → Bool
  | Call.process _ => true
  | _ => false

/-- Whether a resolver status is terminal: succeeded or errored. -/
def Status.terminal : Status → Bool
  | Status.STATUS_SUCCESS => true
  | Status.STATUS_ERROR => true
  | Status.STATUS_PENDING => false

/-- The world and working sets after the resolver watches of a list have been
advanced in order, each by one `process`. -/
def advanceWorld {W : Type} (env : Env W) :
    List AsyncNameResolverEntry → W × Finset Int × Finset Int → W × Finset Int × Finset Int
  | [], st => st
  | entry :: rest, st =>
    advanceWorld env rest (env.process st.1 entry.nameResolver st.2.1 st.2.2)

/-- The resolver pass of a wait cycle, after the spec: every watch in order is
advanced once against the working sets, and when its resolver then reports a
terminal status its command is marked active. -/
def advanceCalls {W : Type} (env : Env W) :
    List AsyncNameResolverEntry → W × Finset Int × Finset Int → List Call
  | [], _ => []
  | entry :: rest, st =>
    let st1 := env.process st.1 entry.nameResolver st.2.1 st.2.2
    (Call.process entry.nameResolver ::
      (if (env.getStatus st1.1 entry.nameResolver).terminal then
        [Call.setStatusActive entry.command] else [])) ++
      advanceCalls env rest st1

/-- A world for concrete wait cycles with resolvers; the world records whether
a resolver has been advanced.  Every resolver contributes descriptor `fd`, is
pending until advanced and reports `status` afterwards; `select` returns
`retval` at once and leaves both sets empty. -/
def resolverEnv (fd : Int) (status : Status) (retval : Int) : Env Bool where
  EINTR := 4
  getFds := fun w _ r wf => (w, fd, r, wf)
  select := fun w _ _ _ => (w, ⟨retval, 0, ∅, ∅⟩)
  process := fun _ _ r wf => (true, r, wf)
  getStatus := fun w _ => if w then status else Status.STATUS_PENDING
  readOutside := fun _ _ => false
  writeOutside := fun _ _ => false

/-! ## Lemmas: masks -/

theorem xor_and_eq_ldiff (m e : Nat) : m ^^^ (m &&& e) = Nat.ldiff m e := by
  apply Nat.eq_of_testBit_eq
  intro i
  rw [Nat.testBit_xor, Nat.testBit_and, Nat.testBit_ldiff]
  cases m.testBit i <;> cases e.testBit i <;> rfl

theorem removeEvents_eq_ldiff (ce : CommandEvent) (events : Nat) :
    (ce.removeEvents events).events = Nat.ldiff ce.events events :=
  xor_and_eq_ldiff ce.events events

theorem lor_eq_zero (a b : Nat) : a ||| b = 0 ↔ a = 0 ∧ b = 0 := by
  constructor
  · intro h
    constructor
    · apply Nat.eq_of_testBit_eq
      intro i
      have := congrArg (fun n => Nat.testBit n i) h
      simp only [Nat.testBit_or, Nat.zero_testBit, Bool.or_eq_false_iff] at this
      simp [this.1]
    · apply Nat.eq_of_testBit_eq
      intro i
      have := congrArg (fun n => Nat.testBit n i) h
      simp only [Nat.testBit_or, Nat.zero_testBit, Bool.or_eq_false_iff] at this
      simp [this.2]
  · rintro ⟨rfl, rfl⟩
    rfl

theorem ldiff_lor_cancel (m e : Nat) (h : m &&& e = 0) : Nat.ldiff (m ||| e) e = m := by
  apply Nat.eq_of_testBit_eq
  intro i
  have hi := congrArg (fun n => Nat.testBit n i) h
  simp only [Nat.testBit_and, Nat.zero_testBit] at hi
  rw [Nat.testBit_ldiff, Nat.testBit_or]
  cases hm : m.testBit i <;> cases he : e.testBit i <;> simp_all

theorem ldiff_self_lor (m e : Nat) : Nat.ldiff (m ||| e) e = Nat.ldiff m e := by
  apply Nat.eq_of_testBit_eq
  intro i
  rw [Nat.testBit_ldiff, Nat.testBit_ldiff, Nat.testBit_or]
  cases m.testBit i <;> cases e.testBit i <;> rfl

/-! ## Lemmas: the collection of command events -/

theorem addCommandEvent_eq (e : SocketEntry) (command events : Nat) :
    e.addCommandEvent command events = ⟨e.socket, addCE e.commandEvents command events⟩ := by
  obtain ⟨socket, ces⟩ := e
  induction ces with
  | nil => rfl
  | cons x xs ih =>
    by_cases hx : x.command = command
    · simp [SocketEntry.addCommandEvent, addCE, List.findIdx_cons, BEq.beq, hx]
    · have ih2 := ih
      simp only [SocketEntry.addCommandEvent, BEq.beq] at ih2
      simp only [SocketEntry.addCommandEvent, addCE, List.findIdx_cons, BEq.beq, hx,
        decide_False, cond_false, List.getElem?_cons_succ, if_false]
      cases h : xs[List.findIdx (fun x => decide (x.command = command)) xs]? with
      | none =>
        simp only [h, SocketEntry.mk.injEq, true_and] at ih2 ⊢
        simp [← ih2]
      | some y =>
        simp only [h, SocketEntry.mk.injEq, true_and] at ih2 ⊢
        simp [← ih2]

theorem removeCommandEvent_eq (e : SocketEntry) (command events : Nat) :
    e.removeCommandEvent command events =
      ⟨e.socket, removeCE e.commandEvents command events⟩ := by
  obtain ⟨socket, ces⟩ := e
  induction ces with
  | nil => rfl
  | cons x xs ih =>
    by_cases hx : x.command = command
    · by_cases hy : (x.removeEvents events).eventsEmpty = true
      · simp [SocketEntry.removeCommandEvent, removeCE, List.findIdx_cons, BEq.beq, hx, hy]
      · simp [SocketEntry.removeCommandEvent, removeCE, List.findIdx_cons, BEq.beq, hx, hy]
    · have ih2 := ih
      simp only [SocketEntry.removeCommandEvent, BEq.beq] at ih2
      simp only [SocketEntry.removeCommandEvent, removeCE, List.findIdx_cons, BEq.beq, hx,
        decide_False, cond_false, List.getElem?_cons_succ, if_false]
      cases h : xs[List.findIdx (fun x => decide (x.command = command)) xs]? with
      | none =>
        simp only [h, SocketEntry.mk.injEq, true_and] at ih2 ⊢
        simp [← ih2]
      | some y =>
        simp only [h] at ih2 ⊢
        by_cases hy : (y.removeEvents events).eventsEmpty = true
        · simp only [hy, if_true, SocketEntry.mk.injEq, true_and] at ih2 ⊢
          simp [← ih2]
        · simp only [hy, Bool.false_eq_true, if_false, SocketEntry.mk.injEq, true_and] at ih2 ⊢
          simp [← ih2]

/-! ## Lemmas: the binary search -/

theorem lower_boundLoop_split (pre post : List SocketEntry) (socket : Int)
    (hpre : ∀ x ∈ pre, x.socket < socket) (hpost : ∀ x ∈ post, socket ≤ x.socket) :
    ∀ fuel first len, len ≤ fuel → first ≤ pre.length → pre.length ≤ first + len →
      first + len ≤ (pre ++ post).length →
      lower_boundLoop (pre ++ post) socket fuel first len = pre.length := by
  intro fuel
  induction fuel with
  | zero =>
    intro first len h1 h2 h3 _
    simp only [lower_boundLoop]
    omega
  | succ n ih =>
    intro first len h1 h2 h3 h4
    simp only [lower_boundLoop]
    by_cases hl : len = 0
    · simp only [hl, if_true]
      omega
    · simp only [hl, if_false]
      have hmid : first + len / 2 < (pre ++ post).length := by omega
      rw [List.getElem?_eq_getElem hmid]
      simp only [SocketEntry.lt, SocketEntry.new]
      by_cases hm : first + len / 2 < pre.length
      · have hmem : (pre ++ post)[first + len / 2] ∈ pre := by
          rw [List.getElem_append_left hm]
          exact List.getElem_mem _
        simp only [hpre _ hmem, decide_True, if_true]
        apply ih <;> omega
      · have hmem : (pre ++ post)[first + len / 2] ∈ post := by
          rw [List.getElem_append_right (by omega)]
          exact List.getElem_mem _
        have := hpost _ hmem
        have hn : ¬ (pre ++ post)[first + len / 2].socket < socket := by omega
        simp only [hn, decide_False, Bool.false_eq_true, if_false]
        apply ih <;> omega

theorem lower_bound_split (pre post : List SocketEntry) (socket : Int)
    (hpre : ∀ x ∈ pre, x.socket < socket) (hpost : ∀ x ∈ post, socket ≤ x.socket) :
    lower_bound (pre ++ post) socket = pre.length := by
  unfold lower_bound
  apply lower_boundLoop_split pre post socket hpre hpost
  · exact Nat.le_refl _
  · exact Nat.zero_le _
  · simp
  · simp

theorem sorted_split (xs : List SocketEntry) (h : SortedEntries xs) (socket : Int) :
    ∃ pre post, xs = pre ++ post ∧ (∀ x ∈ pre, x.socket < socket) ∧
      (∀ x ∈ post, socket ≤ x.socket) := by
  induction xs with
  | nil => exact ⟨[], [], rfl, by simp, by simp⟩
  | cons a rest ih =>
    have h2 := List.pairwise_cons.mp h
    by_cases ha : a.socket < socket
    · obtain ⟨pre, post, e, h3, h4⟩ := ih h2.2
      refine ⟨a :: pre, post, by simp [e], ?_, h4⟩
      intro x hx
      rcases List.mem_cons.mp hx with rfl | hx
      · exact ha
      · exact h3 x hx
    · refine ⟨[], a :: rest, rfl, by simp, ?_⟩
      intro x hx
      rcases List.mem_cons.mp hx with rfl | hx
      · omega
      · have := h2.1 x hx
        omega

/-- The two shapes of a sorted registration sequence around a socket: the
socket's registration between the smaller and the larger ones, or no
registration for it. -/
theorem sorted_cases (xs : List SocketEntry) (h : SortedEntries xs) (socket : Int) :
    (∃ pre e post, xs = pre ++ e :: post ∧ e.socket = socket ∧
      (∀ x ∈ pre, x.socket < socket) ∧ (∀ x ∈ post, socket < x.socket)) ∨
    (∃ pre post, xs = pre ++ post ∧
      (∀ x ∈ pre, x.socket < socket) ∧ (∀ x ∈ post, socket < x.socket)) := by
  obtain ⟨pre, post, e, h1, h2⟩ := sorted_split xs h socket
  cases post with
  | nil => exact Or.inr ⟨pre, [], e, h1, by simp⟩
  | cons a rest =>
    have hs : SortedEntries (a :: rest) := by
      rw [e] at h
      exact (List.pairwise_append.mp h).2.1
    have ha := h2 a (List.mem_cons_self _ _)
    have hr : ∀ x ∈ rest, a.socket < x.socket := (List.pairwise_cons.mp hs).1
    by_cases heq : a.socket = socket
    · refine Or.inl ⟨pre, a, rest, e, heq, h1, ?_⟩
      intro x hx
      have := hr x hx
      omega
    · refine Or.inr ⟨pre, a :: rest, e, h1, ?_⟩
      intro x hx
      rcases List.mem_cons.mp hx with rfl | hx
      · omega
      · have := hr x hx
        omega

/-! ## Lemmas: `addEvents` and `deleteEvents` on a split sequence -/

theorem getElem?_length_append {α : Type} (pre post : List α) :
    (pre ++ post)[pre.length]? = post.head? := by
  rw [List.getElem?_append_right (Nat.le_refl _)]
  cases post <;> simp

theorem set_length_append {α : Type} (pre post : List α) (a v : α) :
    (pre ++ a :: post).set pre.length v = pre ++ v :: post := by
  rw [List.set_append_right _ _ (Nat.le_refl _)]
  simp

theorem eraseIdx_length_append {α : Type} (pre post : List α) (a : α) :
    (pre ++ a :: post).eraseIdx pre.length = pre ++ post := by
  rw [List.eraseIdx_append_of_length_le (Nat.le_refl _)]
  simp

theorem beq_new (a : SocketEntry) (socket : Int) :
    (a == SocketEntry.new socket) = decide (a.socket = socket) := rfl

theorem addEvents_found (FD_SETSIZE : Int) (s : SelectEventPoll) (pre post : List SocketEntry)
    (e : SocketEntry) (socket : Int) (command events : Nat)
    (hx : s.socketEntries = pre ++ e :: post) (he : e.socket = socket)
    (hpre : ∀ x ∈ pre, x.socket < socket) (hpost : ∀ x ∈ post, socket < x.socket) :
    addEvents FD_SETSIZE s socket command events =
      (true, updateFdSet FD_SETSIZE { s with socketEntries :=
        pre ++ ⟨socket, addCE e.commandEvents command events⟩ :: post }) := by
  have hlb : lower_bound (pre ++ e :: post) socket = pre.length := by
    apply lower_bound_split _ _ _ hpre
    intro x hx
    rcases List.mem_cons.mp hx with rfl | hx
    · omega
    · have := hpost x hx
      omega
  simp only [addEvents, hx, hlb, getElem?_length_append, List.head?_cons, beq_new,
    he, decide_True, if_true, set_length_append, addCommandEvent_eq]
  simp

theorem addEvents_absent (FD_SETSIZE : Int) (s : SelectEventPoll) (pre post : List SocketEntry)
    (socket : Int) (command events : Nat)
    (hx : s.socketEntries = pre ++ post)
    (hpre : ∀ x ∈ pre, x.socket < socket) (hpost : ∀ x ∈ post, socket < x.socket) :
    addEvents FD_SETSIZE s socket command events =
      (true, updateFdSet FD_SETSIZE { s with socketEntries :=
        pre ++ ⟨socket, [⟨command, events⟩]⟩ :: post }) := by
  have hlb : lower_bound (pre ++ post) socket = pre.length := by
    apply lower_bound_split _ _ _ hpre
    intro x hx
    have := hpost x hx
    omega
  have hnew : (SocketEntry.new socket).addCommandEvent command events =
      ⟨socket, [⟨command, events⟩]⟩ := rfl
  cases post with
  | nil =>
    simp only [addEvents, hx, hlb, getElem?_length_append, List.head?_nil, hnew,
      List.take_left, List.drop_left]
    simp
  | cons a rest =>
    have ha : a.socket ≠ socket := by
      have := hpost a (List.mem_cons_self _ _)
      omega
    simp only [addEvents, hx, hlb, getElem?_length_append, List.head?_cons, beq_new,
      ha, decide_False, hnew, List.take_left, List.drop_left]
    simp

theorem deleteEvents_found (FD_SETSIZE : Int) (s : SelectEventPoll)
    (pre post : List SocketEntry) (e : SocketEntry) (socket : Int) (command events : Nat)
    (hx : s.socketEntries = pre ++ e :: post) (he : e.socket = socket)
    (hpre : ∀ x ∈ pre, x.socket < socket) (hpost : ∀ x ∈ post, socket < x.socket) :
    deleteEvents FD_SETSIZE s socket command events =
      (true, updateFdSet FD_SETSIZE { s with socketEntries :=
        (if removeCE e.commandEvents command events = [] then pre ++ post
        else pre ++ ⟨socket, removeCE e.commandEvents command events⟩ :: post) }) := by
  have hlb : lower_bound (pre ++ e :: post) socket = pre.length := by
    apply lower_bound_split _ _ _ hpre
    intro x hx
    rcases List.mem_cons.mp hx with rfl | hx
    · omega
    · have := hpost x hx
      omega
  simp only [deleteEvents, hx, hlb, getElem?_length_append, List.head?_cons, beq_new,
    he, decide_True, if_true, set_length_append, eraseIdx_length_append,
    removeCommandEvent_eq, SocketEntry.eventEmpty, List.isEmpty_iff]
  simp

theorem deleteEvents_absent (FD_SETSIZE : Int) (s : SelectEventPoll)
    (pre post : List SocketEntry) (socket : Int) (command events : Nat)
    (hx : s.socketEntries = pre ++ post)
    (hpre : ∀ x ∈ pre, x.socket < socket) (hpost : ∀ x ∈ post, socket < x.socket) :
    deleteEvents FD_SETSIZE s socket command events = (false, s) := by
  have hlb : lower_bound (pre ++ post) socket = pre.length := by
    apply lower_bound_split _ _ _ hpre
    intro x hx
    have := hpost x hx
    omega
  cases post with
  | nil =>
    simp only [deleteEvents, hx, hlb, getElem?_length_append, List.head?_nil]
  | cons a rest =>
    have ha : a.socket ≠ socket := by
      have := hpost a (List.mem_cons_self _ _)
      omega
    simp only [deleteEvents, hx, hlb, getElem?_length_append, List.head?_cons, beq_new,
      ha, decide_False]
    simp

/-! ## Lemmas: `updateFdSet` -/

theorem updateFdSetStep_relabel (FD_SETSIZE : Int) (s : SelectEventPoll) (e : SocketEntry)
    (xs : List SocketEntry) (ns : List AsyncNameResolverEntry) :
    updateFdSetStep FD_SETSIZE { s with socketEntries := xs, nameResolverEntries := ns } e =
      { updateFdSetStep FD_SETSIZE s e with socketEntries := xs, nameResolverEntries := ns } := by
  unfold updateFdSetStep
  simp only
  split_ifs <;> rfl

theorem foldl_updateFdSetStep_relabel (FD_SETSIZE : Int) (l : List SocketEntry)
    (xs : List SocketEntry) (ns : List AsyncNameResolverEntry) :
    ∀ s : SelectEventPoll,
      l.foldl (updateFdSetStep FD_SETSIZE) { s with socketEntries := xs, nameResolverEntries := ns } =
      { l.foldl (updateFdSetStep FD_SETSIZE) s with
          socketEntries := xs, nameResolverEntries := ns } := by
  induction l with
  | nil => intro s; rfl
  | cons a rest ih =>
    intro s
    simp only [List.foldl_cons, updateFdSetStep_relabel]
    exact ih _

theorem updateFdSetStep_entries (FD_SETSIZE : Int) (s : SelectEventPoll) (e : SocketEntry) :
    (updateFdSetStep FD_SETSIZE s e).socketEntries = s.socketEntries ∧
    (updateFdSetStep FD_SETSIZE s e).nameResolverEntries = s.nameResolverEntries := by
  unfold updateFdSetStep
  simp only
  split_ifs <;> exact ⟨rfl, rfl⟩

theorem foldl_updateFdSetStep_entries (FD_SETSIZE : Int) (l : List SocketEntry) :
    ∀ s : SelectEventPoll,
      (l.foldl (updateFdSetStep FD_SETSIZE) s).socketEntries = s.socketEntries ∧
      (l.foldl (updateFdSetStep FD_SETSIZE) s).nameResolverEntries = s.nameResolverEntries := by
  induction l with
  | nil => intro s; exact ⟨rfl, rfl⟩
  | cons a rest ih =>
    intro s
    simp only [List.foldl_cons]
    have h1 := ih (updateFdSetStep FD_SETSIZE s a)
    have h2 := updateFdSetStep_entries FD_SETSIZE s a
    exact ⟨h1.1.trans h2.1, h1.2.trans h2.2⟩

theorem updateFdSet_socketEntries (FD_SETSIZE : Int) (s : SelectEventPoll) :
    (updateFdSet FD_SETSIZE s).socketEntries = s.socketEntries :=
  (foldl_updateFdSetStep_entries FD_SETSIZE _ _).1

theorem updateFdSet_nameResolverEntries (FD_SETSIZE : Int) (s : SelectEventPoll) :
    (updateFdSet FD_SETSIZE s).nameResolverEntries = s.nameResolverEntries :=
  (foldl_updateFdSetStep_entries FD_SETSIZE _ _).2

/-- The sets and the ceiling computed by `updateFdSet` depend on the
registration sequence only. -/
theorem updateFdSet_relabel (FD_SETSIZE : Int) (a b : SelectEventPoll)
    (h : a.socketEntries = b.socketEntries) :
    updateFdSet FD_SETSIZE a =
      { updateFdSet FD_SETSIZE b with nameResolverEntries := a.nameResolverEntries } := by
  obtain ⟨xa, na, ra, wa, ma⟩ := a
  obtain ⟨xb, nb, rb, wb, mb⟩ := b
  simp only at h
  subst h
  have := foldl_updateFdSetStep_relabel FD_SETSIZE xa xa na ⟨xa, nb, ∅, ∅, 0⟩
  simp only [updateFdSet]
  simp only at this
  rw [this]
  simp [(foldl_updateFdSetStep_entries FD_SETSIZE xa _).1]

theorem updateFdSet_congr (FD_SETSIZE : Int) (a b : SelectEventPoll)
    (h : a.socketEntries = b.socketEntries)
    (hn : a.nameResolverEntries = b.nameResolverEntries) :
    updateFdSet FD_SETSIZE a = updateFdSet FD_SETSIZE b := by
  rw [updateFdSet_relabel FD_SETSIZE a b h, hn,
    ← updateFdSet_nameResolverEntries FD_SETSIZE b]

theorem updateFdSet_idem (FD_SETSIZE : Int) (s : SelectEventPoll) :
    updateFdSet FD_SETSIZE (updateFdSet FD_SETSIZE s) = updateFdSet FD_SETSIZE s :=
  updateFdSet_congr FD_SETSIZE _ _ (updateFdSet_socketEntries FD_SETSIZE s)
    (updateFdSet_nameResolverEntries FD_SETSIZE s)

/-- A registration whose socket is negative or not below `FD_SETSIZE` is
skipped by the loop of `updateFdSet`. -/
theorem updateFdSetStep_skip (FD_SETSIZE : Int) (s : SelectEventPoll) (e : SocketEntry)
    (h : e.socket < 0 ∨ FD_SETSIZE ≤ e.socket) : updateFdSetStep FD_SETSIZE s e = s := by
  unfold updateFdSetStep
  simp only [h, if_true]

theorem updateFdSet_skip (FD_SETSIZE : Int) (s : SelectEventPoll) (pre post : List SocketEntry)
    (e : SocketEntry) (h : e.socket < 0 ∨ FD_SETSIZE ≤ e.socket) :
    updateFdSet FD_SETSIZE { s with socketEntries := pre ++ e :: post } =
      { updateFdSet FD_SETSIZE { s with socketEntries := pre ++ post } with
          socketEntries := pre ++ e :: post } := by
  have h1 := foldl_updateFdSetStep_relabel FD_SETSIZE (pre ++ post) (pre ++ e :: post)
    s.nameResolverEntries ⟨pre ++ post, s.nameResolverEntries, ∅, ∅, 0⟩
  simp only at h1
  have hskip : ∀ acc : SelectEventPoll,
      (pre ++ e :: post).foldl (updateFdSetStep FD_SETSIZE) acc =
        (pre ++ post).foldl (updateFdSetStep FD_SETSIZE) acc := by
    intro acc
    simp only [List.foldl_append, List.foldl_cons]
    rw [updateFdSetStep_skip FD_SETSIZE _ e h]
  simp only [updateFdSet]
  rw [hskip, h1]
  have h2 := (foldl_updateFdSetStep_entries FD_SETSIZE (pre ++ post)
    ⟨pre ++ post, s.nameResolverEntries, ∅, ∅, 0⟩).2
  simp only at h2
  simp only [h2]

/-! ## Lemmas: the invariant of the reachable states -/

theorem addCE_ne_nil (xs : List CommandEvent) (command events : Nat) :
    addCE xs command events ≠ [] := by
  cases xs with
  | nil => simp [addCE]
  | cons x rest =>
    simp only [addCE]
    split_ifs <;> simp

theorem addCE_commands (xs : List CommandEvent) (command events : Nat) :
    (addCE xs command events).map (fun x => x.command) =
      if command ∈ xs.map (fun x => x.command) then xs.map (fun x => x.command)
      else xs.map (fun x => x.command) ++ [command] := by
  induction xs with
  | nil => simp [addCE]
  | cons x rest ih =>
    by_cases hx : x.command = command
    · simp [addCE, hx, CommandEvent.addEvents]
    · have hx2 : ¬ command = x.command := fun h => hx h.symm
      simp only [addCE, hx, if_false, List.map_cons, ih, List.mem_cons, hx2, false_or]
      split_ifs <;> simp

theorem addCE_nodup (xs : List CommandEvent) (command events : Nat)
    (h : (xs.map (fun x => x.command)).Nodup) :
    ((addCE xs command events).map (fun x => x.command)).Nodup := by
  rw [addCE_commands]
  split_ifs with hc
  · exact h
  · exact List.Nodup.append h (List.nodup_singleton _) (by simpa using hc)

theorem removeCE_commands_sublist (xs : List CommandEvent) (command events : Nat) :
    List.Sublist ((removeCE xs command events).map (fun x => x.command))
      (xs.map (fun x => x.command)) := by
  induction xs with
  | nil => simp [removeCE]
  | cons x rest ih =>
    simp only [removeCE]
    split_ifs
    · simp
    · simp [CommandEvent.removeEvents]
    · simpa using ih

theorem removeCE_nodup (xs : List CommandEvent) (command events : Nat)
    (h : (xs.map (fun x => x.command)).Nodup) :
    ((removeCE xs command events).map (fun x => x.command)).Nodup :=
  List.Nodup.sublist (removeCE_commands_sublist xs command events) h

theorem sorted_insert (pre post : List SocketEntry) (a : SocketEntry)
    (hpre : SortedEntries pre) (hpost : SortedEntries post)
    (h1 : ∀ x ∈ pre, x.socket < a.socket) (h2 : ∀ x ∈ post, a.socket < x.socket) :
    SortedEntries (pre ++ a :: post) := by
  unfold SortedEntries at *
  rw [List.pairwise_append]
  refine ⟨hpre, List.pairwise_cons.mpr ⟨h2, hpost⟩, ?_⟩
  intro x hx y hy
  rcases List.mem_cons.mp hy with rfl | hy
  · exact h1 x hx
  · have := h1 x hx
    have := h2 y hy
    omega

theorem foldl_getFdsStep_fdmax {W : Type} (env : Env W) (l : List AsyncNameResolverEntry) :
    ∀ c : Cycle W, c.fdmax ≤ (l.foldl (getFdsStep env) c).fdmax := by
  induction l with
  | nil => intro c; exact le_refl _
  | cons a rest ih =>
    intro c
    simp only [List.foldl_cons]
    refine le_trans ?_ (ih _)
    simp only [getFdsStep]
    split_ifs <;> omega

theorem foldl_processStep_fdmax {W : Type} (env : Env W) (l : List AsyncNameResolverEntry) :
    ∀ c : Cycle W, (l.foldl (processStep env) c).fdmax = c.fdmax := by
  induction l with
  | nil => intro c; rfl
  | cons a rest ih =>
    intro c
    simp only [List.foldl_cons]
    rw [ih]
    rfl

/-- A wait cycle leaves the registrations, the resolver entries and both
descriptor sets alone and can only raise `_fdmax`. -/
theorem poll_state {W : Type} (FD_SETSIZE : Int) (env : Env W) (fuel : Nat) (w : W)
    (s : SelectEventPoll) (out : SelectEventPoll × W × List Call)
    (h : poll FD_SETSIZE env fuel w s = some out) :
    out.1.socketEntries = s.socketEntries ∧
    out.1.nameResolverEntries = s.nameResolverEntries ∧
    out.1.rfdset = s.rfdset ∧ out.1.wfdset = s.wfdset ∧ s.fdmax ≤ out.1.fdmax := by
  unfold poll at h
  simp only at h
  split at h
  · exact absurd h (by simp)
  · simp only [Option.some.injEq] at h
    subst h
    refine ⟨rfl, rfl, rfl, rfl, ?_⟩
    simp only [foldl_processStep_fdmax]
    exact foldl_getFdsStep_fdmax env _ _

theorem inv_updateFdSet (FD_SETSIZE : Int) (t : SelectEventPoll)
    (h1 : SortedEntries t.socketEntries)
    (h2 : ∀ e ∈ t.socketEntries, e.commandEvents ≠ [])
    (h3 : ∀ e ∈ t.socketEntries, (e.commandEvents.map (fun x => x.command)).Nodup) :
    Inv FD_SETSIZE (updateFdSet FD_SETSIZE t) := by
  refine ⟨?_, ?_, ?_, ?_, ?_, ?_⟩
  · rw [updateFdSet_socketEntries]; exact h1
  · rw [updateFdSet_socketEntries]; exact h2
  · rw [updateFdSet_socketEntries]; exact h3
  · rw [updateFdSet_idem]
  · rw [updateFdSet_idem]
  · rw [updateFdSet_idem]

theorem sorted_parts (pre post : List SocketEntry) (h : SortedEntries (pre ++ post)) :
    SortedEntries pre ∧ SortedEntries post :=
  ⟨(List.pairwise_append.mp h).1, (List.pairwise_append.mp h).2.1⟩

theorem inv_addEvents (FD_SETSIZE : Int) (s : SelectEventPoll) (socket : Int)
    (command events : Nat) (h : Inv FD_SETSIZE s) :
    Inv FD_SETSIZE (addEvents FD_SETSIZE s socket command events).2 := by
  rcases sorted_cases s.socketEntries h.sorted socket with
    ⟨pre, e, post, hx, he, hpre, hpost⟩ | ⟨pre, post, hx, hpre, hpost⟩
  · rw [addEvents_found FD_SETSIZE s pre post e socket command events hx he hpre hpost]
    have hs := h.sorted
    rw [hx] at hs
    have hp := sorted_parts _ _ hs
    apply inv_updateFdSet
    · exact sorted_insert pre post _ hp.1 (List.pairwise_cons.mp hp.2).2 hpre hpost
    · intro x hm
      simp only [List.mem_append, List.mem_cons] at hm
      rcases hm with hm | rfl | hm
      · exact h.nonempty x (by rw [hx]; simp [hm])
      · exact addCE_ne_nil _ _ _
      · exact h.nonempty x (by rw [hx]; simp [hm])
    · intro x hm
      simp only [List.mem_append, List.mem_cons] at hm
      rcases hm with hm | rfl | hm
      · exact h.nodup x (by rw [hx]; simp [hm])
      · exact addCE_nodup _ _ _ (h.nodup e (by rw [hx]; simp))
      · exact h.nodup x (by rw [hx]; simp [hm])
  · rw [addEvents_absent FD_SETSIZE s pre post socket command events hx hpre hpost]
    have hs := h.sorted
    rw [hx] at hs
    have hp := sorted_parts _ _ hs
    apply inv_updateFdSet
    · exact sorted_insert pre post _ hp.1 hp.2 hpre hpost
    · intro x hm
      simp only [List.mem_append, List.mem_cons] at hm
      rcases hm with hm | rfl | hm
      · exact h.nonempty x (by rw [hx]; simp [hm])
      · simp
      · exact h.nonempty x (by rw [hx]; simp [hm])
    · intro x hm
      simp only [List.mem_append, List.mem_cons] at hm
      rcases hm with hm | rfl | hm
      · exact h.nodup x (by rw [hx]; simp [hm])
      · simp
      · exact h.nodup x (by rw [hx]; simp [hm])

theorem inv_deleteEvents (FD_SETSIZE : Int) (s : SelectEventPoll) (socket : Int)
    (command events : Nat) (h : Inv FD_SETSIZE s) :
    Inv FD_SETSIZE (deleteEvents FD_SETSIZE s socket command events).2 := by
  rcases sorted_cases s.socketEntries h.sorted socket with
    ⟨pre, e, post, hx, he, hpre, hpost⟩ | ⟨pre, post, hx, hpre, hpost⟩
  · rw [deleteEvents_found FD_SETSIZE s pre post e socket command events hx he hpre hpost]
    have hs := h.sorted
    rw [hx] at hs
    have hp := sorted_parts _ _ hs
    have hpost2 := (List.pairwise_cons.mp hp.2).2
    have hcross : ∀ a ∈ pre, ∀ b ∈ post, a.socket < b.socket := by
      intro a ha b hb
      have := hpre a ha
      have := hpost b hb
      omega
    apply inv_updateFdSet
    · simp only
      split_ifs
      · exact List.pairwise_append.mpr ⟨hp.1, hpost2, hcross⟩
      · exact sorted_insert pre post _ hp.1 hpost2 hpre hpost
    · intro x hm
      simp only at hm
      split_ifs at hm with hc
      · rcases List.mem_append.mp hm with hm | hm
        · exact h.nonempty x (by rw [hx]; simp [hm])
        · exact h.nonempty x (by rw [hx]; simp [hm])
      · simp only [List.mem_append, List.mem_cons] at hm
        rcases hm with hm | rfl | hm
        · exact h.nonempty x (by rw [hx]; simp [hm])
        · exact hc
        · exact h.nonempty x (by rw [hx]; simp [hm])
    · intro x hm
      simp only at hm
      split_ifs at hm with hc
      · rcases List.mem_append.mp hm with hm | hm
        · exact h.nodup x (by rw [hx]; simp [hm])
        · exact h.nodup x (by rw [hx]; simp [hm])
      · simp only [List.mem_append, List.mem_cons] at hm
        rcases hm with hm | rfl | hm
        · exact h.nodup x (by rw [hx]; simp [hm])
        · exact removeCE_nodup _ _ _ (h.nodup e (by rw [hx]; simp))
        · exact h.nodup x (by rw [hx]; simp [hm])
  · rw [deleteEvents_absent FD_SETSIZE s pre post socket command events hx hpre hpost]
    exact h

theorem inv_of_same (FD_SETSIZE : Int) (s t : SelectEventPoll) (h : Inv FD_SETSIZE s)
    (h1 : t.socketEntries = s.socketEntries) (h2 : t.rfdset = s.rfdset)
    (h3 : t.wfdset = s.wfdset) (h4 : s.fdmax ≤ t.fdmax) : Inv FD_SETSIZE t := by
  have hu := updateFdSet_relabel FD_SETSIZE t s h1
  refine ⟨?_, ?_, ?_, ?_, ?_, ?_⟩
  · rw [h1]; exact h.sorted
  · rw [h1]; exact h.nonempty
  · rw [h1]; exact h.nodup
  · rw [hu, h2]; exact h.rfdset
  · rw [hu, h3]; exact h.wfdset
  · rw [hu]; exact le_trans h.fdmax h4

/-- Every reachable state satisfies the invariant. -/
theorem Reachable.inv (FD_SETSIZE : Int) (s : SelectEventPoll)
    (h : Reachable FD_SETSIZE s) : Inv FD_SETSIZE s := by
  induction h with
  | new =>
    apply inv_updateFdSet
    · exact List.Pairwise.nil
    · intro e he; simp at he
    · intro e he; simp at he
  | addEvents s socket command events _ ih => exact inv_addEvents _ _ _ _ _ ih
  | deleteEvents s socket command events _ ih => exact inv_deleteEvents _ _ _ _ _ ih
  | addNameResolver s resolver command _ ih =>
    apply inv_of_same FD_SETSIZE s _ ih <;>
      (unfold aria2.addNameResolver; simp only; split_ifs <;> rfl)
  | deleteNameResolver s resolver command _ ih =>
    apply inv_of_same FD_SETSIZE s _ ih <;>
      (unfold aria2.deleteNameResolver; simp only; split_ifs <;> rfl)
  | poll env fuel w s out _ hp ih =>
    have := poll_state FD_SETSIZE env fuel w s out hp
    exact inv_of_same FD_SETSIZE s _ ih this.1 this.2.2.1 this.2.2.2.1 this.2.2.2.2

/-! ## Lemmas: looking registrations and stored masks up -/

theorem find_split_none (pre post : List SocketEntry) (socket : Int)
    (hpre : ∀ x ∈ pre, x.socket < socket) (hpost : ∀ x ∈ post, socket < x.socket) :
    (pre ++ post).find? (fun e => decide (e.socket = socket)) = none := by
  rw [List.find?_eq_none]
  intro x hx
  rcases List.mem_append.mp hx with hx | hx
  · have := hpre x hx
    simp only [decide_eq_true_eq]
    omega
  · have := hpost x hx
    simp only [decide_eq_true_eq]
    omega

theorem find_split_self (pre post : List SocketEntry) (a : SocketEntry) (socket : Int)
    (hpre : ∀ x ∈ pre, x.socket < socket) (ha : a.socket = socket) :
    (pre ++ a :: post).find? (fun e => decide (e.socket = socket)) = some a := by
  have h1 : pre.find? (fun e => decide (e.socket = socket)) = none := by
    rw [List.find?_eq_none]
    intro x hx
    have := hpre x hx
    simp only [decide_eq_true_eq]
    omega
  rw [List.find?_append, h1]
  simp [ha]

theorem find_split_other (pre post : List SocketEntry) (a : SocketEntry) (socket : Int)
    (ha : a.socket ≠ socket) :
    (pre ++ a :: post).find? (fun e => decide (e.socket = socket)) =
      (pre ++ post).find? (fun e => decide (e.socket = socket)) := by
  rw [List.find?_append, List.find?_append]
  simp [ha]

theorem storedEvents_mem (s : SelectEventPoll) (socket : Int) (command m : Nat)
    (h : storedEvents s socket command = some m) :
    ∃ e ∈ s.socketEntries, e.socket = socket ∧
      ∃ ce ∈ e.commandEvents, ce.command = command ∧ ce.events = m := by
  unfold storedEvents findEntry at h
  cases hf : s.socketEntries.find? (fun e => decide (e.socket = socket)) with
  | none => simp [hf] at h
  | some e =>
    simp only [hf, Option.some_bind, SocketEntry.storedEvents] at h
    cases hg : e.commandEvents.find? (fun x => decide (x.command = command)) with
    | none => simp [hg] at h
    | some ce =>
      simp only [hg, Option.map_some', Option.some.injEq] at h
      refine ⟨e, List.mem_of_find?_eq_some hf, ?_, ce, List.mem_of_find?_eq_some hg, ?_, h⟩
      · simpa using List.find?_some hf
      · simpa using List.find?_some hg

theorem storedCE_add (socket : Int) (xs : List CommandEvent) (command events c : Nat) :
    (⟨socket, addCE xs command events⟩ : SocketEntry).storedEvents c =
      if c = command then
        some (((⟨socket, xs⟩ : SocketEntry).storedEvents command).getD 0 ||| events)
      else (⟨socket, xs⟩ : SocketEntry).storedEvents c := by
  simp only [SocketEntry.storedEvents]
  induction xs with
  | nil =>
    by_cases hc : c = command
    · simp [addCE, hc]
    · have hc2 : ¬ command = c := fun h => hc h.symm
      simp [addCE, hc, hc2]
  | cons x rest ih =>
    by_cases hx : x.command = command
    · by_cases hc : c = command
      · simp [addCE, hx, hc, CommandEvent.addEvents, List.find?_cons]
      · have hc2 : ¬ command = c := fun h => hc h.symm
        simp [addCE, hx, hc, hc2, CommandEvent.addEvents, List.find?_cons]
    · by_cases hc : c = command
      · subst hc
        simp only [addCE, hx, if_false, List.find?_cons, decide_False, if_true] at ih ⊢
        exact ih
      · simp only [addCE, hx, hc, if_false, List.find?_cons] at ih ⊢
        cases hd : decide (x.command = c) with
        | true => rfl
        | false => exact ih

theorem storedCE_remove_other (socket : Int) (xs : List CommandEvent) (command events c : Nat)
    (hc : c ≠ command) :
    (⟨socket, removeCE xs command events⟩ : SocketEntry).storedEvents c =
      (⟨socket, xs⟩ : SocketEntry).storedEvents c := by
  simp only [SocketEntry.storedEvents]
  induction xs with
  | nil => rfl
  | cons x rest ih =>
    by_cases hx : x.command = command
    · have hxc : ¬ x.command = c := fun h => hc (h.symm.trans hx)
      simp only [removeCE, hx, if_true]
      split_ifs
      · simp [List.find?_cons, hxc]
      · simp only [List.find?_cons, CommandEvent.removeEvents, hxc, decide_False]
    · simp only [removeCE, hx, if_false, List.find?_cons]
      cases hd : decide (x.command = c) with
      | true => rfl
      | false => exact ih

theorem storedCE_remove_self (socket : Int) (xs : List CommandEvent) (command events : Nat)
    (hn : (xs.map (fun x => x.command)).Nodup) :
    (⟨socket, removeCE xs command events⟩ : SocketEntry).storedEvents command =
      ((⟨socket, xs⟩ : SocketEntry).storedEvents command).bind
        (fun m => if Nat.ldiff m events = 0 then none else some (Nat.ldiff m events)) := by
  simp only [SocketEntry.storedEvents]
  induction xs with
  | nil => rfl
  | cons x rest ih =>
    have hn2 := List.nodup_cons.mp hn
    by_cases hx : x.command = command
    · have hrest : rest.find? (fun y => decide (y.command = command)) = none := by
        rw [List.find?_eq_none]
        intro y hy
        simp only [decide_eq_true_eq]
        intro hyc
        apply hn2.1
        show x.command ∈ rest.map (fun x => x.command)
        rw [hx, ← hyc]
        exact List.mem_map_of_mem (fun x => x.command) hy
      simp only [removeCE, hx, if_true, List.find?_cons, decide_True, Option.map_some',
        Option.some_bind, CommandEvent.eventsEmpty, decide_eq_true_eq,
        removeEvents_eq_ldiff]
      split_ifs with h0
      · simp [hrest]
      · simp [List.find?_cons, CommandEvent.removeEvents, hx, xor_and_eq_ldiff]
    · simp only [removeCE, hx, if_false, List.find?_cons, decide_False]
      exact ih hn2.2

theorem removeCE_absent (xs : List CommandEvent) (command events : Nat)
    (h : xs.find? (fun x => decide (x.command = command)) = none) :
    removeCE xs command events = xs := by
  induction xs with
  | nil => rfl
  | cons x rest ih =>
    rw [List.find?_cons] at h
    by_cases hx : x.command = command
    · simp [hx] at h
    · simp only [hx, decide_False] at h
      simp only [removeCE, hx, if_false, ih h]

/-! ## Lemmas: the calls of a wait cycle -/

theorem foldl_processStep_calls {W : Type} (env : Env W) (l : List AsyncNameResolverEntry) :
    ∀ c : Cycle W, ∃ t, (l.foldl (processStep env) c).calls = c.calls ++ t := by
  induction l with
  | nil => intro c; exact ⟨[], by simp⟩
  | cons a rest ih =>
    intro c
    simp only [List.foldl_cons]
    obtain ⟨t, ht⟩ := ih (processStep env c a)
    rw [ht]
    simp only [processStep, List.append_assoc]
    exact ⟨_, rfl⟩

theorem processEvents_mem (e : SocketEntry) (ce : CommandEvent) (hce : ce ∈ e.commandEvents)
    (events : Nat) (call : Call) (hc : call ∈ ce.processEvents events) :
    call ∈ e.processEvents events := by
  unfold SocketEntry.processEvents
  rw [List.mem_flatMap]
  exact ⟨ce, hce, hc⟩

theorem land_ne_zero_of_testBit (a b i : Nat) (ha : a.testBit i = true)
    (hb : b.testBit i = true) : a &&& b ≠ 0 := by
  intro h
  have := congrArg (fun n => Nat.testBit n i) h
  simp [Nat.testBit_and, ha, hb] at this

theorem testBit_of_land_ne_zero (a b : Nat) (h : a &&& b ≠ 0) :
    ∃ i, a.testBit i = true ∧ b.testBit i = true := by
  by_contra hne
  apply h
  apply Nat.eq_of_testBit_eq
  intro i
  rw [Nat.testBit_and, Nat.zero_testBit]
  cases ha : a.testBit i <;> cases hb : b.testBit i <;> simp
  exact hne ⟨i, ha, hb⟩

theorem testBit_zero_of_land_one (a : Nat) (h : a &&& 1 ≠ 0) : a.testBit 0 = true := by
  rw [Nat.and_one_is_mod] at h
  rw [Nat.testBit_zero]
  simp only [decide_eq_true_eq]
  omega

theorem active_read (stored delivered : Nat) (h : stored &&& EVENT_READ ≠ 0)
    (hr : delivered &&& EVENT_READ ≠ 0) : stored &&& delivered ≠ 0 :=
  land_ne_zero_of_testBit _ _ 0 (testBit_zero_of_land_one _ h) (testBit_zero_of_land_one _ hr)

theorem poll_completes {W : Type} (FD_SETSIZE : Int) (env : Env W) (fuel : Nat) (w : W)
    (s : SelectEventPoll) (w2 : W) (res : SelectResult)
    (hsel : pollSelect env fuel w s = some (w2, res)) :
    ∃ out, poll FD_SETSIZE env fuel w s = some out := by
  unfold pollSelect at hsel
  simp only at hsel
  unfold poll
  simp only [hsel]
  exact ⟨_, rfl⟩

/-! ## The claims -/

/-- C1, as stated, fails: after `addEvents(5, command 1, READ)` on a new
reactor, command 2 has no interest on socket 5, yet `deleteEvents(5, command 2,
READ)` returns true. -/
theorem C1_counterexample :
    Reachable 1024 (addEvents 1024 (SelectEventPoll.new 1024) 5 1 EVENT_READ).2 ∧
    storedEvents (addEvents 1024 (SelectEventPoll.new 1024) 5 1 EVENT_READ).2 5 2 = none ∧
    (deleteEvents 1024 (addEvents 1024 (SelectEventPoll.new 1024) 5 1 EVENT_READ).2 5 2
      EVENT_READ).1 = true :=
  ⟨Reachable.addEvents _ _ _ _ Reachable.new, by decide, by decide⟩

/-- C1, amended: in a reachable state, for a command without interest on the
socket, `deleteEvents` returns false and leaves the whole state unchanged when
the socket has no registration; when the socket is registered by other commands
it returns true and leaves the registrations, the resolver entries, `_rfdset`
and `_wfdset` unchanged, `_fdmax` being recomputed from the registrations and
never raised. -/
theorem C1_deleteEvents_without_interest (FD_SETSIZE : Int) (s : SelectEventPoll)
    (h : Reachable FD_SETSIZE s) (socket : Int) (command events : Nat)
    (hno : storedEvents s socket command = none) :
    (findEntry s socket = none →
      deleteEvents FD_SETSIZE s socket command events = (false, s)) ∧
    (findEntry s socket ≠ none →
      (deleteEvents FD_SETSIZE s socket command events).1 = true ∧
      (deleteEvents FD_SETSIZE s socket command events).2.socketEntries = s.socketEntries ∧
      (deleteEvents FD_SETSIZE s socket command events).2.nameResolverEntries =
        s.nameResolverEntries ∧
      (deleteEvents FD_SETSIZE s socket command events).2.rfdset = s.rfdset ∧
      (deleteEvents FD_SETSIZE s socket command events).2.wfdset = s.wfdset ∧
      (deleteEvents FD_SETSIZE s socket command events).2.fdmax =
        (updateFdSet FD_SETSIZE s).fdmax ∧
      (deleteEvents FD_SETSIZE s socket command events).2.fdmax ≤ s.fdmax) := by
  have hinv := Reachable.inv FD_SETSIZE s h
  rcases sorted_cases s.socketEntries hinv.sorted socket with
    ⟨pre, e, post, hx, he, hpre, hpost⟩ | ⟨pre, post, hx, hpre, hpost⟩
  · have hfind : findEntry s socket = some e := by
      unfold findEntry
      rw [hx]
      exact find_split_self pre post e socket hpre he
    constructor
    · intro hnone
      rw [hfind] at hnone
      exact absurd hnone (by simp)
    · intro _
      have hce : e.commandEvents.find? (fun x => decide (x.command = command)) = none := by
        unfold storedEvents at hno
        rw [hfind] at hno
        simpa [SocketEntry.storedEvents] using hno
      have hne : e.commandEvents ≠ [] := hinv.nonempty e (by rw [hx]; simp)
      have hdel := deleteEvents_found FD_SETSIZE s pre post e socket command events hx he
        hpre hpost
      rw [removeCE_absent _ _ _ hce, if_neg hne] at hdel
      have hsame : updateFdSet FD_SETSIZE
          { s with socketEntries := pre ++ ⟨socket, e.commandEvents⟩ :: post } =
          updateFdSet FD_SETSIZE s := by
        apply updateFdSet_congr
        · simp only [hx, ← he]
        · rfl
      rw [hsame] at hdel
      rw [hdel]
      exact ⟨rfl, updateFdSet_socketEntries _ _, updateFdSet_nameResolverEntries _ _,
        hinv.rfdset, hinv.wfdset, rfl, hinv.fdmax⟩
  · have hfind : findEntry s socket = none := by
      unfold findEntry
      rw [hx]
      exact find_split_none pre post socket hpre hpost
    constructor
    · intro _
      exact deleteEvents_absent FD_SETSIZE s pre post socket command events hx hpre hpost
    · intro hsome
      exact absurd hfind hsome

/-- C1, amended, at a concrete state: socket 5 registered by command 1 only,
`deleteEvents(5, command 2, READ)`. -/
theorem C1_witness :
    Reachable 1024 (addEvents 1024 (SelectEventPoll.new 1024) 5 1 EVENT_READ).2 ∧
    storedEvents (addEvents 1024 (SelectEventPoll.new 1024) 5 1 EVENT_READ).2 5 2 = none ∧
    (deleteEvents 1024 (addEvents 1024 (SelectEventPoll.new 1024) 5 1 EVENT_READ).2 5 2
      EVENT_READ).2.socketEntries =
      (addEvents 1024 (SelectEventPoll.new 1024) 5 1 EVENT_READ).2.socketEntries :=
  ⟨Reachable.addEvents _ _ _ _ Reachable.new, by decide,
    ((C1_deleteEvents_without_interest 1024
      (addEvents 1024 (SelectEventPoll.new 1024) 5 1 EVENT_READ).2
      (Reachable.addEvents _ _ _ _ Reachable.new) 5 2 EVENT_READ (by decide)).2
      (by decide)).2.1⟩

theorem land_error_hup (delivered : Nat) :
    (EVENT_ERROR ||| EVENT_HUP) &&& delivered ≠ 0 ↔
      (delivered &&& EVENT_ERROR ≠ 0 ∨ delivered &&& EVENT_HUP ≠ 0) := by
  rw [Nat.and_comm, Nat.and_or_distrib_left, ne_eq, lor_eq_zero]
  tauto

/-- C5: `CommandEvent::processEvents` calls `setStatusActive` on its command
exactly when the stored and the delivered mask share a bit or the delivered
mask contains ERROR or HUP; so a delivered ERROR or HUP activates whatever the
stored mask is, and a delivered mask without ERROR and HUP that shares no bit
with the stored mask does not activate. -/
theorem C5_processEvents_active (ce : CommandEvent) (delivered : Nat) :
    (Call.setStatusActive ce.command ∈ ce.processEvents delivered ↔
      (ce.events &&& delivered ≠ 0 ∨
        (delivered &&& EVENT_ERROR ≠ 0 ∨ delivered &&& EVENT_HUP ≠ 0))) ∧
    ((delivered &&& EVENT_ERROR ≠ 0 ∨ delivered &&& EVENT_HUP ≠ 0) →
      Call.setStatusActive ce.command ∈ ce.processEvents delivered) ∧
    (ce.events &&& delivered = 0 → delivered &&& EVENT_ERROR = 0 →
      delivered &&& EVENT_HUP = 0 →
      Call.setStatusActive ce.command ∉ ce.processEvents delivered) := by
  have key : Call.setStatusActive ce.command ∈ ce.processEvents delivered ↔
      (ce.events &&& delivered ≠ 0 ∨
        (delivered &&& EVENT_ERROR ≠ 0 ∨ delivered &&& EVENT_HUP ≠ 0)) := by
    rw [← land_error_hup]
    unfold CommandEvent.processEvents
    by_cases hc : ce.events &&& delivered ≠ 0 ∨ (EVENT_ERROR ||| EVENT_HUP) &&& delivered ≠ 0
    · simp only [hc, if_true, iff_true]
      simp
    · simp only [hc, if_false, iff_false]
      simp only [List.nil_append, List.mem_append]
      intro hm
      rcases hm with ((hm | hm) | hm) | hm <;> split_ifs at hm <;> simp at hm
  refine ⟨key, fun h => key.mpr (Or.inr h), ?_⟩
  intro h1 h2 h3 hm
  rcases key.mp hm with h | h | h
  · exact h h1
  · exact h h2
  · exact h h3

/-- C5 at concrete masks: stored READ; delivered ERROR activates, delivered
WRITE does not. -/
theorem C5_witness :
    Call.setStatusActive 7 ∈ (⟨7, EVENT_READ⟩ : CommandEvent).processEvents EVENT_ERROR ∧
    Call.setStatusActive 7 ∉ (⟨7, EVENT_READ⟩ : CommandEvent).processEvents EVENT_WRITE :=
  ⟨(C5_processEvents_active ⟨7, EVENT_READ⟩ EVENT_ERROR).2.1 (Or.inl (by decide)),
    (C5_processEvents_active ⟨7, EVENT_READ⟩ EVENT_WRITE).2.2 (by decide) (by decide)
      (by decide)⟩

theorem removeCE_addCE (xs : List CommandEvent) (command events : Nat)
    (h : ∀ x, xs.find? (fun y => decide (y.command = command)) = some x →
      x.events ≠ 0 ∧ x.events &&& events = 0) :
    removeCE (addCE xs command events) command events = xs := by
  induction xs with
  | nil =>
    simp [addCE, removeCE, CommandEvent.removeEvents, CommandEvent.eventsEmpty]
  | cons x rest ih =>
    by_cases hx : x.command = command
    · have hx2 := h x (by simp [List.find?_cons, hx])
      have hl : (x.events ||| events) ^^^ ((x.events ||| events) &&& events) = x.events := by
        rw [xor_and_eq_ldiff]
        exact ldiff_lor_cancel _ _ hx2.2
      simp only [addCE, hx, if_true, removeCE, CommandEvent.addEvents,
        CommandEvent.removeEvents, CommandEvent.eventsEmpty, hl, hx2.1, decide_False,
        Bool.false_eq_true, if_false]
      rw [← hx]
    · simp only [addCE, hx, if_false, removeCE]
      rw [ih]
      intro y hy
      apply h y
      simp only [List.find?_cons, hx, decide_False]
      exact hy

theorem addCE_addCE (xs : List CommandEvent) (command m1 m2 : Nat) :
    addCE (addCE xs command m1) command m2 = addCE xs command (m1 ||| m2) := by
  induction xs with
  | nil => simp [addCE, CommandEvent.addEvents]
  | cons x rest ih =>
    by_cases hx : x.command = command
    · simp [addCE, hx, CommandEvent.addEvents, Nat.or_assoc]
    · simp only [addCE, hx, if_false, ih]

/-- Two `addEvents` for the same socket and command amount to one with the
union of the masks. -/
theorem addEvents_twice (FD_SETSIZE : Int) (s : SelectEventPoll)
    (hs : SortedEntries s.socketEntries) (socket : Int) (command m1 m2 : Nat) :
    addEvents FD_SETSIZE (addEvents FD_SETSIZE s socket command m1).2 socket command m2 =
      addEvents FD_SETSIZE s socket command (m1 ||| m2) := by
  rcases sorted_cases s.socketEntries hs socket with
    ⟨pre, e, post, hx, he, hpre, hpost⟩ | ⟨pre, post, hx, hpre, hpost⟩
  · rw [addEvents_found FD_SETSIZE s pre post e socket command m1 hx he hpre hpost,
      addEvents_found FD_SETSIZE s pre post e socket command (m1 ||| m2) hx he hpre hpost]
    rw [addEvents_found FD_SETSIZE _ pre post ⟨socket, addCE e.commandEvents command m1⟩
      socket command m2 (updateFdSet_socketEntries _ _) rfl hpre hpost]
    simp only [addCE_addCE]
    congr 1
    apply updateFdSet_congr
    · rfl
    · exact updateFdSet_nameResolverEntries _ _
  · rw [addEvents_absent FD_SETSIZE s pre post socket command m1 hx hpre hpost,
      addEvents_absent FD_SETSIZE s pre post socket command (m1 ||| m2) hx hpre hpost]
    rw [addEvents_found FD_SETSIZE _ pre post ⟨socket, [⟨command, m1⟩]⟩
      socket command m2 (updateFdSet_socketEntries _ _) rfl hpre hpost]
    congr 1
    apply updateFdSet_congr
    · simp [addCE, CommandEvent.addEvents]
    · exact updateFdSet_nameResolverEntries _ _

/-- C3, as stated, fails: command 1 already has READ on socket 5; after
`addEvents(5, 1, READ)` and `deleteEvents(5, 1, READ)` the registration
sequence is empty, whereas before it held the registration of socket 5. -/
theorem C3_counterexample :
    Reachable 1024 (addEvents 1024 (SelectEventPoll.new 1024) 5 1 EVENT_READ).2 ∧
    (addEvents 1024 (SelectEventPoll.new 1024) 5 1 EVENT_READ).2.socketEntries =
      [⟨5, [⟨1, EVENT_READ⟩]⟩] ∧
    (deleteEvents 1024 (addEvents 1024
      (addEvents 1024 (SelectEventPoll.new 1024) 5 1 EVENT_READ).2 5 1 EVENT_READ).2 5 1
      EVENT_READ).2.socketEntries = [] :=
  ⟨Reachable.addEvents _ _ _ _ Reachable.new, by decide, by decide⟩

/-- C3, amended: in a reachable state, when the command has no command event
on the socket, or has one whose stored mask is not empty and shares no bit with
`events`, `addEvents` followed by `deleteEvents` with the same arguments both
return true and leave the registration sequence exactly as it was. -/
theorem C3_add_then_delete (FD_SETSIZE : Int) (s : SelectEventPoll)
    (h : Reachable FD_SETSIZE s) (socket : Int) (command events : Nat)
    (hm : ∀ m, storedEvents s socket command = some m → m ≠ 0 ∧ m &&& events = 0) :
    (addEvents FD_SETSIZE s socket command events).1 = true ∧
    (deleteEvents FD_SETSIZE (addEvents FD_SETSIZE s socket command events).2 socket command
      events).1 = true ∧
    (deleteEvents FD_SETSIZE (addEvents FD_SETSIZE s socket command events).2 socket command
      events).2.socketEntries = s.socketEntries := by
  have hinv := Reachable.inv FD_SETSIZE s h
  rcases sorted_cases s.socketEntries hinv.sorted socket with
    ⟨pre, e, post, hx, he, hpre, hpost⟩ | ⟨pre, post, hx, hpre, hpost⟩
  · have hfind : findEntry s socket = some e := by
      unfold findEntry
      rw [hx]
      exact find_split_self pre post e socket hpre he
    have hce : ∀ x, e.commandEvents.find? (fun y => decide (y.command = command)) = some x →
        x.events ≠ 0 ∧ x.events &&& events = 0 := by
      intro x hxf
      apply hm
      unfold storedEvents
      rw [hfind]
      simp [SocketEntry.storedEvents, hxf]
    have hne : e.commandEvents ≠ [] := hinv.nonempty e (by rw [hx]; simp)
    rw [addEvents_found FD_SETSIZE s pre post e socket command events hx he hpre hpost]
    rw [deleteEvents_found FD_SETSIZE _ pre post ⟨socket, addCE e.commandEvents command events⟩
      socket command events (updateFdSet_socketEntries _ _) rfl hpre hpost]
    refine ⟨rfl, rfl, ?_⟩
    simp only [removeCE_addCE _ _ _ hce, if_neg hne, updateFdSet_socketEntries, hx, ← he]
  · rw [addEvents_absent FD_SETSIZE s pre post socket command events hx hpre hpost]
    rw [deleteEvents_found FD_SETSIZE _ pre post ⟨socket, [⟨command, events⟩]⟩
      socket command events (updateFdSet_socketEntries _ _) rfl hpre hpost]
    refine ⟨rfl, rfl, ?_⟩
    have hr : removeCE [⟨command, events⟩] command events = [] :=
      removeCE_addCE [] command events (by simp)
    simp only [hr, if_true, updateFdSet_socketEntries, hx]

/-- C3, amended, at a concrete state: socket 5 holds READ of command 1;
`addEvents(5, 1, WRITE)` then `deleteEvents(5, 1, WRITE)`. -/
theorem C3_witness :
    Reachable 1024 (addEvents 1024 (SelectEventPoll.new 1024) 5 1 EVENT_READ).2 ∧
    (deleteEvents 1024 (addEvents 1024
      (addEvents 1024 (SelectEventPoll.new 1024) 5 1 EVENT_READ).2 5 1 EVENT_WRITE).2 5 1
      EVENT_WRITE).2.socketEntries =
      (addEvents 1024 (SelectEventPoll.new 1024) 5 1 EVENT_READ).2.socketEntries :=
  ⟨Reachable.addEvents _ _ _ _ Reachable.new,
    (C3_add_then_delete 1024 (addEvents 1024 (SelectEventPoll.new 1024) 5 1 EVENT_READ).2
      (Reachable.addEvents _ _ _ _ Reachable.new) 5 1 EVENT_WRITE
      (by
        have hs : storedEvents (addEvents 1024 (SelectEventPoll.new 1024) 5 1 EVENT_READ).2
            5 1 = some 1 := by decide
        intro m hmm
        rw [hs] at hmm
        simp only [Option.some.injEq] at hmm
        subst hmm
        decide)).2.2⟩

/-- C4: in a reachable state, `addEvents` with `m1` then with `m2` for the same
socket and command gives the same state as the single `addEvents` with
`m1 ||| m2` and as the two calls in the opposite order, and repeating an
`addEvents` changes nothing after the first call. -/
theorem C4_addEvents_merge (FD_SETSIZE : Int) (s : SelectEventPoll)
    (h : Reachable FD_SETSIZE s) (socket : Int) (command m1 m2 : Nat) :
    (addEvents FD_SETSIZE (addEvents FD_SETSIZE s socket command m1).2 socket command m2).2 =
      (addEvents FD_SETSIZE s socket command (m1 ||| m2)).2 ∧
    (addEvents FD_SETSIZE (addEvents FD_SETSIZE s socket command m2).2 socket command m1).2 =
      (addEvents FD_SETSIZE (addEvents FD_SETSIZE s socket command m1).2 socket command m2).2 ∧
    (addEvents FD_SETSIZE (addEvents FD_SETSIZE s socket command m1).2 socket command m1).2 =
      (addEvents FD_SETSIZE s socket command m1).2 := by
  have hs := (Reachable.inv FD_SETSIZE s h).sorted
  refine ⟨?_, ?_, ?_⟩
  · rw [addEvents_twice FD_SETSIZE s hs]
  · rw [addEvents_twice FD_SETSIZE s hs, addEvents_twice FD_SETSIZE s hs, Nat.or_comm]
  · rw [addEvents_twice FD_SETSIZE s hs, Nat.or_self]

/-- C4 at a concrete state: READ then WRITE for command 1 on socket 5 of a new
reactor, against READ|WRITE at once. -/
theorem C4_witness :
    Reachable 1024 (SelectEventPoll.new 1024) ∧
    (addEvents 1024 (addEvents 1024 (SelectEventPoll.new 1024) 5 1 EVENT_READ).2 5 1
      EVENT_WRITE).2 =
      (addEvents 1024 (SelectEventPoll.new 1024) 5 1 (EVENT_READ ||| EVENT_WRITE)).2 :=
  ⟨Reachable.new,
    (C4_addEvents_merge 1024 (SelectEventPoll.new 1024) Reachable.new 5 1 EVENT_READ
      EVENT_WRITE).1⟩

/-! ## Lemmas: stored masks after `addEvents` and `deleteEvents` -/

theorem storedEvents_of_find (s : SelectEventPoll) (socket : Int) (command : Nat)
    (e : SocketEntry) (h : findEntry s socket = some e) :
    storedEvents s socket command = e.storedEvents command := by
  unfold storedEvents
  rw [h]
  rfl

theorem storedEvents_of_find_none (s : SelectEventPoll) (socket : Int) (command : Nat)
    (h : findEntry s socket = none) : storedEvents s socket command = none := by
  unfold storedEvents
  rw [h]
  rfl

theorem findEntry_other (s t : SelectEventPoll) (pre post : List SocketEntry)
    (a b : SocketEntry) (socket : Int) (ha : a.socket ≠ socket) (hb : b.socket ≠ socket)
    (hs : s.socketEntries = pre ++ a :: post) (ht : t.socketEntries = pre ++ b :: post) :
    findEntry t socket = findEntry s socket := by
  unfold findEntry
  rw [hs, ht, find_split_other pre post a socket ha, find_split_other pre post b socket hb]

theorem storedEvents_addEvents (FD_SETSIZE : Int) (s : SelectEventPoll)
    (hs : SortedEntries s.socketEntries) (socket : Int) (command events : Nat)
    (socket2 : Int) (command2 : Nat) :
    storedEvents (addEvents FD_SETSIZE s socket command events).2 socket2 command2 =
      if socket2 = socket ∧ command2 = command then
        some ((storedEvents s socket command).getD 0 ||| events)
      else storedEvents s socket2 command2 := by
  rcases sorted_cases s.socketEntries hs socket with
    ⟨pre, e, post, hx, he, hpre, hpost⟩ | ⟨pre, post, hx, hpre, hpost⟩
  · rw [addEvents_found FD_SETSIZE s pre post e socket command events hx he hpre hpost]
    have hx1 := updateFdSet_socketEntries FD_SETSIZE
      { s with socketEntries := pre ++ ⟨socket, addCE e.commandEvents command events⟩ :: post }
    simp only at hx1
    by_cases hsock : socket2 = socket
    · subst hsock
      have hf : findEntry s socket2 = some e := by
        unfold findEntry; rw [hx]; exact find_split_self pre post e socket2 hpre he
      have hf1 : findEntry (updateFdSet FD_SETSIZE { s with socketEntries :=
          pre ++ ⟨socket2, addCE e.commandEvents command events⟩ :: post }) socket2 =
          some ⟨socket2, addCE e.commandEvents command events⟩ := by
        unfold findEntry; rw [hx1]; exact find_split_self pre post _ socket2 hpre rfl
      have hfc : ∀ c, storedEvents s socket2 c = e.storedEvents c :=
        fun c => storedEvents_of_find _ _ c _ hf
      rw [storedEvents_of_find _ _ _ _ hf1, storedCE_add]
      simp only [true_and, hfc]
      rfl
    · have hf := findEntry_other s (updateFdSet FD_SETSIZE { s with socketEntries :=
          pre ++ ⟨socket, addCE e.commandEvents command events⟩ :: post }) pre post e
          ⟨socket, addCE e.commandEvents command events⟩ socket2
          (by rw [he]; exact fun h => hsock h.symm) (fun h => hsock h.symm) hx hx1
      simp only [hsock, false_and, if_false]
      unfold storedEvents
      rw [hf]
  · rw [addEvents_absent FD_SETSIZE s pre post socket command events hx hpre hpost]
    have hx1 := updateFdSet_socketEntries FD_SETSIZE
      { s with socketEntries := pre ++ ⟨socket, [⟨command, events⟩]⟩ :: post }
    simp only at hx1
    by_cases hsock : socket2 = socket
    · subst hsock
      have hf : findEntry s socket2 = none := by
        unfold findEntry; rw [hx]; exact find_split_none pre post socket2 hpre hpost
      have hf1 : findEntry (updateFdSet FD_SETSIZE { s with socketEntries :=
          pre ++ ⟨socket2, [⟨command, events⟩]⟩ :: post }) socket2 =
          some ⟨socket2, [⟨command, events⟩]⟩ := by
        unfold findEntry; rw [hx1]; exact find_split_self pre post _ socket2 hpre rfl
      have hfc : ∀ c, storedEvents s socket2 c = none :=
        fun c => storedEvents_of_find_none _ _ c hf
      rw [storedEvents_of_find _ _ _ _ hf1]
      have := storedCE_add socket2 [] command events command2
      simp only [addCE] at this
      rw [this]
      simp only [true_and, hfc]
      rfl
    · simp only [hsock, false_and, if_false]
      unfold storedEvents findEntry
      rw [hx1, hx, find_split_other pre post _ socket2 (fun h => hsock h.symm)]

theorem storedEvents_deleteEvents (FD_SETSIZE : Int) (s : SelectEventPoll)
    (hs : SortedEntries s.socketEntries)
    (hn : ∀ e ∈ s.socketEntries, (e.commandEvents.map (fun x => x.command)).Nodup)
    (socket : Int) (command events : Nat) (socket2 : Int) (command2 : Nat) :
    storedEvents (deleteEvents FD_SETSIZE s socket command events).2 socket2 command2 =
      if socket2 = socket ∧ command2 = command then
        (storedEvents s socket command).bind
          (fun m => if Nat.ldiff m events = 0 then none else some (Nat.ldiff m events))
      else storedEvents s socket2 command2 := by
  rcases sorted_cases s.socketEntries hs socket with
    ⟨pre, e, post, hx, he, hpre, hpost⟩ | ⟨pre, post, hx, hpre, hpost⟩
  · rw [deleteEvents_found FD_SETSIZE s pre post e socket command events hx he hpre hpost]
    have hnd := hn e (by rw [hx]; simp)
    have hself := storedCE_remove_self socket e.commandEvents command events hnd
    have hother := storedCE_remove_other socket e.commandEvents command events
    have hf : findEntry s socket = some e := by
      unfold findEntry; rw [hx]; exact find_split_self pre post e socket hpre he
    have hes : ∀ c, e.storedEvents c = (⟨socket, e.commandEvents⟩ : SocketEntry).storedEvents c :=
      fun _ => rfl
    by_cases hemp : removeCE e.commandEvents command events = []
    · simp only [hemp, if_true]
      have hx1 := updateFdSet_socketEntries FD_SETSIZE { s with socketEntries := pre ++ post }
      simp only at hx1
      rw [hemp] at hself hother
      by_cases hsock : socket2 = socket
      · subst hsock
        have hf1 : findEntry (updateFdSet FD_SETSIZE { s with socketEntries := pre ++ post })
            socket2 = none := by
          unfold findEntry; rw [hx1]; exact find_split_none pre post socket2 hpre hpost
        have hfc : ∀ c, storedEvents s socket2 c = e.storedEvents c :=
          fun c => storedEvents_of_find _ _ c _ hf
        rw [storedEvents_of_find_none _ _ _ hf1]
        simp only [hfc]
        by_cases hc : command2 = command
        · simp only [hc, and_self, if_true, hes, ← hself]
          rfl
        · simp only [hc, and_false, if_false, hes, ← hother command2 hc]
          rfl
      · simp only [hsock, false_and, if_false]
        unfold storedEvents findEntry
        rw [hx1, hx, find_split_other pre post _ socket2
          (by rw [he]; exact fun h => hsock h.symm)]
    · simp only [hemp, if_false]
      have hx1 := updateFdSet_socketEntries FD_SETSIZE { s with socketEntries :=
        pre ++ ⟨socket, removeCE e.commandEvents command events⟩ :: post }
      simp only at hx1
      by_cases hsock : socket2 = socket
      · subst hsock
        have hf1 : findEntry (updateFdSet FD_SETSIZE { s with socketEntries :=
            pre ++ ⟨socket2, removeCE e.commandEvents command events⟩ :: post }) socket2 =
            some ⟨socket2, removeCE e.commandEvents command events⟩ := by
          unfold findEntry; rw [hx1]; exact find_split_self pre post _ socket2 hpre rfl
        have hfc : ∀ c, storedEvents s socket2 c = e.storedEvents c :=
          fun c => storedEvents_of_find _ _ c _ hf
        rw [storedEvents_of_find _ _ _ _ hf1]
        simp only [hfc]
        by_cases hc : command2 = command
        · simp only [hc, and_self, if_true, hes, ← hself]
        · simp only [hc, and_false, if_false, hes, ← hother command2 hc]
      · have hf2 := findEntry_other s (updateFdSet FD_SETSIZE { s with socketEntries :=
            pre ++ ⟨socket, removeCE e.commandEvents command events⟩ :: post }) pre post e
            ⟨socket, removeCE e.commandEvents command events⟩ socket2
            (by rw [he]; exact fun h => hsock h.symm) (fun h => hsock h.symm) hx hx1
        simp only [hsock, false_and, if_false]
        unfold storedEvents
        rw [hf2]
  · rw [deleteEvents_absent FD_SETSIZE s pre post socket command events hx hpre hpost]
    have hf : findEntry s socket = none := by
      unfold findEntry; rw [hx]; exact find_split_none pre post socket hpre hpost
    split_ifs with hc
    · rw [hc.1, storedEvents_of_find_none _ _ command2 hf,
        storedEvents_of_find_none _ _ command hf]
      rfl
    · rfl

theorem mem_split_absent (pre post : List SocketEntry) (socket : Int)
    (hpre : ∀ x ∈ pre, x.socket < socket) (hpost : ∀ x ∈ post, socket < x.socket) :
    ∀ e ∈ pre ++ post, e.socket ≠ socket := by
  intro e he
  rcases List.mem_append.mp he with he | he
  · have := hpre e he
    omega
  · have := hpost e he
    omega

/-- C8: in a reachable state where the socket has a registration, when after
a `deleteEvents` on the socket no command has a command event on it any more,
that call returned true and erased the registration of the socket, and every
later `deleteEvents` on the socket returns false and changes nothing. -/
theorem C8_last_interest_erases (FD_SETSIZE : Int) (s : SelectEventPoll)
    (h : Reachable FD_SETSIZE s) (socket : Int) (command events : Nat)
    (hbefore : findEntry s socket ≠ none)
    (hlast : ∀ c,
      storedEvents (deleteEvents FD_SETSIZE s socket command events).2 socket c = none) :
    (deleteEvents FD_SETSIZE s socket command events).1 = true ∧
    (∀ e ∈ (deleteEvents FD_SETSIZE s socket command events).2.socketEntries,
      e.socket ≠ socket) ∧
    (findEntry (deleteEvents FD_SETSIZE s socket command events).2 socket = none) ∧
    (∀ c m, deleteEvents FD_SETSIZE (deleteEvents FD_SETSIZE s socket command events).2
      socket c m = (false, (deleteEvents FD_SETSIZE s socket command events).2)) := by
  have hinv := Reachable.inv FD_SETSIZE s h
  have hinv2 := Reachable.inv FD_SETSIZE _ (Reachable.deleteEvents s socket command events h)
  have htrue : (deleteEvents FD_SETSIZE s socket command events).1 = true := by
    rcases sorted_cases s.socketEntries hinv.sorted socket with
      ⟨pre, e, post, hx, he, hpre, hpost⟩ | ⟨pre, post, hx, hpre, hpost⟩
    · rw [deleteEvents_found FD_SETSIZE s pre post e socket command events hx he hpre hpost]
    · exfalso
      apply hbefore
      unfold findEntry
      rw [hx]
      exact find_split_none pre post socket hpre hpost
  rcases sorted_cases _ hinv2.sorted socket with
    ⟨pre, e, post, hx, he, hpre, hpost⟩ | ⟨pre, post, hx, hpre, hpost⟩
  · exfalso
    have hf : findEntry (deleteEvents FD_SETSIZE s socket command events).2 socket = some e := by
      unfold findEntry
      rw [hx]
      exact find_split_self pre post e socket hpre he
    have hne : e.commandEvents ≠ [] := hinv2.nonempty e (by rw [hx]; simp)
    cases hces : e.commandEvents with
    | nil => exact hne hces
    | cons x rest =>
      have := hlast x.command
      rw [storedEvents_of_find _ _ _ _ hf] at this
      simp [SocketEntry.storedEvents, hces] at this
  · refine ⟨htrue, ?_, ?_, ?_⟩
    · rw [hx]
      exact mem_split_absent pre post socket hpre hpost
    · unfold findEntry
      rw [hx]
      exact find_split_none pre post socket hpre hpost
    · intro c m
      exact deleteEvents_absent FD_SETSIZE _ pre post socket c m hx hpre hpost

/-- C8 at a concrete state: socket 7 registered by command 1 for READ only,
then `deleteEvents(7, 1, READ)`. -/
theorem C8_witness :
    Reachable 1024 (addEvents 1024 (SelectEventPoll.new 1024) 7 1 EVENT_READ).2 ∧
    findEntry (addEvents 1024 (SelectEventPoll.new 1024) 7 1 EVENT_READ).2 7 ≠ none ∧
    findEntry (deleteEvents 1024 (addEvents 1024 (SelectEventPoll.new 1024) 7 1
      EVENT_READ).2 7 1 EVENT_READ).2 7 = none :=
  ⟨Reachable.addEvents _ _ _ _ Reachable.new, by decide,
    (C8_last_interest_erases 1024 (addEvents 1024 (SelectEventPoll.new 1024) 7 1 EVENT_READ).2
      (Reachable.addEvents _ _ _ _ Reachable.new) 7 1 EVENT_READ (by decide)
      (fun c => storedEvents_of_find_none _ _ c (by decide))).2.2.1⟩

/-- C9: in a reachable state `addEvents` returns true, the mask stored for the
socket and command becomes the previous one (0 when there was none) or-ed with
`events`, and the mask stored for every other socket and command pair is
unchanged. -/
theorem C9_addEvents_frame (FD_SETSIZE : Int) (s : SelectEventPoll)
    (h : Reachable FD_SETSIZE s) (socket : Int) (command events : Nat) :
    (addEvents FD_SETSIZE s socket command events).1 = true ∧
    storedEvents (addEvents FD_SETSIZE s socket command events).2 socket command =
      some ((storedEvents s socket command).getD 0 ||| events) ∧
    (∀ socket2 command2, (socket2 ≠ socket ∨ command2 ≠ command) →
      storedEvents (addEvents FD_SETSIZE s socket command events).2 socket2 command2 =
        storedEvents s socket2 command2) := by
  have hinv := Reachable.inv FD_SETSIZE s h
  refine ⟨?_, ?_, ?_⟩
  · simp [addEvents]
  · rw [storedEvents_addEvents FD_SETSIZE s hinv.sorted]
    simp
  · intro socket2 command2 hne
    rw [storedEvents_addEvents FD_SETSIZE s hinv.sorted]
    have : ¬ (socket2 = socket ∧ command2 = command) := by
      rintro ⟨h1, h2⟩
      rcases hne with hne | hne
      · exact hne h1
      · exact hne h2
    simp only [this, if_false]

/-- C9 at a concrete state: command 1 holds READ on socket 5 and the same
registration is added once more, together with WRITE. -/
theorem C9_witness :
    Reachable 1024 (addEvents 1024 (SelectEventPoll.new 1024) 5 1 EVENT_READ).2 ∧
    (addEvents 1024 (addEvents 1024 (SelectEventPoll.new 1024) 5 1 EVENT_READ).2 5 1
      (EVENT_READ ||| EVENT_WRITE)).1 = true :=
  ⟨Reachable.addEvents _ _ _ _ Reachable.new,
    (C9_addEvents_frame 1024 (addEvents 1024 (SelectEventPoll.new 1024) 5 1 EVENT_READ).2
      (Reachable.addEvents _ _ _ _ Reachable.new) 5 1 (EVENT_READ ||| EVENT_WRITE)).1⟩

/-- C10: in a reachable state `deleteEvents` returns true exactly when the
socket has a registration; then the mask stored for the socket and command
becomes the previous one and-not `events`, the command event being removed
when that is 0, and the mask stored for every other socket and command pair is
unchanged; when it returns false the whole state is unchanged. -/
theorem C10_deleteEvents_frame (FD_SETSIZE : Int) (s : SelectEventPoll)
    (h : Reachable FD_SETSIZE s) (socket : Int) (command events : Nat) :
    ((deleteEvents FD_SETSIZE s socket command events).1 = true ↔
      ∃ e ∈ s.socketEntries, e.socket = socket) ∧
    ((deleteEvents FD_SETSIZE s socket command events).1 = true →
      storedEvents (deleteEvents FD_SETSIZE s socket command events).2 socket command =
        (storedEvents s socket command).bind
          (fun m => if Nat.ldiff m events = 0 then none else some (Nat.ldiff m events)) ∧
      (∀ socket2 command2, (socket2 ≠ socket ∨ command2 ≠ command) →
        storedEvents (deleteEvents FD_SETSIZE s socket command events).2 socket2 command2 =
          storedEvents s socket2 command2)) ∧
    ((deleteEvents FD_SETSIZE s socket command events).1 = false →
      (deleteEvents FD_SETSIZE s socket command events).2 = s) := by
  have hinv := Reachable.inv FD_SETSIZE s h
  have hst := storedEvents_deleteEvents FD_SETSIZE s hinv.sorted hinv.nodup socket command
    events
  refine ⟨?_, ?_, ?_⟩
  · rcases sorted_cases s.socketEntries hinv.sorted socket with
      ⟨pre, e, post, hx, he, hpre, hpost⟩ | ⟨pre, post, hx, hpre, hpost⟩
    · rw [deleteEvents_found FD_SETSIZE s pre post e socket command events hx he hpre hpost]
      simp only [true_iff]
      exact ⟨e, by rw [hx]; simp, he⟩
    · rw [deleteEvents_absent FD_SETSIZE s pre post socket command events hx hpre hpost]
      simp only [Bool.false_eq_true, false_iff, not_exists, not_and]
      intro e he
      rw [hx] at he
      exact mem_split_absent pre post socket hpre hpost e he
  · intro _
    constructor
    · rw [hst]
      simp
    · intro socket2 command2 hne
      rw [hst]
      have : ¬ (socket2 = socket ∧ command2 = command) := by
        rintro ⟨h1, h2⟩
        rcases hne with hne | hne
        · exact hne h1
        · exact hne h2
      simp only [this, if_false]
  · rcases sorted_cases s.socketEntries hinv.sorted socket with
      ⟨pre, e, post, hx, he, hpre, hpost⟩ | ⟨pre, post, hx, hpre, hpost⟩
    · rw [deleteEvents_found FD_SETSIZE s pre post e socket command events hx he hpre hpost]
      intro hf
      simp at hf
    · rw [deleteEvents_absent FD_SETSIZE s pre post socket command events hx hpre hpost]
      intro _
      rfl

/-- C10 at a concrete state: command 1 holds READ|WRITE on socket 5 and WRITE
is deleted; READ stays stored. -/
theorem C10_witness :
    Reachable 1024
      (addEvents 1024 (SelectEventPoll.new 1024) 5 1 (EVENT_READ ||| EVENT_WRITE)).2 ∧
    (deleteEvents 1024
      (addEvents 1024 (SelectEventPoll.new 1024) 5 1 (EVENT_READ ||| EVENT_WRITE)).2 5 1
      EVENT_WRITE).1 = true ∧
    storedEvents (deleteEvents 1024
      (addEvents 1024 (SelectEventPoll.new 1024) 5 1 (EVENT_READ ||| EVENT_WRITE)).2 5 1
      EVENT_WRITE).2 5 1 =
      (storedEvents
        (addEvents 1024 (SelectEventPoll.new 1024) 5 1 (EVENT_READ ||| EVENT_WRITE)).2 5
        1).bind
        (fun m => if Nat.ldiff m EVENT_WRITE = 0 then none
          else some (Nat.ldiff m EVENT_WRITE)) :=
  ⟨Reachable.addEvents _ _ _ _ Reachable.new, by decide,
    ((C10_deleteEvents_frame 1024
      (addEvents 1024 (SelectEventPoll.new 1024) 5 1 (EVENT_READ ||| EVENT_WRITE)).2
      (Reachable.addEvents _ _ _ _ Reachable.new) 5 1 EVENT_WRITE).2.1 (by decide)).1⟩

/-! ## Lemmas: membership in the descriptor sets -/

theorem updateFdSetStep_rfdset (FD_SETSIZE : Int) (s : SelectEventPoll) (e : SocketEntry) :
    (updateFdSetStep FD_SETSIZE s e).rfdset =
      if ¬ (e.socket < 0 ∨ FD_SETSIZE ≤ e.socket) ∧ (e.getEvents &&& EVENT_READ) ≠ 0 then
        insert e.socket s.rfdset
      else s.rfdset := by
  unfold updateFdSetStep
  simp only
  split_ifs <;> simp_all

theorem updateFdSetStep_wfdset (FD_SETSIZE : Int) (s : SelectEventPoll) (e : SocketEntry) :
    (updateFdSetStep FD_SETSIZE s e).wfdset =
      if ¬ (e.socket < 0 ∨ FD_SETSIZE ≤ e.socket) ∧ (e.getEvents &&& EVENT_WRITE) ≠ 0 then
        insert e.socket s.wfdset
      else s.wfdset := by
  unfold updateFdSetStep
  simp only
  split_ifs <;> simp_all

theorem foldl_updateFdSetStep_rfdset (FD_SETSIZE : Int) (l : List SocketEntry) (x : Int) :
    ∀ acc : SelectEventPoll,
      x ∈ (l.foldl (updateFdSetStep FD_SETSIZE) acc).rfdset ↔
        (x ∈ acc.rfdset ∨ ∃ e ∈ l, e.socket = x ∧ ¬ (x < 0 ∨ FD_SETSIZE ≤ x) ∧
          (e.getEvents &&& EVENT_READ) ≠ 0) := by
  induction l with
  | nil => intro acc; simp
  | cons a rest ih =>
    intro acc
    simp only [List.foldl_cons, ih, updateFdSetStep_rfdset, List.mem_cons, exists_eq_or_imp]
    split_ifs with hc
    · simp only [Finset.mem_insert]
      constructor
      · rintro ((h | h) | h)
        · subst h
          exact Or.inr (Or.inl ⟨rfl, hc.1, hc.2⟩)
        · exact Or.inl h
        · exact Or.inr (Or.inr h)
      · rintro (h | h | h)
        · exact Or.inl (Or.inr h)
        · exact Or.inl (Or.inl h.1.symm)
        · exact Or.inr h
    · constructor
      · rintro (h | h)
        · exact Or.inl h
        · exact Or.inr (Or.inr h)
      · rintro (h | h | h)
        · exact Or.inl h
        · exfalso
          apply hc
          rw [h.1]
          exact ⟨h.2.1, h.2.2⟩
        · exact Or.inr h

theorem foldl_updateFdSetStep_wfdset (FD_SETSIZE : Int) (l : List SocketEntry) (x : Int) :
    ∀ acc : SelectEventPoll,
      x ∈ (l.foldl (updateFdSetStep FD_SETSIZE) acc).wfdset ↔
        (x ∈ acc.wfdset ∨ ∃ e ∈ l, e.socket = x ∧ ¬ (x < 0 ∨ FD_SETSIZE ≤ x) ∧
          (e.getEvents &&& EVENT_WRITE) ≠ 0) := by
  induction l with
  | nil => intro acc; simp
  | cons a rest ih =>
    intro acc
    simp only [List.foldl_cons, ih, updateFdSetStep_wfdset, List.mem_cons, exists_eq_or_imp]
    split_ifs with hc
    · simp only [Finset.mem_insert]
      constructor
      · rintro ((h | h) | h)
        · subst h
          exact Or.inr (Or.inl ⟨rfl, hc.1, hc.2⟩)
        · exact Or.inl h
        · exact Or.inr (Or.inr h)
      · rintro (h | h | h)
        · exact Or.inl (Or.inr h)
        · exact Or.inl (Or.inl h.1.symm)
        · exact Or.inr h
    · constructor
      · rintro (h | h)
        · exact Or.inl h
        · exact Or.inr (Or.inr h)
      · rintro (h | h | h)
        · exact Or.inl h
        · exfalso
          apply hc
          rw [h.1]
          exact ⟨h.2.1, h.2.2⟩
        · exact Or.inr h

/-- The read set computed by `updateFdSet`: the in-range sockets whose
registration has READ in its accumulated events. -/
theorem mem_updateFdSet_rfdset (FD_SETSIZE : Int) (s : SelectEventPoll) (x : Int) :
    x ∈ (updateFdSet FD_SETSIZE s).rfdset ↔
      ∃ e ∈ s.socketEntries, e.socket = x ∧ ¬ (x < 0 ∨ FD_SETSIZE ≤ x) ∧
        (e.getEvents &&& EVENT_READ) ≠ 0 := by
  unfold updateFdSet
  rw [foldl_updateFdSetStep_rfdset]
  simp

/-- The write set computed by `updateFdSet`: the in-range sockets whose
registration has WRITE in its accumulated events. -/
theorem mem_updateFdSet_wfdset (FD_SETSIZE : Int) (s : SelectEventPoll) (x : Int) :
    x ∈ (updateFdSet FD_SETSIZE s).wfdset ↔
      ∃ e ∈ s.socketEntries, e.socket = x ∧ ¬ (x < 0 ∨ FD_SETSIZE ≤ x) ∧
        (e.getEvents &&& EVENT_WRITE) ≠ 0 := by
  unfold updateFdSet
  rw [foldl_updateFdSetStep_wfdset]
  simp

theorem foldl_accumulateEvent_land (xs : List CommandEvent) (b : Nat) :
    ∀ a : Nat, (xs.foldl accumulateEvent a) &&& b ≠ 0 ↔
      (a &&& b ≠ 0 ∨ ∃ ce ∈ xs, ce.events &&& b ≠ 0) := by
  induction xs with
  | nil => intro a; simp
  | cons x rest ih =>
    intro a
    simp only [List.foldl_cons, ih, accumulateEvent, CommandEvent.getEvents, List.mem_cons,
      exists_eq_or_imp]
    have hd : (a ||| x.events) &&& b ≠ 0 ↔ (a &&& b ≠ 0 ∨ x.events &&& b ≠ 0) := by
      rw [Nat.and_comm, Nat.and_or_distrib_left, ne_eq, lor_eq_zero, Nat.and_comm b a,
        Nat.and_comm b x.events]
      tauto
    rw [hd]
    tauto

/-- The accumulated events of a registration contain a bit of `b` exactly
when one of its command events does. -/
theorem getEvents_land (e : SocketEntry) (b : Nat) :
    e.getEvents &&& b ≠ 0 ↔ ∃ ce ∈ e.commandEvents, ce.events &&& b ≠ 0 := by
  unfold SocketEntry.getEvents
  rw [foldl_accumulateEvent_land]
  simp

theorem processEvents_read (ce : CommandEvent) (events : Nat)
    (hs : ce.events &&& EVENT_READ ≠ 0) (hd : events &&& EVENT_READ ≠ 0) :
    Call.readEventReceived ce.command ∈ ce.processEvents events ∧
    Call.setStatusActive ce.command ∈ ce.processEvents events := by
  have h1 : ce.events &&& events ≠ 0 := active_read _ _ hs hd
  have h2 : EVENT_READ &&& events ≠ 0 := by rw [Nat.and_comm]; exact hd
  unfold CommandEvent.processEvents
  simp only [h1, h2, ne_eq, not_false_eq_true, true_or, if_true]
  simp

theorem deleteEvents_fst_iff (FD_SETSIZE : Int) (s : SelectEventPoll)
    (hs : SortedEntries s.socketEntries) (socket : Int) (command events : Nat) :
    (deleteEvents FD_SETSIZE s socket command events).1 = true ↔
      ∃ e ∈ s.socketEntries, e.socket = socket := by
  rcases sorted_cases s.socketEntries hs socket with
    ⟨pre, e, post, hx, he, hpre, hpost⟩ | ⟨pre, post, hx, hpre, hpost⟩
  · rw [deleteEvents_found FD_SETSIZE s pre post e socket command events hx he hpre hpost]
    simp only [true_iff]
    exact ⟨e, by rw [hx]; simp, he⟩
  · rw [deleteEvents_absent FD_SETSIZE s pre post socket command events hx hpre hpost]
    simp only [Bool.false_eq_true, false_iff, not_exists, not_and]
    intro e he
    rw [hx] at he
    exact mem_split_absent pre post socket hpre hpost e he

/-- Registering a socket that `updateFdSet` skips leaves the computed sets and
ceiling as they are computed without it. -/
theorem addEvents_skipped (FD_SETSIZE : Int) (s : SelectEventPoll)
    (hs : SortedEntries s.socketEntries) (socket : Int) (command events : Nat)
    (hout : socket < 0 ∨ FD_SETSIZE ≤ socket) :
    (addEvents FD_SETSIZE s socket command events).2.rfdset =
      (updateFdSet FD_SETSIZE s).rfdset ∧
    (addEvents FD_SETSIZE s socket command events).2.wfdset =
      (updateFdSet FD_SETSIZE s).wfdset ∧
    (addEvents FD_SETSIZE s socket command events).2.fdmax =
      (updateFdSet FD_SETSIZE s).fdmax := by
  rcases sorted_cases s.socketEntries hs socket with
    ⟨pre, e, post, hx, he, hpre, hpost⟩ | ⟨pre, post, hx, hpre, hpost⟩
  · rw [addEvents_found FD_SETSIZE s pre post e socket command events hx he hpre hpost]
    have hs1 : updateFdSet FD_SETSIZE s =
        updateFdSet FD_SETSIZE { s with socketEntries := pre ++ e :: post } :=
      updateFdSet_congr _ _ _ hx rfl
    rw [hs1, updateFdSet_skip FD_SETSIZE s pre post e (by rw [he]; exact hout),
      updateFdSet_skip FD_SETSIZE s pre post ⟨socket, _⟩ hout]
    exact ⟨rfl, rfl, rfl⟩
  · rw [addEvents_absent FD_SETSIZE s pre post socket command events hx hpre hpost]
    have hs1 : updateFdSet FD_SETSIZE s =
        updateFdSet FD_SETSIZE { s with socketEntries := pre ++ post } :=
      updateFdSet_congr _ _ _ hx rfl
    rw [hs1, updateFdSet_skip FD_SETSIZE s pre post ⟨socket, _⟩ hout]
    exact ⟨rfl, rfl, rfl⟩

/-- C7: in a reachable state, after `addEvents` for a socket at or above
`FD_SETSIZE` the socket has a registration and a following `deleteEvents`
with the same arguments returns true, but the socket is in neither `_rfdset`
nor `_wfdset`, `_fdmax` is not raised, and both sets and `_fdmax` are what
`updateFdSet` computes without that call. -/
theorem C7_socket_beyond_capacity (FD_SETSIZE : Int) (s : SelectEventPoll)
    (h : Reachable FD_SETSIZE s) (socket : Int) (hcap : FD_SETSIZE ≤ socket)
    (command events : Nat) :
    (∃ e ∈ (addEvents FD_SETSIZE s socket command events).2.socketEntries,
      e.socket = socket) ∧
    (deleteEvents FD_SETSIZE (addEvents FD_SETSIZE s socket command events).2 socket command
      events).1 = true ∧
    socket ∉ (addEvents FD_SETSIZE s socket command events).2.rfdset ∧
    socket ∉ (addEvents FD_SETSIZE s socket command events).2.wfdset ∧
    (addEvents FD_SETSIZE s socket command events).2.fdmax ≤ s.fdmax ∧
    (addEvents FD_SETSIZE s socket command events).2.rfdset = s.rfdset ∧
    (addEvents FD_SETSIZE s socket command events).2.wfdset = s.wfdset ∧
    (addEvents FD_SETSIZE s socket command events).2.fdmax =
      (updateFdSet FD_SETSIZE s).fdmax := by
  have hinv := Reachable.inv FD_SETSIZE s h
  have hinv1 := Reachable.inv FD_SETSIZE _ (Reachable.addEvents s socket command events h)
  have hsk := addEvents_skipped FD_SETSIZE s hinv.sorted socket command events (Or.inr hcap)
  have hex : ∃ e ∈ (addEvents FD_SETSIZE s socket command events).2.socketEntries,
      e.socket = socket := by
    have hst := storedEvents_addEvents FD_SETSIZE s hinv.sorted socket command events socket
      command
    simp only [and_self, if_true] at hst
    obtain ⟨e, he, hs, _⟩ := storedEvents_mem _ _ _ _ hst
    exact ⟨e, he, hs⟩
  refine ⟨hex, ?_, ?_, ?_, ?_, ?_, ?_, hsk.2.2⟩
  · exact (deleteEvents_fst_iff FD_SETSIZE _ hinv1.sorted socket command events).mpr hex
  · rw [hsk.1, mem_updateFdSet_rfdset]
    rintro ⟨e, _, _, hr, _⟩
    exact hr (Or.inr hcap)
  · rw [hsk.2.1, mem_updateFdSet_wfdset]
    rintro ⟨e, _, _, hr, _⟩
    exact hr (Or.inr hcap)
  · rw [hsk.2.2]
    exact hinv.fdmax
  · rw [hsk.1]
    exact hinv.rfdset
  · rw [hsk.2.1]
    exact hinv.wfdset

/-- C7 at a concrete state: socket 2000 added for READ next to socket 5, with
`FD_SETSIZE` 1024. -/
theorem C7_witness :
    Reachable 1024 (addEvents 1024 (SelectEventPoll.new 1024) 5 1 EVENT_READ).2 ∧
    (1024 : Int) ≤ 2000 ∧
    (2000 : Int) ∉ (addEvents 1024 (addEvents 1024 (SelectEventPoll.new 1024) 5 1
      EVENT_READ).2 2000 2 EVENT_READ).2.rfdset :=
  ⟨Reachable.addEvents _ _ _ _ Reachable.new, by decide,
    (C7_socket_beyond_capacity 1024 (addEvents 1024 (SelectEventPoll.new 1024) 5 1
      EVENT_READ).2 (Reachable.addEvents _ _ _ _ Reachable.new) 2000 (by decide) 2
      EVENT_READ).2.2.1⟩

/-! ## Lemmas: the resolver watches -/

theorem resolverEntry_beq (x y : AsyncNameResolverEntry) : (x == y) = decide (x = y) := by
  obtain ⟨a, b⟩ := x
  obtain ⟨c, d⟩ := y
  simp only [BEq.beq, AsyncNameResolverEntry.mk.injEq]
  by_cases h1 : a = c <;> by_cases h2 : b = d <;> simp [h1, h2]

theorem findIdx_resolver_eq_length (l : List AsyncNameResolverEntry)
    (entry : AsyncNameResolverEntry) :
    l.findIdx (fun x => x == entry) = l.length ↔ entry ∉ l := by
  rw [List.findIdx_eq_length]
  simp only [resolverEntry_beq, decide_eq_false_iff_not]
  constructor
  · intro h hm
    exact h entry hm rfl
  · intro h x hx hxe
    exact h (hxe ▸ hx)

theorem eraseIdx_findIdx_resolver (l : List AsyncNameResolverEntry)
    (entry : AsyncNameResolverEntry) (hn : l.Nodup) :
    l.eraseIdx (l.findIdx (fun x => x == entry)) = l.filter (fun x => decide (x ≠ entry)) := by
  simp only [ne_eq, decide_not, resolverEntry_beq]
  induction l with
  | nil => rfl
  | cons x rest ih =>
    have hn2 := List.nodup_cons.mp hn
    by_cases hx : x = entry
    · subst hx
      have hf : rest.filter (fun y => !decide (y = x)) = rest := by
        rw [List.filter_eq_self]
        intro y hy
        simp only [Bool.not_eq_true', decide_eq_false_iff_not]
        intro hyx
        exact hn2.1 (hyx ▸ hy)
      simp only [List.findIdx_cons, decide_True, cond_true, List.eraseIdx_cons_zero,
        List.filter_cons, Bool.not_true, Bool.false_eq_true, if_false, hf]
    · simp only [List.findIdx_cons, hx, decide_False, cond_false,
        List.eraseIdx_cons_succ, ih hn2.2, List.filter_cons, Bool.not_false, if_true]

theorem addEvents_nameResolverEntries (FD_SETSIZE : Int) (s : SelectEventPoll) (socket : Int)
    (command events : Nat) :
    (addEvents FD_SETSIZE s socket command events).2.nameResolverEntries =
      s.nameResolverEntries := by
  simp only [addEvents]
  rw [if_neg (by decide)]
  exact updateFdSet_nameResolverEntries _ _

theorem deleteEvents_nameResolverEntries (FD_SETSIZE : Int) (s : SelectEventPoll)
    (socket : Int) (command events : Nat) :
    (deleteEvents FD_SETSIZE s socket command events).2.nameResolverEntries =
      s.nameResolverEntries := by
  simp only [deleteEvents]
  split
  · split
    · rw [if_neg (by decide)]
      exact updateFdSet_nameResolverEntries _ _
    · rfl
  · rfl

/-- No resolver watch is held twice in a reachable state. -/
theorem Reachable.resolvers_nodup (FD_SETSIZE : Int) (s : SelectEventPoll)
    (h : Reachable FD_SETSIZE s) : s.nameResolverEntries.Nodup := by
  induction h with
  | new =>
    have : (SelectEventPoll.new FD_SETSIZE).nameResolverEntries = [] :=
      updateFdSet_nameResolverEntries _ _
    rw [this]
    exact List.nodup_nil
  | addEvents s socket command events _ ih =>
    rw [addEvents_nameResolverEntries]
    exact ih
  | deleteEvents s socket command events _ ih =>
    rw [deleteEvents_nameResolverEntries]
    exact ih
  | addNameResolver s resolver command _ ih =>
    unfold aria2.addNameResolver
    simp only
    split_ifs with hc
    · rw [findIdx_resolver_eq_length] at hc
      exact List.Nodup.append ih (List.nodup_singleton _) (by simpa using hc)
    · exact ih
  | deleteNameResolver s resolver command _ ih =>
    unfold aria2.deleteNameResolver
    simp only
    split_ifs with hc
    · exact ih
    · exact List.Nodup.sublist (List.eraseIdx_sublist _ _) ih
  | poll env fuel w s out _ hp ih =>
    rw [(poll_state FD_SETSIZE env fuel w s out hp).2.1]
    exact ih

/-- C11: `addNameResolver` returns true exactly when no watch for the same
resolver and command is present; when it returns false the state is unchanged,
and when it returns true the watch is appended once after the existing
watches, which are all kept in place. -/
theorem C11_addNameResolver (s : SelectEventPoll) (resolver command : Nat) :
    ((addNameResolver s resolver command).1 = true ↔
      (⟨resolver, command⟩ : AsyncNameResolverEntry) ∉ s.nameResolverEntries) ∧
    ((addNameResolver s resolver command).1 = false →
      (addNameResolver s resolver command).2 = s) ∧
    ((addNameResolver s resolver command).1 = true →
      (addNameResolver s resolver command).2 =
        { s with nameResolverEntries := s.nameResolverEntries ++ [⟨resolver, command⟩] } ∧
      (addNameResolver s resolver command).2.nameResolverEntries.count ⟨resolver, command⟩ =
        1) := by
  have key := findIdx_resolver_eq_length s.nameResolverEntries ⟨resolver, command⟩
  unfold addNameResolver
  simp only
  by_cases hc : (⟨resolver, command⟩ : AsyncNameResolverEntry) ∈ s.nameResolverEntries
  · have hne : ¬ (s.nameResolverEntries.findIdx (fun x => x == ⟨resolver, command⟩) =
        s.nameResolverEntries.length) := fun h => key.mp h hc
    simp only [hne, if_false, Bool.false_eq_true, false_iff, not_not, hc, true_and,
      false_implies, and_true, implies_true]
  · have he := key.mpr hc
    simp only [he, if_true, true_iff, hc, not_false_eq_true, true_and, Bool.true_eq_false,
      false_implies, true_implies]
    rw [List.count_append, List.count_eq_zero_of_not_mem hc]
    simp

/-- C11 at a concrete state: the watch (resolver 1, command 3) is added twice;
the second call returns false and leaves the state unchanged. -/
theorem C11_witness :
    (addNameResolver (addNameResolver (SelectEventPoll.new 1024) 1 3).2 1 3).2 =
      (addNameResolver (SelectEventPoll.new 1024) 1 3).2 :=
  (C11_addNameResolver (addNameResolver (SelectEventPoll.new 1024) 1 3).2 1 3).2.1
    (by decide)

/-- C12: in a reachable state `deleteNameResolver` returns false and leaves the
state unchanged when no watch for the resolver and command is present;
otherwise it returns true and the watches afterwards are the earlier ones
without that watch, in the same order, so that no watch for the pair
remains. -/
theorem C12_deleteNameResolver (FD_SETSIZE : Int) (s : SelectEventPoll)
    (h : Reachable FD_SETSIZE s) (resolver command : Nat) :
    ((⟨resolver, command⟩ : AsyncNameResolverEntry) ∉ s.nameResolverEntries →
      deleteNameResolver s resolver command = (false, s)) ∧
    ((⟨resolver, command⟩ : AsyncNameResolverEntry) ∈ s.nameResolverEntries →
      (deleteNameResolver s resolver command).1 = true ∧
      (deleteNameResolver s resolver command).2 =
        { s with nameResolverEntries :=
          s.nameResolverEntries.filter (fun x => decide (x ≠ ⟨resolver, command⟩)) } ∧
      (⟨resolver, command⟩ : AsyncNameResolverEntry) ∉
        (deleteNameResolver s resolver command).2.nameResolverEntries) := by
  have hn := Reachable.resolvers_nodup FD_SETSIZE s h
  have key := findIdx_resolver_eq_length s.nameResolverEntries ⟨resolver, command⟩
  have her := eraseIdx_findIdx_resolver s.nameResolverEntries ⟨resolver, command⟩ hn
  unfold deleteNameResolver
  simp only
  constructor
  · intro hc
    rw [if_pos (key.mpr hc)]
  · intro hc
    have hne : ¬ (s.nameResolverEntries.findIdx (fun x => x == ⟨resolver, command⟩) =
        s.nameResolverEntries.length) := fun h => key.mp h hc
    rw [if_neg hne]
    refine ⟨rfl, ?_, ?_⟩
    · simp only [her]
    · simp only [her]
      simp

/-- C12 at a concrete state: the only watch (resolver 1, command 3) is
deleted. -/
theorem C12_witness :
    Reachable 1024 (addNameResolver (SelectEventPoll.new 1024) 1 3).2 ∧
    (deleteNameResolver (addNameResolver (SelectEventPoll.new 1024) 1 3).2 1 3).1 = true :=
  ⟨Reachable.addNameResolver _ _ _ Reachable.new,
    ((C12_deleteNameResolver 1024 (addNameResolver (SelectEventPoll.new 1024) 1 3).2
      (Reachable.addNameResolver _ _ _ Reachable.new) 1 3).2 (by decide)).1⟩

/-! ## Lemmas: the shape of the calls of a wait cycle -/

theorem processEvents_eq (ce : CommandEvent) (d : Nat) :
    ce.processEvents d =
      (if ce.events &&& d ≠ 0 ∨ (EVENT_ERROR ||| EVENT_HUP) &&& d ≠ 0 then
        [Call.setStatusActive ce.command] else []) ++ directionalCalls ce.command d := by
  unfold CommandEvent.processEvents directionalCalls
  simp only [Nat.and_comm d, List.append_assoc]

theorem mem_directionalCalls (c d : Nat) (call : Call) (h : call ∈ directionalCalls c d) :
    (call = Call.readEventReceived c ∧ d &&& EVENT_READ ≠ 0) ∨
    (call = Call.writeEventReceived c ∧ d &&& EVENT_WRITE ≠ 0) ∨
    (call = Call.errorEventReceived c ∧ d &&& EVENT_ERROR ≠ 0) ∨
    (call = Call.hupEventReceived c ∧ d &&& EVENT_HUP ≠ 0) := by
  unfold directionalCalls at h
  simp only [List.mem_append] at h
  rcases h with ((h | h) | h) | h <;> split_ifs at h with hc <;>
    simp only [List.mem_singleton, List.not_mem_nil] at h
  · exact Or.inl ⟨h, hc⟩
  · exact Or.inr (Or.inl ⟨h, hc⟩)
  · exact Or.inr (Or.inr (Or.inl ⟨h, hc⟩))
  · exact Or.inr (Or.inr (Or.inr ⟨h, hc⟩))

theorem directionalCalls_filter (c d : Nat) :
    (directionalCalls c d).filter Call.isDirectional = directionalCalls c d := by
  rw [List.filter_eq_self]
  intro call h
  rcases mem_directionalCalls c d call h with h | h | h | h <;> rw [h.1] <;> rfl

theorem directionalCalls_not_process (c d : Nat) :
    (directionalCalls c d).filter Call.isProcess = [] := by
  rw [List.filter_eq_nil_iff]
  intro call h
  rcases mem_directionalCalls c d call h with h | h | h | h <;> rw [h.1] <;> simp [Call.isProcess]

theorem processEvents_filter_process (ce : CommandEvent) (d : Nat) :
    (ce.processEvents d).filter Call.isProcess = [] := by
  rw [processEvents_eq, List.filter_append, directionalCalls_not_process]
  split_ifs <;> simp [Call.isProcess]

theorem pollSocketEntry_eq (FD_SETSIZE : Int) (routside woutside : Int → Bool)
    (rfds wfds : Finset Int) (e : SocketEntry) :
    pollSocketEntry FD_SETSIZE routside woutside rfds wfds e =
      e.processEvents (deliveredEvents FD_SETSIZE routside woutside rfds wfds e) := by
  unfold pollSocketEntry deliveredEvents
  simp only
  split_ifs <;> simp

theorem socketPassCalls_filter_process (FD_SETSIZE : Int) (routside woutside : Int → Bool)
    (s : SelectEventPoll) (res : SelectResult) :
    (socketPassCalls FD_SETSIZE routside woutside s res).filter Call.isProcess = [] := by
  rw [List.filter_eq_nil_iff]
  intro call h
  unfold socketPassCalls at h
  split_ifs at h
  · simp only [List.mem_flatMap] at h
    obtain ⟨e, _, he⟩ := h
    rw [pollSocketEntry_eq] at he
    unfold SocketEntry.processEvents at he
    simp only [List.mem_flatMap] at he
    obtain ⟨ce, _, hce⟩ := he
    have := processEvents_filter_process ce
      (deliveredEvents FD_SETSIZE routside woutside res.rfds res.wfds e)
    rw [List.filter_eq_nil_iff] at this
    exact this call hce
  · simp at h

theorem foldl_getFdsStep_calls {W : Type} (env : Env W) (l : List AsyncNameResolverEntry) :
    ∀ c : Cycle W, (l.foldl (getFdsStep env) c).calls =
      c.calls ++ l.map (fun e => Call.getFds e.nameResolver) := by
  induction l with
  | nil => intro c; simp
  | cons a rest ih =>
    intro c
    simp only [List.foldl_cons, ih, getFdsStep, List.map_cons, List.append_assoc,
      List.singleton_append]

theorem foldl_processStep_calls_eq {W : Type} (env : Env W)
    (l : List AsyncNameResolverEntry) :
    ∀ c : Cycle W, (l.foldl (processStep env) c).calls =
      c.calls ++ advanceCalls env l (c.world, c.rfds, c.wfds) := by
  induction l with
  | nil => intro c; simp [advanceCalls]
  | cons a rest ih =>
    intro c
    simp only [List.foldl_cons, ih, advanceCalls, List.append_assoc]
    simp only [processStep, List.append_assoc, List.append_cancel_left_eq]
    cases env.getStatus (env.process c.world a.nameResolver c.rfds c.wfds).1 a.nameResolver <;>
      simp [Status.terminal]

theorem advanceCalls_filter_process {W : Type} (env : Env W)
    (l : List AsyncNameResolverEntry) :
    ∀ st : W × Finset Int × Finset Int,
      (advanceCalls env l st).filter Call.isProcess =
        l.map (fun e => Call.process e.nameResolver) := by
  induction l with
  | nil => intro st; rfl
  | cons a rest ih =>
    intro st
    simp only [advanceCalls, List.filter_append, ih, List.map_cons]
    split_ifs <;> simp [Call.isProcess]

theorem advanceCalls_append {W : Type} (env : Env W) (l1 l2 : List AsyncNameResolverEntry) :
    ∀ st : W × Finset Int × Finset Int,
      advanceCalls env (l1 ++ l2) st =
        advanceCalls env l1 st ++ advanceCalls env l2 (advanceWorld env l1 st) := by
  induction l1 with
  | nil => intro st; rfl
  | cons a rest ih =>
    intro st
    have ih2 := ih (env.process st.1 a.nameResolver st.2.1 st.2.2)
    simp only [List.cons_append, advanceCalls, advanceWorld, List.append_assoc,
      List.append_eq]
    rw [ih2]

/-- The calls of a completed wait cycle: the `getFds` of every watch, the
socket dispatch pass, and the resolver pass. -/
theorem poll_calls_eq {W : Type} (FD_SETSIZE : Int) (env : Env W) (fuel : Nat) (w : W)
    (s : SelectEventPoll) (w2 : W) (res : SelectResult)
    (hsel : pollSelect env fuel w s = some (w2, res)) :
    ∃ out, poll FD_SETSIZE env fuel w s = some out ∧
      out.2.2 = s.nameResolverEntries.map (fun e => Call.getFds e.nameResolver) ++
        socketPassCalls FD_SETSIZE (env.readOutside w2) (env.writeOutside w2) s res ++
        advanceCalls env s.nameResolverEntries (w2, res.rfds, res.wfds) := by
  unfold pollSelect at hsel
  simp only at hsel
  unfold poll
  simp only [hsel]
  refine ⟨_, rfl, ?_⟩
  simp only [foldl_processStep_calls_eq, foldl_getFdsStep_calls, socketPassCalls, gt_iff_lt,
    List.nil_append]
  split_ifs <;> simp

theorem advanceWorld_append {W : Type} (env : Env W) (l1 l2 : List AsyncNameResolverEntry) :
    ∀ st : W × Finset Int × Finset Int,
      advanceWorld env (l1 ++ l2) st = advanceWorld env l2 (advanceWorld env l1 st) := by
  induction l1 with
  | nil => intro st; rfl
  | cons a rest ih =>
    intro st
    simp only [List.cons_append, advanceWorld, List.append_eq]
    exact ih _

theorem terminal_iff (st : Status) :
    st.terminal = true ↔ (st = Status.STATUS_SUCCESS ∨ st = Status.STATUS_ERROR) := by
  cases st <;> simp [Status.terminal]

/-- C14: `CommandEvent::processEvents` makes, after the possible
`setStatusActive`, exactly the directional callbacks whose bits are in the
delivered mask, each at most once, in the order READ, WRITE, ERROR, HUP,
whatever the stored mask is; `SocketEntry::processEvents` does this for every
command event of the registration, front to back. -/
theorem C14_directional_callbacks (ce : CommandEvent) (e : SocketEntry) (d : Nat) :
    ce.processEvents d =
      (if ce.events &&& d ≠ 0 ∨ (EVENT_ERROR ||| EVENT_HUP) &&& d ≠ 0 then
        [Call.setStatusActive ce.command] else []) ++ directionalCalls ce.command d ∧
    (ce.processEvents d).filter Call.isDirectional = directionalCalls ce.command d ∧
    (∀ stored : Nat, ((⟨ce.command, stored⟩ : CommandEvent).processEvents d).filter
      Call.isDirectional = (ce.processEvents d).filter Call.isDirectional) ∧
    (directionalCalls ce.command d).Nodup ∧
    (Call.readEventReceived ce.command ∈ ce.processEvents d ↔ d &&& EVENT_READ ≠ 0) ∧
    (Call.writeEventReceived ce.command ∈ ce.processEvents d ↔ d &&& EVENT_WRITE ≠ 0) ∧
    (Call.errorEventReceived ce.command ∈ ce.processEvents d ↔ d &&& EVENT_ERROR ≠ 0) ∧
    (Call.hupEventReceived ce.command ∈ ce.processEvents d ↔ d &&& EVENT_HUP ≠ 0) ∧
    e.processEvents d = e.commandEvents.flatMap (fun x => x.processEvents d) ∧
    (e.processEvents d).filter Call.isDirectional =
      e.commandEvents.flatMap (fun x => directionalCalls x.command d) := by
  have hfilter : ∀ x : CommandEvent,
      (x.processEvents d).filter Call.isDirectional = directionalCalls x.command d := by
    intro x
    rw [processEvents_eq, List.filter_append, directionalCalls_filter]
    split_ifs <;> simp [Call.isDirectional]
  have hmem : ∀ call, call ≠ Call.setStatusActive ce.command →
      (call ∈ ce.processEvents d ↔ call ∈ directionalCalls ce.command d) := by
    intro call hne
    rw [processEvents_eq, List.mem_append]
    constructor
    · rintro (h | h)
      · split_ifs at h
        · simp only [List.mem_singleton] at h
          exact absurd h hne
        · simp at h
      · exact h
    · exact Or.inr
  refine ⟨processEvents_eq ce d, hfilter ce, ?_, ?_, ?_, ?_, ?_, ?_, rfl, ?_⟩
  · intro stored
    rw [hfilter, hfilter]
  · unfold directionalCalls
    split_ifs <;> simp
  · rw [hmem _ (by simp)]
    unfold directionalCalls
    split_ifs <;> simp_all
  · rw [hmem _ (by simp)]
    unfold directionalCalls
    split_ifs <;> simp_all
  · rw [hmem _ (by simp)]
    unfold directionalCalls
    split_ifs <;> simp_all
  · rw [hmem _ (by simp)]
    unfold directionalCalls
    split_ifs <;> simp_all
  · unfold SocketEntry.processEvents
    induction e.commandEvents with
    | nil => rfl
    | cons x rest ih =>
      simp only [List.flatMap_cons, List.filter_append, hfilter, ih]

/-! ## Lemmas: the ceiling computed by `updateFdSet` -/

theorem updateFdSetStep_fdmax (FD_SETSIZE : Int) (s : SelectEventPoll) (e : SocketEntry) :
    (updateFdSetStep FD_SETSIZE s e).fdmax =
      if ¬ (e.socket < 0 ∨ FD_SETSIZE ≤ e.socket) ∧ s.fdmax < e.socket then e.socket
      else s.fdmax := by
  unfold updateFdSetStep
  simp only
  split_ifs <;> simp_all

theorem foldl_updateFdSetStep_fdmax (FD_SETSIZE : Int) (l : List SocketEntry) :
    ∀ acc : SelectEventPoll,
      acc.fdmax ≤ (l.foldl (updateFdSetStep FD_SETSIZE) acc).fdmax ∧
      (∀ e ∈ l, 0 ≤ e.socket → e.socket < FD_SETSIZE →
        e.socket ≤ (l.foldl (updateFdSetStep FD_SETSIZE) acc).fdmax) ∧
      ((l.foldl (updateFdSetStep FD_SETSIZE) acc).fdmax = acc.fdmax ∨
        ∃ e ∈ l, 0 ≤ e.socket ∧ e.socket < FD_SETSIZE ∧
          e.socket = (l.foldl (updateFdSetStep FD_SETSIZE) acc).fdmax) := by
  induction l with
  | nil => intro acc; simp
  | cons a rest ih =>
    intro acc
    obtain ⟨h1, h2, h3⟩ := ih (updateFdSetStep FD_SETSIZE acc a)
    have hstep := updateFdSetStep_fdmax FD_SETSIZE acc a
    simp only [List.foldl_cons]
    refine ⟨?_, ?_, ?_⟩
    · split_ifs at hstep <;> omega
    · intro e he hlo hhi
      rcases List.mem_cons.mp he with rfl | he
      · split_ifs at hstep <;> omega
      · exact h2 e he hlo hhi
    · rcases h3 with h3 | ⟨e, he, h3⟩
      · split_ifs at hstep with hc
        · right
          exact ⟨a, List.mem_cons_self _ _, by omega, by omega, by omega⟩
        · left
          omega
      · right
        exact ⟨e, List.mem_cons_of_mem _ he, h3⟩

theorem foldl_accumulateEvent_testBit (xs : List CommandEvent) (i : Nat) :
    ∀ a : Nat, (xs.foldl accumulateEvent a).testBit i =
      (a.testBit i || xs.any (fun ce => ce.events.testBit i)) := by
  induction xs with
  | nil => intro a; simp
  | cons x rest ih =>
    intro a
    simp only [List.foldl_cons, ih, accumulateEvent, CommandEvent.getEvents, Nat.testBit_or,
      List.any_cons, Bool.or_assoc]

/-- C15: the sets and the ceiling computed by `updateFdSet` depend on the
registration sequence only.  The read set holds exactly the sockets of the
registrations with `0 ≤ socket < FD_SETSIZE` whose accumulated events contain
READ, the write set those whose accumulated events contain WRITE, and
`_fdmax` is the greatest of 0 and the sockets of the registrations in that
range; the accumulated events of a registration are the bitwise or of the
masks of its command events. -/
theorem C15_updateFdSet (FD_SETSIZE : Int) (s t : SelectEventPoll) (x : Int) :
    (x ∈ (updateFdSet FD_SETSIZE s).rfdset ↔
      ∃ e ∈ s.socketEntries, e.socket = x ∧ 0 ≤ x ∧ x < FD_SETSIZE ∧
        e.getEvents &&& EVENT_READ ≠ 0) ∧
    (x ∈ (updateFdSet FD_SETSIZE s).wfdset ↔
      ∃ e ∈ s.socketEntries, e.socket = x ∧ 0 ≤ x ∧ x < FD_SETSIZE ∧
        e.getEvents &&& EVENT_WRITE ≠ 0) ∧
    0 ≤ (updateFdSet FD_SETSIZE s).fdmax ∧
    (∀ e ∈ s.socketEntries, 0 ≤ e.socket → e.socket < FD_SETSIZE →
      e.socket ≤ (updateFdSet FD_SETSIZE s).fdmax) ∧
    ((updateFdSet FD_SETSIZE s).fdmax = 0 ∨
      ∃ e ∈ s.socketEntries, 0 ≤ e.socket ∧ e.socket < FD_SETSIZE ∧
        e.socket = (updateFdSet FD_SETSIZE s).fdmax) ∧
    (∀ e : SocketEntry, ∀ i : Nat,
      e.getEvents.testBit i = e.commandEvents.any (fun ce => ce.events.testBit i)) ∧
    (t.socketEntries = s.socketEntries →
      (updateFdSet FD_SETSIZE t).rfdset = (updateFdSet FD_SETSIZE s).rfdset ∧
      (updateFdSet FD_SETSIZE t).wfdset = (updateFdSet FD_SETSIZE s).wfdset ∧
      (updateFdSet FD_SETSIZE t).fdmax = (updateFdSet FD_SETSIZE s).fdmax) := by
  have hf := foldl_updateFdSetStep_fdmax FD_SETSIZE s.socketEntries
    { s with fdmax := 0, rfdset := ∅, wfdset := ∅ }
  have hrange : ∀ y : Int, ¬ (y < 0 ∨ FD_SETSIZE ≤ y) ↔ (0 ≤ y ∧ y < FD_SETSIZE) := by
    intro y
    constructor
    · intro h
      constructor <;> omega
    · rintro ⟨h1, h2⟩
      omega
  refine ⟨?_, ?_, hf.1, hf.2.1, hf.2.2, ?_, ?_⟩
  · rw [mem_updateFdSet_rfdset]
    simp only [hrange, and_assoc]
  · rw [mem_updateFdSet_wfdset]
    simp only [hrange, and_assoc]
  · intro e i
    unfold SocketEntry.getEvents
    rw [foldl_accumulateEvent_testBit]
    simp
  · intro h
    rw [updateFdSet_relabel FD_SETSIZE t s h]
    exact ⟨rfl, rfl, rfl⟩

/-- C15 at concrete states: two states with the registrations of socket 5
(READ) and socket 2000 (READ), one of them holding a resolver watch as well;
the computed read sets agree. -/
theorem C15_witness :
    (updateFdSet 1024 (addNameResolver (addEvents 1024
      (addEvents 1024 (SelectEventPoll.new 1024) 5 1 EVENT_READ).2 2000 2 EVENT_READ).2
      1 3).2).rfdset =
    (updateFdSet 1024 (addEvents 1024
      (addEvents 1024 (SelectEventPoll.new 1024) 5 1 EVENT_READ).2 2000 2
      EVENT_READ).2).rfdset :=
  ((C15_updateFdSet 1024 (addEvents 1024
      (addEvents 1024 (SelectEventPoll.new 1024) 5 1 EVENT_READ).2 2000 2 EVENT_READ).2
    (addNameResolver (addEvents 1024
      (addEvents 1024 (SelectEventPoll.new 1024) 5 1 EVENT_READ).2 2000 2 EVENT_READ).2
      1 3).2 5).2.2.2.2.2.2 (by decide)).1

/-- C16, as stated, fails: on a new reactor with one resolver watch, a wait
cycle in which the resolver contributes descriptor 7 leaves `_fdmax` at 7,
whereas `updateFdSet` computes 0 from the (empty) registration sequence. -/
theorem C16_counterexample :
    ∃ out, poll 1024 (resolverEnv 7 Status.STATUS_PENDING 0) 1 false
        (addNameResolver (SelectEventPoll.new 1024) 1 3).2 = some out ∧
      Reachable 1024 out.1 ∧ out.1.fdmax = 7 ∧ (updateFdSet 1024 out.1).fdmax = 0 :=
  ⟨_, rfl, Reachable.poll (resolverEnv 7 Status.STATUS_PENDING 0) 1 false
      (addNameResolver (SelectEventPoll.new 1024) 1 3).2 _
      (Reachable.addNameResolver _ _ _ Reachable.new) rfl, by decide, by decide⟩

/-- C16, amended: in every reachable state `_rfdset` and `_wfdset` are exactly
what `updateFdSet` computes from the registration sequence and `_fdmax` is at
least the computed ceiling; right after the constructor, after every
`addEvents` and after every `deleteEvents` that returns true, the whole state
is what `updateFdSet` yields, so `_fdmax` is then exactly the computed
ceiling. -/
theorem C16_derived_state (FD_SETSIZE : Int) (s : SelectEventPoll)
    (h : Reachable FD_SETSIZE s) :
    (updateFdSet FD_SETSIZE s).rfdset = s.rfdset ∧
    (updateFdSet FD_SETSIZE s).wfdset = s.wfdset ∧
    (updateFdSet FD_SETSIZE s).fdmax ≤ s.fdmax ∧
    updateFdSet FD_SETSIZE (SelectEventPoll.new FD_SETSIZE) = SelectEventPoll.new FD_SETSIZE ∧
    (∀ socket command events,
      updateFdSet FD_SETSIZE (addEvents FD_SETSIZE s socket command events).2 =
        (addEvents FD_SETSIZE s socket command events).2) ∧
    (∀ socket command events,
      (deleteEvents FD_SETSIZE s socket command events).1 = true →
      updateFdSet FD_SETSIZE (deleteEvents FD_SETSIZE s socket command events).2 =
        (deleteEvents FD_SETSIZE s socket command events).2) := by
  have hinv := Reachable.inv FD_SETSIZE s h
  refine ⟨hinv.rfdset, hinv.wfdset, hinv.fdmax, updateFdSet_idem _ _, ?_, ?_⟩
  · intro socket command events
    simp only [addEvents]
    rw [if_neg (by decide)]
    exact updateFdSet_idem _ _
  · intro socket command events
    simp only [deleteEvents]
    split
    · split
      · rw [if_neg (by decide)]
        intro _
        exact updateFdSet_idem _ _
      · intro hf
        simp at hf
    · intro hf
      simp at hf

/-- C16, amended, at a concrete state: a new reactor. -/
theorem C16_witness :
    Reachable 1024 (SelectEventPoll.new 1024) ∧
    (updateFdSet 1024 (SelectEventPoll.new 1024)).rfdset = (SelectEventPoll.new 1024).rfdset :=
  ⟨Reachable.new, (C16_derived_state 1024 (SelectEventPoll.new 1024) Reachable.new).1⟩

/-! ## Lemmas: states reachable by registrations only -/

theorem ReachableByEvents.reachable (FD_SETSIZE : Int) (allowed : Nat → Prop)
    (s : SelectEventPoll) (h : ReachableByEvents FD_SETSIZE allowed s) :
    Reachable FD_SETSIZE s := by
  induction h with
  | new => exact Reachable.new
  | addEvents s socket command events _ _ ih => exact Reachable.addEvents _ _ _ _ ih
  | deleteEvents s socket command events _ ih => exact Reachable.deleteEvents _ _ _ _ ih

theorem getElem?_lower_bound_iff (xs : List SocketEntry) (hs : SortedEntries xs)
    (socket : Int) :
    (∃ e, xs[lower_bound xs socket]? = some e ∧ e.socket = socket) ↔
      ∃ e ∈ xs, e.socket = socket := by
  rcases sorted_cases xs hs socket with
    ⟨pre, e, post, hx, he, hpre, hpost⟩ | ⟨pre, post, hx, hpre, hpost⟩
  · have hlb : lower_bound (pre ++ e :: post) socket = pre.length := by
      apply lower_bound_split _ _ _ hpre
      intro x hx
      rcases List.mem_cons.mp hx with rfl | hx
      · omega
      · have := hpost x hx
        omega
    rw [hx, hlb, getElem?_length_append]
    constructor
    · intro _
      exact ⟨e, by simp, he⟩
    · intro _
      exact ⟨e, by simp, he⟩
  · have hlb : lower_bound (pre ++ post) socket = pre.length := by
      apply lower_bound_split _ _ _ hpre
      intro x hx
      have := hpost x hx
      omega
    rw [hx, hlb, getElem?_length_append]
    constructor
    · rintro ⟨e, he, hes⟩
      exfalso
      have hmem : e ∈ post := List.mem_of_mem_head? he
      have := hpost e hmem
      omega
    · rintro ⟨e, he, hes⟩
      exact absurd hes (mem_split_absent pre post socket hpre hpost e he)

theorem sorted_sockets_nodup (xs : List SocketEntry) (hs : SortedEntries xs) :
    (xs.map (fun e => e.socket)).Nodup := by
  unfold SortedEntries at hs
  unfold List.Nodup
  rw [List.pairwise_map]
  exact List.Pairwise.imp (fun h => by omega) hs

theorem addCE_events_ne_zero (xs : List CommandEvent) (command events : Nat)
    (hm : events ≠ 0) (h : ∀ ce ∈ xs, ce.events ≠ 0) :
    ∀ ce ∈ addCE xs command events, ce.events ≠ 0 := by
  induction xs with
  | nil =>
    intro ce hce
    simp only [addCE, List.mem_singleton] at hce
    rw [hce]
    exact hm
  | cons x rest ih =>
    intro ce hce
    simp only [addCE] at hce
    split_ifs at hce
    · rcases List.mem_cons.mp hce with rfl | hce
      · simp only [CommandEvent.addEvents, ne_eq, lor_eq_zero, not_and]
        intro _
        exact hm
      · exact h ce (List.mem_cons_of_mem _ hce)
    · rcases List.mem_cons.mp hce with rfl | hce
      · exact h _ (List.mem_cons_self _ _)
      · exact ih (fun y hy => h y (List.mem_cons_of_mem _ hy)) ce hce

theorem removeCE_events_ne_zero (xs : List CommandEvent) (command events : Nat)
    (h : ∀ ce ∈ xs, ce.events ≠ 0) :
    ∀ ce ∈ removeCE xs command events, ce.events ≠ 0 := by
  induction xs with
  | nil =>
    intro ce hce
    simp [removeCE] at hce
  | cons x rest ih =>
    intro ce hce
    simp only [removeCE] at hce
    split_ifs at hce with h1 h2
    · exact h ce (List.mem_cons_of_mem _ hce)
    · rcases List.mem_cons.mp hce with rfl | hce
      · simpa [CommandEvent.eventsEmpty] using h2
      · exact h ce (List.mem_cons_of_mem _ hce)
    · rcases List.mem_cons.mp hce with rfl | hce
      · exact h _ (List.mem_cons_self _ _)
      · exact ih (fun y hy => h y (List.mem_cons_of_mem _ hy)) ce hce

theorem storedEvents_none_no_commandEvent (s : SelectEventPoll)
    (hs : SortedEntries s.socketEntries) (socket : Int) (command : Nat)
    (h : storedEvents s socket command = none) :
    ∀ e ∈ s.socketEntries, e.socket = socket → ∀ ce ∈ e.commandEvents,
      ce.command ≠ command := by
  rcases sorted_cases s.socketEntries hs socket with
    ⟨pre, e0, post, hx, he, hpre, hpost⟩ | ⟨pre, post, hx, hpre, hpost⟩
  · have hf : findEntry s socket = some e0 := by
      unfold findEntry; rw [hx]; exact find_split_self pre post e0 socket hpre he
    rw [storedEvents_of_find _ _ _ _ hf] at h
    simp only [SocketEntry.storedEvents, Option.map_eq_none', List.find?_eq_none,
      decide_eq_true_eq] at h
    intro e hmem hes ce hce
    rw [hx] at hmem
    simp only [List.mem_append, List.mem_cons] at hmem
    rcases hmem with hm | rfl | hm
    · have := hpre e hm
      omega
    · exact h ce hce
    · have := hpost e hm
      omega
  · intro e hmem hes
    rw [hx] at hmem
    exact absurd hes (mem_split_absent pre post socket hpre hpost e hmem)

/-- C17: in every state reached from a new reactor by `addEvents` and
`deleteEvents` calls the registration sequence is strictly increasing by
socket, so no two registrations share a socket and the binary search of
`addEvents` and `deleteEvents` lands on a registration of the socket exactly
when one exists; and no registration has an empty collection of command
events. -/
theorem C17_sorted_registrations (FD_SETSIZE : Int) (s : SelectEventPoll)
    (h : ReachableByEvents FD_SETSIZE (fun _ => True) s) :
    SortedEntries s.socketEntries ∧
    s.socketEntries.Pairwise (fun a b => a.socket < b.socket) ∧
    (s.socketEntries.map (fun e => e.socket)).Nodup ∧
    (∀ socket : Int,
      (∃ e, s.socketEntries[lower_bound s.socketEntries socket]? = some e ∧
        e.socket = socket) ↔ ∃ e ∈ s.socketEntries, e.socket = socket) ∧
    (∀ e ∈ s.socketEntries, e.commandEvents ≠ []) := by
  have hinv := Reachable.inv FD_SETSIZE s (ReachableByEvents.reachable _ _ s h)
  exact ⟨hinv.sorted, hinv.sorted, sorted_sockets_nodup _ hinv.sorted,
    getElem?_lower_bound_iff _ hinv.sorted, hinv.nonempty⟩

/-- C17 at a concrete state: sockets 9 and 5 registered in that order. -/
theorem C17_witness :
    ReachableByEvents 1024 (fun _ => True)
      (addEvents 1024 (addEvents 1024 (SelectEventPoll.new 1024) 9 1 EVENT_READ).2 5 2
        EVENT_WRITE).2 ∧
    ((addEvents 1024 (addEvents 1024 (SelectEventPoll.new 1024) 9 1 EVENT_READ).2 5 2
        EVENT_WRITE).2.socketEntries.map (fun e => e.socket)).Nodup :=
  ⟨ReachableByEvents.addEvents _ _ _ _ trivial
      (ReachableByEvents.addEvents _ _ _ _ trivial ReachableByEvents.new),
    (C17_sorted_registrations 1024 _
      (ReachableByEvents.addEvents _ _ _ _ trivial
        (ReachableByEvents.addEvents _ _ _ _ trivial ReachableByEvents.new))).2.2.1⟩

/-- C18, as stated, fails: `addEvents(5, command 1, 0)` on a new reactor
stores a command event whose mask is 0. -/
theorem C18_counterexample :
    ReachableByEvents 1024 (fun _ => True)
      (addEvents 1024 (SelectEventPoll.new 1024) 5 1 0).2 ∧
    (addEvents 1024 (SelectEventPoll.new 1024) 5 1 0).2.socketEntries = [⟨5, [⟨1, 0⟩]⟩] :=
  ⟨ReachableByEvents.addEvents _ _ _ _ trivial ReachableByEvents.new, by decide⟩

/-- C18, amended: in every state reached from a new reactor by `addEvents`
calls with non-empty masks and `deleteEvents` calls with arbitrary masks, every
command event of every registration has a non-empty stored mask. -/
theorem C18_stored_masks_nonempty (FD_SETSIZE : Int) (s : SelectEventPoll)
    (h : ReachableByEvents FD_SETSIZE (fun m => m ≠ 0) s) :
    ∀ e ∈ s.socketEntries, ∀ ce ∈ e.commandEvents, ce.events ≠ 0 := by
  induction h with
  | new =>
    intro e he
    have : (SelectEventPoll.new FD_SETSIZE).socketEntries = [] :=
      updateFdSet_socketEntries _ _
    rw [this] at he
    simp at he
  | addEvents s socket command events hm hr ih =>
    have hinv := Reachable.inv FD_SETSIZE s (ReachableByEvents.reachable _ _ s hr)
    rcases sorted_cases s.socketEntries hinv.sorted socket with
      ⟨pre, e0, post, hx, he, hpre, hpost⟩ | ⟨pre, post, hx, hpre, hpost⟩
    · rw [addEvents_found FD_SETSIZE s pre post e0 socket command events hx he hpre hpost]
      simp only [updateFdSet_socketEntries]
      intro e hmem
      simp only [List.mem_append, List.mem_cons] at hmem
      rcases hmem with hmem | rfl | hmem
      · exact ih e (by rw [hx]; simp [hmem])
      · exact addCE_events_ne_zero _ _ _ hm (ih e0 (by rw [hx]; simp))
      · exact ih e (by rw [hx]; simp [hmem])
    · rw [addEvents_absent FD_SETSIZE s pre post socket command events hx hpre hpost]
      simp only [updateFdSet_socketEntries]
      intro e hmem
      simp only [List.mem_append, List.mem_cons] at hmem
      rcases hmem with hmem | rfl | hmem
      · exact ih e (by rw [hx]; simp [hmem])
      · intro ce hce
        simp only [List.mem_singleton] at hce
        rw [hce]
        exact hm
      · exact ih e (by rw [hx]; simp [hmem])
  | deleteEvents s socket command events hr ih =>
    have hinv := Reachable.inv FD_SETSIZE s (ReachableByEvents.reachable _ _ s hr)
    rcases sorted_cases s.socketEntries hinv.sorted socket with
      ⟨pre, e0, post, hx, he, hpre, hpost⟩ | ⟨pre, post, hx, hpre, hpost⟩
    · rw [deleteEvents_found FD_SETSIZE s pre post e0 socket command events hx he hpre hpost]
      simp only [updateFdSet_socketEntries]
      intro e hmem
      split_ifs at hmem
      · rcases List.mem_append.mp hmem with hmem | hmem
        · exact ih e (by rw [hx]; simp [hmem])
        · exact ih e (by rw [hx]; simp [hmem])
      · simp only [List.mem_append, List.mem_cons] at hmem
        rcases hmem with hmem | rfl | hmem
        · exact ih e (by rw [hx]; simp [hmem])
        · exact removeCE_events_ne_zero _ _ _ (ih e0 (by rw [hx]; simp))
        · exact ih e (by rw [hx]; simp [hmem])
    · rw [deleteEvents_absent FD_SETSIZE s pre post socket command events hx hpre hpost]
      exact ih

/-- C18, amended, at a concrete state: READ|WRITE added for command 1 on
socket 5, then WRITE deleted. -/
theorem C18_witness :
    ReachableByEvents 1024 (fun m => m ≠ 0)
      (deleteEvents 1024 (addEvents 1024 (SelectEventPoll.new 1024) 5 1
        (EVENT_READ ||| EVENT_WRITE)).2 5 1 EVENT_WRITE).2 ∧
    ∀ e ∈ (deleteEvents 1024 (addEvents 1024 (SelectEventPoll.new 1024) 5 1
        (EVENT_READ ||| EVENT_WRITE)).2 5 1 EVENT_WRITE).2.socketEntries,
      ∀ ce ∈ e.commandEvents, ce.events ≠ 0 :=
  ⟨ReachableByEvents.deleteEvents _ _ _ _
      (ReachableByEvents.addEvents _ _ _ _ (by decide) ReachableByEvents.new),
    C18_stored_masks_nonempty 1024 _
      (ReachableByEvents.deleteEvents _ _ _ _
        (ReachableByEvents.addEvents _ _ _ _ (by decide) ReachableByEvents.new))⟩

theorem mem_processEvents_active (ce : CommandEvent) (d c : Nat)
    (h : Call.setStatusActive c ∈ ce.processEvents d) :
    c = ce.command ∧ (ce.events &&& d ≠ 0 ∨ (EVENT_ERROR ||| EVENT_HUP) &&& d ≠ 0) := by
  rw [processEvents_eq, List.mem_append] at h
  rcases h with h | h
  · split_ifs at h with hc
    · simp only [List.mem_singleton, Call.setStatusActive.injEq] at h
      exact ⟨h, hc⟩
    · simp at h
  · rcases mem_directionalCalls _ _ _ h with h | h | h | h <;> simp at h

/-- C20: in every state reached from a new reactor by `addEvents` and
`deleteEvents` calls no registration holds two command events of one command,
so the first match of `std::find` is the only command event of that command;
and a `deleteEvents` that clears the whole stored mask of a command on a socket
leaves no command event of that command in a registration of the socket. -/
theorem C20_one_commandEvent_per_command (FD_SETSIZE : Int) (s : SelectEventPoll)
    (h : ReachableByEvents FD_SETSIZE (fun _ => True) s) :
    (∀ e ∈ s.socketEntries, (e.commandEvents.map (fun x => x.command)).Nodup) ∧
    (∀ e ∈ s.socketEntries, ∀ c : Nat,
      e.commandEvents.countP (fun x => decide (x.command = c)) ≤ 1) ∧
    (∀ (socket : Int) (command events m : Nat),
      storedEvents s socket command = some m → Nat.ldiff m events = 0 →
      ∀ e ∈ (deleteEvents FD_SETSIZE s socket command events).2.socketEntries,
        e.socket = socket → ∀ ce ∈ e.commandEvents, ce.command ≠ command) := by
  have hr := ReachableByEvents.reachable _ _ s h
  have hinv := Reachable.inv FD_SETSIZE s hr
  refine ⟨hinv.nodup, ?_, ?_⟩
  · intro e he c
    have hn := hinv.nodup e he
    have hc := List.nodup_iff_count_le_one.mp hn c
    rw [List.count, List.countP_map] at hc
    have heq : e.commandEvents.countP (fun x => decide (x.command = c)) =
        e.commandEvents.countP ((fun x => x == c) ∘ fun x => x.command) := by
      apply List.countP_congr
      intro x _
      simp
    rw [heq]
    exact hc
  · intro socket command events m hst hz
    have hinv2 := Reachable.inv FD_SETSIZE _
      (Reachable.deleteEvents s socket command events hr)
    apply storedEvents_none_no_commandEvent _ hinv2.sorted
    rw [storedEvents_deleteEvents FD_SETSIZE s hinv.sorted hinv.nodup, hst]
    simp [hz]

/-- C20 at a concrete state: command 1 holds READ on socket 5, where command 2
holds WRITE; `deleteEvents(5, 1, READ)` leaves no command event of command 1. -/
theorem C20_witness :
    ReachableByEvents 1024 (fun _ => True)
      (addEvents 1024 (addEvents 1024 (SelectEventPoll.new 1024) 5 1 EVENT_READ).2 5 2
        EVENT_WRITE).2 ∧
    ∀ e ∈ (deleteEvents 1024
        (addEvents 1024 (addEvents 1024 (SelectEventPoll.new 1024) 5 1 EVENT_READ).2 5 2
          EVENT_WRITE).2 5 1 EVENT_READ).2.socketEntries,
      e.socket = 5 → ∀ ce ∈ e.commandEvents, ce.command ≠ 1 :=
  ⟨ReachableByEvents.addEvents _ _ _ _ trivial
      (ReachableByEvents.addEvents _ _ _ _ trivial ReachableByEvents.new),
    (C20_one_commandEvent_per_command 1024 _
      (ReachableByEvents.addEvents _ _ _ _ trivial
        (ReachableByEvents.addEvents _ _ _ _ trivial ReachableByEvents.new))).2.2 5 1
      EVENT_READ 1 (by decide) (by rw [← xor_and_eq_ldiff]; decide)⟩

/-! ## Lemmas: the `select` loop returns -/

/-- When `select` is interrupted `k` times in a row and its next call is not,
the retry loop returns what that call left, with any bound above `k` on the
number of calls. -/
theorem selectLoop_returns {W : Type} (env : Env W) (nfds : Int) :
    ∀ (k : Nat) (st : W × Finset Int × Finset Int) (fuel : Nat), k < fuel →
      (∀ j, j < k →
        interrupted env
          (env.select (selectAfter env nfds j st).1 nfds (selectAfter env nfds j st).2.1
            (selectAfter env nfds j st).2.2).2 = true) →
      interrupted env
        (env.select (selectAfter env nfds k st).1 nfds (selectAfter env nfds k st).2.1
          (selectAfter env nfds k st).2.2).2 = false →
      selectLoop env nfds fuel st.1 st.2.1 st.2.2 =
        some (env.select (selectAfter env nfds k st).1 nfds (selectAfter env nfds k st).2.1
          (selectAfter env nfds k st).2.2) := by
  intro k
  induction k with
  | zero =>
    intro st fuel hf _ hlast
    cases fuel with
    | zero => omega
    | succ f =>
      simp only [selectAfter, interrupted, decide_eq_false_iff_not] at hlast
      simp only [selectLoop, selectAfter, hlast, if_false]
  | succ k ih =>
    intro st fuel hf hint hlast
    cases fuel with
    | zero => omega
    | succ f =>
      have h0 := hint 0 (Nat.succ_pos k)
      simp only [selectAfter, interrupted, decide_eq_true_eq] at h0
      simp only [selectLoop, h0, and_self, if_true]
      have := ih ((env.select st.1 nfds st.2.1 st.2.2).1,
        (env.select st.1 nfds st.2.1 st.2.2).2.rfds,
        (env.select st.1 nfds st.2.1 st.2.2).2.wfds) f (by omega)
        (fun j hj => hint (j + 1) (by omega)) hlast
      exact this

theorem pollSelect_of_returns {W : Type} (env : Env W) (w : W) (s : SelectEventPoll)
    (k : Nat) (w2 : W) (res : SelectResult) (h : SelectReturns env w s k w2 res)
    (fuel : Nat) (hf : k < fuel) : pollSelect env fuel w s = some (w2, res) := by
  obtain ⟨hint, hsel, hlast⟩ := h
  have := selectLoop_returns env ((pollStart env w s).fdmax + 1) k
    ((pollStart env w s).world, (pollStart env w s).rfds, (pollStart env w s).wfds) fuel hf
    hint (by rw [hsel]; exact hlast)
  rw [hsel] at this
  exact this

/-- A wait cycle in which `select` returns after `k` interruptions completes
with any bound above `k`, and its calls are the `getFds` of every watch, the
socket dispatch pass and the resolver pass. -/
theorem poll_returns {W : Type} (FD_SETSIZE : Int) (env : Env W) (w : W)
    (s : SelectEventPoll) (k : Nat) (w2 : W) (res : SelectResult)
    (h : SelectReturns env w s k w2 res) (fuel : Nat) (hf : k < fuel) :
    ∃ out, poll FD_SETSIZE env fuel w s = some out ∧
      out.2.2 = s.nameResolverEntries.map (fun e => Call.getFds e.nameResolver) ++
        socketPassCalls FD_SETSIZE (env.readOutside w2) (env.writeOutside w2) s res ++
        advanceCalls env s.nameResolverEntries (w2, res.rfds, res.wfds) :=
  poll_calls_eq FD_SETSIZE env fuel w s w2 res (pollSelect_of_returns env w s k w2 res h fuel hf)

theorem FD_ISSET_in_range (FD_SETSIZE : Int) (outside : Int → Bool) (fd : Int)
    (set : Finset Int) (hlo : 0 ≤ fd) (hhi : fd < FD_SETSIZE) :
    FD_ISSET FD_SETSIZE outside fd set = decide (fd ∈ set) := by
  unfold FD_ISSET
  rw [if_pos ⟨hlo, hhi⟩]

theorem mem_socketPassCalls (FD_SETSIZE : Int) (routside woutside : Int → Bool)
    (s : SelectEventPoll) (res : SelectResult) (hpos : 0 < res.retval) (e : SocketEntry)
    (he : e ∈ s.socketEntries) (ce : CommandEvent) (hce : ce ∈ e.commandEvents) (call : Call)
    (hc : call ∈ ce.processEvents
      (deliveredEvents FD_SETSIZE routside woutside res.rfds res.wfds e)) :
    call ∈ socketPassCalls FD_SETSIZE routside woutside s res := by
  unfold socketPassCalls
  rw [if_pos hpos, List.mem_flatMap]
  refine ⟨e, he, ?_⟩
  rw [pollSocketEntry_eq]
  exact processEvents_mem e ce hce _ call hc

theorem deliveredEvents_read (FD_SETSIZE : Int) (routside woutside : Int → Bool)
    (rfds wfds : Finset Int) (e : SocketEntry) (hlo : 0 ≤ e.socket)
    (hhi : e.socket < FD_SETSIZE) (hr : e.socket ∈ rfds) :
    deliveredEvents FD_SETSIZE routside woutside rfds wfds e &&& EVENT_READ ≠ 0 := by
  unfold deliveredEvents
  rw [FD_ISSET_in_range FD_SETSIZE routside e.socket rfds hlo hhi]
  simp only [hr, decide_True, if_true]
  split_ifs <;> decide

theorem deliveredEvents_both (FD_SETSIZE : Int) (routside woutside : Int → Bool)
    (rfds wfds : Finset Int) (e : SocketEntry) (hlo : 0 ≤ e.socket)
    (hhi : e.socket < FD_SETSIZE) (hr : e.socket ∈ rfds) (hw : e.socket ∈ wfds) :
    deliveredEvents FD_SETSIZE routside woutside rfds wfds e = 3 := by
  unfold deliveredEvents
  rw [FD_ISSET_in_range FD_SETSIZE routside e.socket rfds hlo hhi,
    FD_ISSET_in_range FD_SETSIZE woutside e.socket wfds hlo hhi]
  simp only [hr, hw, decide_True, if_true]
  decide

/-- C2, as stated, fails: command 1 registered READ only and command 2 WRITE
only on socket 5; when `select` reports socket 5 readable and writable, the
wait cycle also calls `writeEventReceived` on command 1 and `readEventReceived`
on command 2. -/
theorem C2_counterexample :
    storedEvents (addEvents 1024 (addEvents 1024 (SelectEventPoll.new 1024) 5 1
      EVENT_READ).2 5 2 EVENT_WRITE).2 5 1 = some EVENT_READ ∧
    storedEvents (addEvents 1024 (addEvents 1024 (SelectEventPoll.new 1024) 5 1
      EVENT_READ).2 5 2 EVENT_WRITE).2 5 2 = some EVENT_WRITE ∧
    (poll 1024 (readyEnv 1 {5} {5}) 1 ()
      (addEvents 1024 (addEvents 1024 (SelectEventPoll.new 1024) 5 1 EVENT_READ).2 5 2
        EVENT_WRITE).2).map (fun o => o.2.2) =
      some [Call.setStatusActive 1, Call.readEventReceived 1, Call.writeEventReceived 1,
        Call.setStatusActive 2, Call.readEventReceived 2, Call.writeEventReceived 2] := by
  decide

/-- C2, amended: for a socket in `[0, FD_SETSIZE)` on which command `c1` has
stored READ only and a distinct command `c2` WRITE only, a wait cycle in which
`select`, after `k` interruptions, reports the socket readable and writable
completes with any bound above `k` on the calls of `select`, marks both
commands active and calls both `readEventReceived` and `writeEventReceived` on
each of the two commands. -/
theorem C2_ready_both_directions {W : Type} (FD_SETSIZE : Int) (env : Env W) (w w2 : W)
    (s : SelectEventPoll) (res : SelectResult) (socket : Int) (c1 c2 : Nat)
    (hlo : 0 ≤ socket) (hhi : socket < FD_SETSIZE) (_hne : c1 ≠ c2)
    (h1 : storedEvents s socket c1 = some EVENT_READ)
    (h2 : storedEvents s socket c2 = some EVENT_WRITE)
    (k : Nat) (hsel : SelectReturns env w s k w2 res) (hpos : 0 < res.retval)
    (hr : socket ∈ res.rfds) (hw : socket ∈ res.wfds) (fuel : Nat) (hfuel : k < fuel) :
    ∃ out, poll FD_SETSIZE env fuel w s = some out ∧
      Call.setStatusActive c1 ∈ out.2.2 ∧ Call.readEventReceived c1 ∈ out.2.2 ∧
      Call.writeEventReceived c1 ∈ out.2.2 ∧
      Call.setStatusActive c2 ∈ out.2.2 ∧ Call.readEventReceived c2 ∈ out.2.2 ∧
      Call.writeEventReceived c2 ∈ out.2.2 := by
  obtain ⟨out, hout, hcalls⟩ := poll_returns FD_SETSIZE env w s k w2 res hsel fuel hfuel
  obtain ⟨e1, he1, hs1, ce1, hce1, hcmd1, hev1⟩ := storedEvents_mem s socket c1 _ h1
  obtain ⟨e2, he2, hs2, ce2, hce2, hcmd2, hev2⟩ := storedEvents_mem s socket c2 _ h2
  have hd1 := deliveredEvents_both FD_SETSIZE (env.readOutside w2) (env.writeOutside w2)
    res.rfds res.wfds e1 (by rw [hs1]; exact hlo) (by rw [hs1]; exact hhi)
    (by rw [hs1]; exact hr) (by rw [hs1]; exact hw)
  have hd2 := deliveredEvents_both FD_SETSIZE (env.readOutside w2) (env.writeOutside w2)
    res.rfds res.wfds e2 (by rw [hs2]; exact hlo) (by rw [hs2]; exact hhi)
    (by rw [hs2]; exact hr) (by rw [hs2]; exact hw)
  have a1 : EVENT_READ &&& 3 ≠ 0 := by decide
  have a2 : EVENT_WRITE &&& 3 ≠ 0 := by decide
  have a3 : ¬ (EVENT_ERROR &&& 3 ≠ 0) := by decide
  have a4 : ¬ (EVENT_HUP &&& 3 ≠ 0) := by decide
  have p1 : ce1.processEvents 3 = [Call.setStatusActive c1, Call.readEventReceived c1,
      Call.writeEventReceived c1] := by
    simp only [CommandEvent.processEvents, hev1, hcmd1, a1, a2, a3, a4, true_or, if_true,
      if_false]
    rfl
  have p2 : ce2.processEvents 3 = [Call.setStatusActive c2, Call.readEventReceived c2,
      Call.writeEventReceived c2] := by
    simp only [CommandEvent.processEvents, hev2, hcmd2, a1, a2, a3, a4, true_or, if_true,
      if_false]
    rfl
  have m1 : ∀ call, call ∈ ce1.processEvents 3 → call ∈ out.2.2 := by
    intro call hc
    rw [hcalls]
    simp only [List.mem_append]
    exact Or.inl (Or.inr (mem_socketPassCalls FD_SETSIZE _ _ s res hpos e1 he1 ce1 hce1 call
      (by rw [hd1]; exact hc)))
  have m2 : ∀ call, call ∈ ce2.processEvents 3 → call ∈ out.2.2 := by
    intro call hc
    rw [hcalls]
    simp only [List.mem_append]
    exact Or.inl (Or.inr (mem_socketPassCalls FD_SETSIZE _ _ s res hpos e2 he2 ce2 hce2 call
      (by rw [hd2]; exact hc)))
  refine ⟨out, hout, m1 _ ?_, m1 _ ?_, m1 _ ?_, m2 _ ?_, m2 _ ?_, m2 _ ?_⟩
  · rw [p1]; simp
  · rw [p1]; simp
  · rw [p1]; simp
  · rw [p2]; simp
  · rw [p2]; simp
  · rw [p2]; simp

/-- C2, amended, at a concrete cycle: socket 5 with command 1 on READ and
command 2 on WRITE; `select` is interrupted once, then returns 1 with socket 5
in both sets; the bound on the calls of `select` is 2. -/
theorem C2_witness :
    SelectReturns (interruptedEnv 1 {5} {5}) 1
      (addEvents 1024 (addEvents 1024 (SelectEventPoll.new 1024) 5 1 EVENT_READ).2 5 2
        EVENT_WRITE).2 1 0 ⟨1, 0, {5}, {5}⟩ ∧
    ∃ out, poll 1024 (interruptedEnv 1 {5} {5}) 2 1
        (addEvents 1024 (addEvents 1024 (SelectEventPoll.new 1024) 5 1 EVENT_READ).2 5 2
          EVENT_WRITE).2 = some out ∧
      Call.setStatusActive 1 ∈ out.2.2 ∧ Call.readEventReceived 1 ∈ out.2.2 ∧
      Call.writeEventReceived 1 ∈ out.2.2 ∧
      Call.setStatusActive 2 ∈ out.2.2 ∧ Call.readEventReceived 2 ∈ out.2.2 ∧
      Call.writeEventReceived 2 ∈ out.2.2 :=
  ⟨⟨by decide, rfl, rfl⟩,
    C2_ready_both_directions 1024 (interruptedEnv 1 {5} {5}) 1 0
      (addEvents 1024 (addEvents 1024 (SelectEventPoll.new 1024) 5 1 EVENT_READ).2 5 2
        EVENT_WRITE).2 ⟨1, 0, {5}, {5}⟩ 5 1 2 (by decide) (by decide) (by decide)
      (by decide) (by decide) 1 ⟨by decide, rfl, rfl⟩ (by decide) (by decide) (by decide) 2
      (by decide)⟩

theorem poll_read_dispatch {W : Type} (FD_SETSIZE : Int) (env : Env W) (w : W)
    (s : SelectEventPoll) (k : Nat) (w2 : W) (res : SelectResult)
    (hsel : SelectReturns env w s k w2 res) (fuel : Nat) (hfuel : k < fuel)
    (hpos : 0 < res.retval) (socket : Int) (hlo : 0 ≤ socket) (hhi : socket < FD_SETSIZE)
    (hr : socket ∈ res.rfds) :
    ∃ out, poll FD_SETSIZE env fuel w s = some out ∧
      ∀ command m, storedEvents s socket command = some m → m &&& EVENT_READ ≠ 0 →
        Call.readEventReceived command ∈ out.2.2 ∧ Call.setStatusActive command ∈ out.2.2 := by
  obtain ⟨out, hout, hcalls⟩ := poll_returns FD_SETSIZE env w s k w2 res hsel fuel hfuel
  refine ⟨out, hout, ?_⟩
  intro command m hst hm
  obtain ⟨e, he, hs, ce, hce, hcmd, hev⟩ := storedEvents_mem s socket command m hst
  have hd := deliveredEvents_read FD_SETSIZE (env.readOutside w2) (env.writeOutside w2)
    res.rfds res.wfds e (by rw [hs]; exact hlo) (by rw [hs]; exact hhi)
    (by rw [hs]; exact hr)
  have hp := processEvents_read ce _ (by rw [hev]; exact hm) hd
  rw [hcmd] at hp
  rw [hcalls]
  simp only [List.mem_append]
  exact ⟨Or.inl (Or.inr (mem_socketPassCalls FD_SETSIZE _ _ s res hpos e he ce hce _ hp.1)),
    Or.inl (Or.inr (mem_socketPassCalls FD_SETSIZE _ _ s res hpos e he ce hce _ hp.2))⟩

/-- C6: in a reachable state where two distinct commands both have READ stored
on a socket in `[0, FD_SETSIZE)`, a wait cycle in which `select`, after `k`
interruptions, reports the socket readable completes with any bound above `k`
on the calls of `select`, calls `readEventReceived` on both commands and marks
both active; after `deleteEvents(socket, c1, READ)` the socket is still in
`_rfdset`, and such a wait cycle still completes, calls `readEventReceived` on
`c2` and marks it active. -/
theorem C6_shared_read (FD_SETSIZE : Int) (s : SelectEventPoll)
    (h : Reachable FD_SETSIZE s) (socket : Int) (hlo : 0 ≤ socket)
    (hhi : socket < FD_SETSIZE) (c1 c2 m1 m2 : Nat) (hne : c1 ≠ c2)
    (h1 : storedEvents s socket c1 = some m1) (hr1 : m1 &&& EVENT_READ ≠ 0)
    (h2 : storedEvents s socket c2 = some m2) (hr2 : m2 &&& EVENT_READ ≠ 0) :
    (∀ (W : Type) (env : Env W) (w w2 : W) (res : SelectResult) (k fuel : Nat),
      SelectReturns env w s k w2 res → k < fuel → 0 < res.retval → socket ∈ res.rfds →
      ∃ out, poll FD_SETSIZE env fuel w s = some out ∧
        Call.readEventReceived c1 ∈ out.2.2 ∧ Call.setStatusActive c1 ∈ out.2.2 ∧
        Call.readEventReceived c2 ∈ out.2.2 ∧ Call.setStatusActive c2 ∈ out.2.2) ∧
    socket ∈ (deleteEvents FD_SETSIZE s socket c1 EVENT_READ).2.rfdset ∧
    (∀ (W : Type) (env : Env W) (w w2 : W) (res : SelectResult) (k fuel : Nat),
      SelectReturns env w (deleteEvents FD_SETSIZE s socket c1 EVENT_READ).2 k w2 res →
      k < fuel → 0 < res.retval → socket ∈ res.rfds →
      ∃ out, poll FD_SETSIZE env fuel w (deleteEvents FD_SETSIZE s socket c1 EVENT_READ).2 =
          some out ∧
        Call.readEventReceived c2 ∈ out.2.2 ∧ Call.setStatusActive c2 ∈ out.2.2) := by
  have hinv := Reachable.inv FD_SETSIZE s h
  have hinv2 := Reachable.inv FD_SETSIZE _ (Reachable.deleteEvents s socket c1 EVENT_READ h)
  have hst2 : storedEvents (deleteEvents FD_SETSIZE s socket c1 EVENT_READ).2 socket c2 =
      some m2 := by
    rw [storedEvents_deleteEvents FD_SETSIZE s hinv.sorted hinv.nodup]
    have : ¬ (socket = socket ∧ c2 = c1) := fun hc => hne hc.2.symm
    rw [if_neg this]
    exact h2
  refine ⟨?_, ?_, ?_⟩
  · intro W env w w2 res k fuel hsel hfuel hpos hr
    obtain ⟨out, hout, hall⟩ := poll_read_dispatch FD_SETSIZE env w s k w2 res hsel fuel
      hfuel hpos socket hlo hhi hr
    exact ⟨out, hout, (hall c1 m1 h1 hr1).1, (hall c1 m1 h1 hr1).2, (hall c2 m2 h2 hr2).1,
      (hall c2 m2 h2 hr2).2⟩
  · rw [← hinv2.rfdset, mem_updateFdSet_rfdset]
    obtain ⟨e, he, hs, ce, hce, _, hev⟩ := storedEvents_mem _ socket c2 m2 hst2
    refine ⟨e, he, hs, by omega, ?_⟩
    rw [getEvents_land]
    exact ⟨ce, hce, by rw [hev]; exact hr2⟩
  · intro W env w w2 res k fuel hsel hfuel hpos hr
    obtain ⟨out, hout, hall⟩ := poll_read_dispatch FD_SETSIZE env w _ k w2 res hsel fuel
      hfuel hpos socket hlo hhi hr
    exact ⟨out, hout, (hall c2 m2 hst2 hr2).1, (hall c2 m2 hst2 hr2).2⟩

/-- C6 at a concrete state: commands 1 and 2 both hold READ on socket 5; after
`deleteEvents(5, 1, READ)` a wait cycle in which `select` is interrupted once
and then returns 1 with socket 5 readable completes with bound 2 and still
calls `readEventReceived` on command 2 and marks it active. -/
theorem C6_witness :
    Reachable 1024 (addEvents 1024 (addEvents 1024 (SelectEventPoll.new 1024) 5 1
      EVENT_READ).2 5 2 EVENT_READ).2 ∧
    ∃ out, poll 1024 (interruptedEnv 1 {5} ∅) 2 1
        (deleteEvents 1024 (addEvents 1024 (addEvents 1024 (SelectEventPoll.new 1024)
          5 1 EVENT_READ).2 5 2 EVENT_READ).2 5 1 EVENT_READ).2 = some out ∧
      Call.readEventReceived 2 ∈ out.2.2 ∧ Call.setStatusActive 2 ∈ out.2.2 :=
  ⟨Reachable.addEvents _ _ _ _ (Reachable.addEvents _ _ _ _ Reachable.new),
    (C6_shared_read 1024 (addEvents 1024 (addEvents 1024 (SelectEventPoll.new 1024) 5 1
      EVENT_READ).2 5 2 EVENT_READ).2
      (Reachable.addEvents _ _ _ _ (Reachable.addEvents _ _ _ _ Reachable.new)) 5
      (by decide) (by decide) 1 2 EVENT_READ EVENT_READ (by decide) (by decide) (by decide)
      (by decide) (by decide)).2.2 Nat (interruptedEnv 1 {5} ∅) 1 0 ⟨1, 0, {5}, ∅⟩ 1 2
      ⟨by decide, rfl, rfl⟩ (by decide) (by decide) (by decide)⟩

/-- C13: a wait cycle in which `select`, after `k` interruptions, returns
anything at all (a positive count, zero or an error) completes with any bound
above `k` on the calls of `select`; its calls are the `getFds` calls, the
socket dispatch pass and then the resolver pass, in which every resolver watch
is advanced exactly once, in order, and the step of a watch marks its command
active exactly when the status of its resolver after that advance is
`STATUS_SUCCESS` or `STATUS_ERROR`. -/
theorem C13_resolvers_advanced {W : Type} (FD_SETSIZE : Int) (env : Env W) (w w2 : W)
    (s : SelectEventPoll) (res : SelectResult) (k : Nat)
    (hsel : SelectReturns env w s k w2 res) (fuel : Nat) (hfuel : k < fuel) :
    ∃ out, poll FD_SETSIZE env fuel w s = some out ∧
      out.2.2 = s.nameResolverEntries.map (fun e => Call.getFds e.nameResolver) ++
        socketPassCalls FD_SETSIZE (env.readOutside w2) (env.writeOutside w2) s res ++
        advanceCalls env s.nameResolverEntries (w2, res.rfds, res.wfds) ∧
      out.2.2.filter Call.isProcess =
        s.nameResolverEntries.map (fun e => Call.process e.nameResolver) ∧
      ∀ before entry after, s.nameResolverEntries = before ++ entry :: after →
        ∃ step,
          advanceCalls env s.nameResolverEntries (w2, res.rfds, res.wfds) =
            advanceCalls env before (w2, res.rfds, res.wfds) ++ step ++
              advanceCalls env after
                (advanceWorld env (before ++ [entry]) (w2, res.rfds, res.wfds)) ∧
          step.filter Call.isProcess = [Call.process entry.nameResolver] ∧
          (Call.setStatusActive entry.command ∈ step ↔
            (env.getStatus (advanceWorld env (before ++ [entry]) (w2, res.rfds, res.wfds)).1
                entry.nameResolver = Status.STATUS_SUCCESS ∨
              env.getStatus (advanceWorld env (before ++ [entry]) (w2, res.rfds, res.wfds)).1
                entry.nameResolver = Status.STATUS_ERROR)) := by
  obtain ⟨out, hout, hcalls⟩ := poll_returns FD_SETSIZE env w s k w2 res hsel fuel hfuel
  refine ⟨out, hout, hcalls, ?_, ?_⟩
  · rw [hcalls, List.filter_append, List.filter_append, socketPassCalls_filter_process,
      advanceCalls_filter_process]
    have : (s.nameResolverEntries.map (fun e => Call.getFds e.nameResolver)).filter
        Call.isProcess = [] := by
      rw [List.filter_eq_nil_iff]
      intro call h
      simp only [List.mem_map] at h
      obtain ⟨e, _, rfl⟩ := h
      simp [Call.isProcess]
    rw [this]
    simp
  · intro before entry after hsplit
    refine ⟨Call.process entry.nameResolver ::
      (if (env.getStatus (advanceWorld env (before ++ [entry]) (w2, res.rfds, res.wfds)).1
        entry.nameResolver).terminal then [Call.setStatusActive entry.command] else []),
      ?_, ?_, ?_⟩
    · rw [hsplit, advanceCalls_append, advanceWorld_append]
      simp only [advanceCalls, advanceWorld, List.append_assoc]
    · split_ifs <;> simp [Call.isProcess]
    · rw [← terminal_iff]
      split_ifs with ht
      · simp [ht]
      · simp [ht]

/-- C13 at a concrete cycle: the watch (resolver 1, command 3) on a new
reactor, `select` returning 0 at its first call, the resolver succeeding when
first advanced: the cycle completes and command 3 is marked active. -/
theorem C13_witness :
    SelectReturns (resolverEnv 0 Status.STATUS_SUCCESS 0) false
      (addNameResolver (SelectEventPoll.new 1024) 1 3).2 0 false ⟨0, 0, ∅, ∅⟩ ∧
    ∃ out, poll 1024 (resolverEnv 0 Status.STATUS_SUCCESS 0) 1 false
        (addNameResolver (SelectEventPoll.new 1024) 1 3).2 = some out ∧
      out.2.2 = [Call.getFds 1, Call.process 1, Call.setStatusActive 3] := by
  refine ⟨⟨by decide, rfl, rfl⟩, ?_⟩
  obtain ⟨out, h1, h2, _⟩ := C13_resolvers_advanced 1024
    (resolverEnv 0 Status.STATUS_SUCCESS 0) false false
    (addNameResolver (SelectEventPoll.new 1024) 1 3).2 ⟨0, 0, ∅, ∅⟩ 0
    ⟨by decide, rfl, rfl⟩ 1 (by decide)
  exact ⟨out, h1, h2⟩

theorem deliveredEvents_bits (FD_SETSIZE : Int) (routside woutside : Int → Bool)
    (rfds wfds : Finset Int) (e : SocketEntry) :
    (deliveredEvents FD_SETSIZE routside woutside rfds wfds e &&& EVENT_READ ≠ 0 ↔
      FD_ISSET FD_SETSIZE routside e.socket rfds = true) ∧
    (deliveredEvents FD_SETSIZE routside woutside rfds wfds e &&& EVENT_WRITE ≠ 0 ↔
      FD_ISSET FD_SETSIZE woutside e.socket wfds = true) ∧
    deliveredEvents FD_SETSIZE routside woutside rfds wfds e &&& EVENT_ERROR = 0 ∧
    deliveredEvents FD_SETSIZE routside woutside rfds wfds e &&& EVENT_HUP = 0 ∧
    (EVENT_ERROR ||| EVENT_HUP) &&&
      deliveredEvents FD_SETSIZE routside woutside rfds wfds e = 0 := by
  unfold deliveredEvents
  cases FD_ISSET FD_SETSIZE routside e.socket rfds <;>
    cases FD_ISSET FD_SETSIZE woutside e.socket wfds <;>
    simp only [if_true, if_false, Bool.false_eq_true] <;> decide

/-- The part of C19 that holds of every wait cycle: the events delivered to a
registration are READ exactly when `FD_ISSET` holds of its socket on the
working read set and WRITE exactly when it holds on the working write set (for
a socket in `[0, FD_SETSIZE)`: exactly when the socket is in the set), never
ERROR or HUP; a cycle in which `select` returns after `k` interruptions
completes with any bound above `k`, calls neither `errorEventReceived` nor
`hupEventReceived`, and its socket dispatch pass marks a command active only
when `select` returned a positive count and the delivered events share a bit
with the mask of a command event of that command. -/
theorem poll_delivered_events {W : Type} (FD_SETSIZE : Int) (env : Env W) (w w2 : W)
    (s : SelectEventPoll) (res : SelectResult) (k : Nat)
    (hsel : SelectReturns env w s k w2 res) (fuel : Nat) (hfuel : k < fuel) :
    (∀ e : SocketEntry,
      pollSocketEntry FD_SETSIZE (env.readOutside w2) (env.writeOutside w2) res.rfds
          res.wfds e =
        e.processEvents (deliveredEvents FD_SETSIZE (env.readOutside w2)
          (env.writeOutside w2) res.rfds res.wfds e) ∧
      (deliveredEvents FD_SETSIZE (env.readOutside w2) (env.writeOutside w2) res.rfds
          res.wfds e &&& EVENT_READ ≠ 0 ↔
        FD_ISSET FD_SETSIZE (env.readOutside w2) e.socket res.rfds = true) ∧
      (deliveredEvents FD_SETSIZE (env.readOutside w2) (env.writeOutside w2) res.rfds
          res.wfds e &&& EVENT_WRITE ≠ 0 ↔
        FD_ISSET FD_SETSIZE (env.writeOutside w2) e.socket res.wfds = true) ∧
      (0 ≤ e.socket → e.socket < FD_SETSIZE →
        (deliveredEvents FD_SETSIZE (env.readOutside w2) (env.writeOutside w2) res.rfds
            res.wfds e &&& EVENT_READ ≠ 0 ↔ e.socket ∈ res.rfds) ∧
        (deliveredEvents FD_SETSIZE (env.readOutside w2) (env.writeOutside w2) res.rfds
            res.wfds e &&& EVENT_WRITE ≠ 0 ↔ e.socket ∈ res.wfds)) ∧
      deliveredEvents FD_SETSIZE (env.readOutside w2) (env.writeOutside w2) res.rfds
        res.wfds e &&& EVENT_ERROR = 0 ∧
      deliveredEvents FD_SETSIZE (env.readOutside w2) (env.writeOutside w2) res.rfds
        res.wfds e &&& EVENT_HUP = 0) ∧
    ∃ out, poll FD_SETSIZE env fuel w s = some out ∧
      out.2.2 = s.nameResolverEntries.map (fun e => Call.getFds e.nameResolver) ++
        socketPassCalls FD_SETSIZE (env.readOutside w2) (env.writeOutside w2) s res ++
        advanceCalls env s.nameResolverEntries (w2, res.rfds, res.wfds) ∧
      (∀ c, Call.errorEventReceived c ∉ out.2.2 ∧ Call.hupEventReceived c ∉ out.2.2) ∧
      (∀ c, Call.setStatusActive c ∈
          socketPassCalls FD_SETSIZE (env.readOutside w2) (env.writeOutside w2) s res →
        0 < res.retval ∧ ∃ e ∈ s.socketEntries, ∃ ce ∈ e.commandEvents,
          ce.command = c ∧ ce.events &&& deliveredEvents FD_SETSIZE (env.readOutside w2)
            (env.writeOutside w2) res.rfds res.wfds e ≠ 0) := by
  have hsock : ∀ call, call ∈
        socketPassCalls FD_SETSIZE (env.readOutside w2) (env.writeOutside w2) s res →
      0 < res.retval ∧ ∃ e ∈ s.socketEntries, ∃ ce ∈ e.commandEvents,
        call ∈ ce.processEvents (deliveredEvents FD_SETSIZE (env.readOutside w2)
          (env.writeOutside w2) res.rfds res.wfds e) := by
    intro call h
    unfold socketPassCalls at h
    split_ifs at h with hpos
    · simp only [List.mem_flatMap] at h
      obtain ⟨e, he, hc⟩ := h
      rw [pollSocketEntry_eq] at hc
      unfold SocketEntry.processEvents at hc
      simp only [List.mem_flatMap] at hc
      obtain ⟨ce, hce, hcall⟩ := hc
      exact ⟨hpos, e, he, ce, hce, hcall⟩
    · simp at h
  have hadv : ∀ (l : List AsyncNameResolverEntry) (st : W × Finset Int × Finset Int) call,
      call ∈ advanceCalls env l st →
        (∃ r, call = Call.process r) ∨ ∃ c, call = Call.setStatusActive c := by
    intro l
    induction l with
    | nil => intro st call h; simp [advanceCalls] at h
    | cons a rest ih =>
      intro st call h
      simp only [advanceCalls, List.cons_append, List.mem_cons, List.mem_append] at h
      rcases h with h | h | h
      · exact Or.inl ⟨_, h⟩
      · split_ifs at h
        · simp only [List.mem_singleton] at h
          exact Or.inr ⟨_, h⟩
        · simp at h
      · exact ih _ call h
  have hdir : ∀ call, (call.isDirectional = true) →
      (∀ c, call ≠ Call.readEventReceived c) → (∀ c, call ≠ Call.writeEventReceived c) →
      ∀ out : List Call, out = s.nameResolverEntries.map (fun e => Call.getFds e.nameResolver) ++
        socketPassCalls FD_SETSIZE (env.readOutside w2) (env.writeOutside w2) s res ++
        advanceCalls env s.nameResolverEntries (w2, res.rfds, res.wfds) → call ∉ out := by
    intro call hd hnr hnw out hout hmem
    rw [hout] at hmem
    simp only [List.mem_append, List.mem_map] at hmem
    rcases hmem with (⟨e, _, he⟩ | hmem) | hmem
    · rw [← he] at hd
      simp [Call.isDirectional] at hd
    · obtain ⟨_, e, _, ce, _, hcall⟩ := hsock call hmem
      rw [processEvents_eq, List.mem_append] at hcall
      have hb := deliveredEvents_bits FD_SETSIZE (env.readOutside w2) (env.writeOutside w2)
        res.rfds res.wfds e
      rcases hcall with hcall | hcall
      · split_ifs at hcall
        · simp only [List.mem_singleton] at hcall
          rw [hcall] at hd
          simp [Call.isDirectional] at hd
        · simp at hcall
      · rcases mem_directionalCalls _ _ _ hcall with h | h | h | h
        · exact hnr _ h.1
        · exact hnw _ h.1
        · exact h.2 hb.2.2.1
        · exact h.2 hb.2.2.2.1
    · rcases hadv _ _ _ hmem with ⟨r, h⟩ | ⟨c, h⟩ <;> rw [h] at hd <;>
        simp [Call.isDirectional] at hd
  refine ⟨?_, ?_⟩
  · intro e
    have hb := deliveredEvents_bits FD_SETSIZE (env.readOutside w2) (env.writeOutside w2)
      res.rfds res.wfds e
    refine ⟨pollSocketEntry_eq _ _ _ _ _ e, hb.1, hb.2.1, ?_, hb.2.2.1, hb.2.2.2.1⟩
    intro hlo hhi
    have h1 := hb.1
    have h2 := hb.2.1
    rw [FD_ISSET_in_range FD_SETSIZE _ e.socket _ hlo hhi, decide_eq_true_eq] at h1 h2
    exact ⟨h1, h2⟩
  · obtain ⟨out, hout, hcalls⟩ := poll_returns FD_SETSIZE env w s k w2 res hsel fuel hfuel
    refine ⟨out, hout, hcalls, ?_, ?_⟩
    · intro c
      exact ⟨hdir (Call.errorEventReceived c) rfl (by simp) (by simp) _ hcalls,
        hdir (Call.hupEventReceived c) rfl (by simp) (by simp) _ hcalls⟩
    · intro c hmem
      obtain ⟨hpos, e, he, ce, hce, hcall⟩ := hsock _ hmem
      have hact := mem_processEvents_active ce _ c hcall
      have hb := deliveredEvents_bits FD_SETSIZE (env.readOutside w2) (env.writeOutside w2)
        res.rfds res.wfds e
      refine ⟨hpos, e, he, ce, hce, hact.1.symm, ?_⟩
      rcases hact.2 with h | h
      · exact h
      · exact absurd hb.2.2.2.2 h

/-- C19 at its failing input: sockets 63 (command 2, READ) and -1 (command 1,
READ) are registered on a new reactor with `FD_SETSIZE` 1024, and `select`
returns 1 leaving the working read set `{63}`.  `poll` applies `FD_ISSET` to
socket -1 without a range test and the read finds the bit of descriptor 63:
READ is delivered to command 1, whose socket is not in the working read set. -/
theorem C19_out_of_range_read :
    Reachable 1024 (addEvents 1024 (addEvents 1024 (SelectEventPoll.new 1024) 63 2
      EVENT_READ).2 (-1) 1 EVENT_READ).2 ∧
    (-1 : Int) ∉ ({63} : Finset Int) ∧
    (poll 1024 (aliasEnv 1 {63} ∅ 63) 1 ()
      (addEvents 1024 (addEvents 1024 (SelectEventPoll.new 1024) 63 2 EVENT_READ).2 (-1) 1
        EVENT_READ).2).map (fun o => o.2.2) =
      some [Call.setStatusActive 1, Call.readEventReceived 1, Call.setStatusActive 2,
        Call.readEventReceived 2] :=
  ⟨Reachable.addEvents _ _ _ _ (Reachable.addEvents _ _ _ _ Reachable.new), by decide,
    by decide⟩

end aria2
